import Mathlib

/-!
# netfilter rate limiter (gmsv_serversecure)

A shallow embedding of `source/netfilter/client.cpp` and
`source/netfilter/clientmanager.cpp`.

* `uint32_t` values are natural numbers; subtraction, increment and product are taken
  modulo `2^32` (`sub32`, `inc32`, `mul32`).
* Objects created by `std::make_shared<Client>` live in `ClientManager.heap`; a
  `std::shared_ptr<Client>` is the index of its object in the heap, so that the recency list
  `m_clients` and the registry `m_address_map` alias the same objects as in the source.
* `std::unordered_map` is an association list in iteration order; `emplace` puts the new
  entry first, `erase` keeps the order of the remaining entries.
* Operations whose C++ behaviour is undefined (incrementing the end iterator of the registry in
  `SafePrune`, the underflow of `prune_amount` followed by `std::next` past the end in
  `LastDitchPrune`) return `none`.
-/

namespace netfilter

/-! ## Machine arithmetic -/

/-- Number of values of `uint32_t`. -/
def U32 : Nat := 4294967296

/-- Unsigned 32-bit subtraction `a - b`. -/
def sub32 (a b : Nat) : Nat := (a % U32 + (U32 - b % U32)) % U32

/-- Unsigned 32-bit product `a * b`. -/
def mul32 (a b : Nat) : Nat := (a * b) % U32

/-- Unsigned 32-bit pre-increment `++a`. -/
def inc32 (a : Nat) : Nat := (a + 1) % U32

/-! ## Data model -/

/-- Fields of `class Client` (client.hpp); the back reference `m_manager` is passed to the
member functions that read the configuration. -/
structure Client where
  m_address : Nat
  m_last_ping : Nat
  m_last_reset : Nat
  m_count : Nat
  m_marked_for_removal : Bool
deriving DecidableEq, Repr, Inhabited

/-- Verdicts of `ClientManager::CheckIPRate` (`enum class RateLimitType`). -/
inductive RateLimitType where
  | None
  | Individual
  | Global
deriving DecidableEq, Repr

/-- Fields of `class ClientManager` (clientmanager.hpp) together with the heap of `Client`
objects its shared pointers refer to. -/
structure ClientManager where
  heap : List Client
  m_clients : List Nat
  m_address_map : List (Nat × Nat)
  m_enabled : Bool
  m_global_count : Nat
  m_global_last_reset : Nat
  m_max_window : Nat
  m_max_sec : Nat
  m_global_max_sec : Nat
deriving DecidableEq, Repr

namespace ClientManager

def MaxClients : Nat := 8192

def SafePruneMaxClients : Nat := MaxClients * 3 / 4

def LastDitchPruneMaxClients : Nat := MaxClients * 7 / 8

def MaxQueriesWindow : Nat := 60

def MaxQueriesPerSecond : Nat := 1

def GlobalMaxQueriesPerSecond : Nat := 50

/-- Constructor `ClientManager::ClientManager( )`. -/
def init : ClientManager :=
  { heap := [], m_clients := [], m_address_map := [], m_enabled := false, m_global_count := 0,
    m_global_last_reset := 0, m_max_window := MaxQueriesWindow, m_max_sec := MaxQueriesPerSecond,
    m_global_max_sec := GlobalMaxQueriesPerSecond }

def SetState (s : ClientManager) (enabled : Bool) : ClientManager :=
  { s with m_enabled := enabled }

def GetMaxQueriesWindow (s : ClientManager) : Nat := s.m_max_window

def GetMaxQueriesPerSecond (s : ClientManager) : Nat := s.m_max_sec

def GetGlobalMaxQueriesPerSecond (s : ClientManager) : Nat := s.m_global_max_sec

def SetMaxQueriesWindow (s : ClientManager) (window : Nat) : ClientManager :=
  { s with m_max_window := window }

def SetMaxQueriesPerSecond (s : ClientManager) (max : Nat) : ClientManager :=
  { s with m_max_sec := max }

def SetGlobalMaxQueriesPerSecond (s : ClientManager) (max : Nat) : ClientManager :=
  { s with m_global_max_sec := max }

end ClientManager

namespace Client

/-- Constructor `Client( manager, address )`. -/
def init (address : Nat) : Client :=
  { m_address := address, m_last_ping := 0, m_last_reset := 0, m_count := 0,
    m_marked_for_removal := false }

/-- Constructor `Client( manager, address, time )`. -/
def initAt (address time : Nat) : Client :=
  { m_address := address, m_last_ping := time, m_last_reset := time, m_count := 1,
    m_marked_for_removal := false }

/-- Member `bool Client::CheckIPRate( time )`: the verdict and the object afterwards. -/
def CheckIPRate (manager : ClientManager) (c : Client) (time : Nat) : Bool × Client :=
  let c1 := { c with m_last_ping := time }
  if sub32 time c1.m_last_reset ≥ manager.GetMaxQueriesWindow then
    (true, { c1 with m_last_reset := time, m_count := 1 })
  else
    let c2 := { c1 with m_count := inc32 c1.m_count }
    if c2.m_count ≥ mul32 manager.GetMaxQueriesPerSecond manager.GetMaxQueriesWindow then
      (false, c2)
    else
      (true, c2)

def GetAddress (c : Client) : Nat := c.m_address

def GetLastPing (c : Client) : Nat := c.m_last_ping

/-- Member `Client::TimedOut`: compares with the static constant
`ClientManager::MaxQueriesWindow * 2`. -/
def TimedOut (c : Client) (time : Nat) : Bool :=
  decide (sub32 time c.m_last_reset ≥ mul32 ClientManager.MaxQueriesWindow 2)

def MarkForRemoval (c : Client) : Client := { c with m_marked_for_removal := true }

def MarkedForRemoval (c : Client) : Bool := c.m_marked_for_removal

/-- Repeated calls of `Client::CheckIPRate` on one object, as in the loops of the test
program: the verdicts in call order and the object afterwards. -/
def runCheckIPRate (manager : ClientManager) : Client → List Nat → List Bool × Client
  | c, [] => ([], c)
  | c, time :: rest =>
    let r := c.CheckIPRate manager time
    let rs := runCheckIPRate manager r.2 rest
    (r.1 :: rs.1, rs.2)

end Client

/-! ## Heap and containers -/

/-- Dereference of a shared pointer. -/
def deref (heap : List Client) (p : Nat) : Client := heap.getD p default

/-- Write through a shared pointer. -/
def store (heap : List Client) (p : Nat) (c : Client) : List Client := heap.set p c

/-- Lookup `m_address_map.find( address )`. -/
def mapFind : List (Nat × Nat) → Nat → Option Nat
  | [], _ => none
  | e :: rest, address => if e.1 = address then some e.2 else mapFind rest address

/-- Removal by key `m_address_map.erase( address )`. -/
def mapErase (m : List (Nat × Nat)) (address : Nat) : List (Nat × Nat) :=
  m.filter (fun e => decide (e.1 ≠ address))

/-- Insertion `m_clients.emplace( pos, client )` before the position `pos`. -/
def listEmplace (l : List Nat) (pos : Nat) (client : Nat) : List Nat :=
  l.take pos ++ client :: l.drop pos

/-- Forward scan of `FindFirstPlacementForLastPing`: position of the first entry whose last
ping is at least `last_ping`, the length of the list when there is none. -/
def firstPlacement (heap : List Client) (last_ping : Nat) : List Nat → Nat
  | [] => 0
  | p :: rest =>
    if (deref heap p).GetLastPing ≥ last_ping then 0
    else firstPlacement heap last_ping rest + 1

/-- Reverse scan of `FindOptimalPlacementForLastPing` over the list read from `rbegin( )`:
at the first entry whose last ping is at most `last_ping` the result is `it.base( )`, the
position right after that entry; `begin( )` when there is none. -/
def optimalPlacement (heap : List Client) (last_ping : Nat) : List Nat → Nat
  | [] => 0
  | p :: rest =>
    if (deref heap p).GetLastPing ≤ last_ping then rest.length + 1
    else optimalPlacement heap last_ping rest

/-- Loop of `RemoveClientFromList` from the iterator on. -/
def removeLoop (heap : List Client) (last_ping client : Nat) : List Nat → List Nat
  | [] => []
  | p :: rest =>
    if (deref heap p).GetLastPing ≠ last_ping then p :: rest
    else if p = client then rest
    else p :: removeLoop heap last_ping client rest

/-- Loop over the registry in `SafePrune`. The flag `skip` is set when the iterator has just
been replaced by the result of `erase` and the `++it` of the `for` statement is still to
run; `size` is `m_address_map.size( )`. The result is the heap with the erased clients marked
and the entries that remain. Incrementing the end iterator is undefined: `none`. -/
def safePruneScan (time : Nat) :
    Bool → List Client → Nat → List (Nat × Nat) → Option (List Client × List (Nat × Nat))
  | false, heap, _, [] => some (heap, [])
  | true, _, _, [] => none
  | true, heap, size, e :: rest =>
    (safePruneScan time false heap size rest).map (fun r => (r.1, e :: r.2))
  | false, heap, size, e :: rest =>
    if (deref heap e.2).TimedOut time then
      let heap1 := store heap e.2 (deref heap e.2).MarkForRemoval
      if size - 1 ≤ ClientManager.SafePruneMaxClients then some (heap1, rest)
      else safePruneScan time true heap1 (size - 1) rest
    else
      (safePruneScan time false heap size rest).map (fun r => (r.1, e :: r.2))

namespace ClientManager

def FindFirstPlacementForLastPing (s : ClientManager) (last_ping : Nat) : Nat :=
  firstPlacement s.heap last_ping s.m_clients

def FindOptimalPlacementForLastPing (s : ClientManager) (last_ping : Nat) : Nat :=
  optimalPlacement s.heap last_ping s.m_clients.reverse

def RemoveClientFromList (s : ClientManager) (client : Nat) : ClientManager :=
  let last_ping := (deref s.heap client).GetLastPing
  let it := s.FindFirstPlacementForLastPing last_ping
  { s with m_clients :=
      s.m_clients.take it ++ removeLoop s.heap last_ping client (s.m_clients.drop it) }

/-- Member `ClientManager::SafePrune`. -/
def SafePrune (s : ClientManager) (time : Nat) : Option ClientManager :=
  match safePruneScan time false s.heap s.m_address_map.length s.m_address_map with
  | none => none
  | some r =>
    some { s with
      heap := r.1
      m_address_map := r.2
      m_clients := s.m_clients.filter (fun p => !(deref r.1 p).MarkedForRemoval) }

/-- Member `ClientManager::LastDitchPrune`. -/
def LastDitchPrune (s : ClientManager) : Option ClientManager :=
  if s.m_clients.length < LastDitchPruneMaxClients then none
  else
    let prune_amount := s.m_clients.length - LastDitchPruneMaxClients
    some { s with
      m_address_map :=
        (s.m_clients.take prune_amount).foldl
          (fun m p => mapErase m (deref s.heap p).GetAddress) s.m_address_map
      m_clients := s.m_clients.drop prune_amount }

/-- Global window block at the end of `CheckIPRate` (clientmanager.cpp lines 48-69). -/
def globalWindow (s : ClientManager) (time : Nat) : RateLimitType × ClientManager :=
  if sub32 time s.m_global_last_reset ≥ s.m_max_window then
    (RateLimitType.None, { s with m_global_last_reset := time, m_global_count := 1 })
  else
    let s1 := { s with m_global_count := inc32 s.m_global_count }
    if s1.m_global_count ≥ mul32 s1.m_global_max_sec s1.m_max_window then
      (RateLimitType.Global, s1)
    else
      (RateLimitType.None, s1)

/-- Branch of `CheckIPRate` for an address found in the registry (lines 22-34), up to the
individual verdict. -/
def checkKnown (s : ClientManager) (client time : Nat) : Bool × ClientManager :=
  let s1 :=
    if (deref s.heap client).GetLastPing ≠ time then
      let s0 := s.RemoveClientFromList client
      { s0 with m_clients := listEmplace s0.m_clients (s0.FindOptimalPlacementForLastPing time) client }
    else s
  let r := (deref s1.heap client).CheckIPRate s1 time
  (r.1, { s1 with heap := store s1.heap client r.2 })

/-- Creation of the record of a new address (lines 41-45). -/
def addClient (s : ClientManager) (address time : Nat) : ClientManager :=
  let client := s.heap.length
  let s1 := { s with
    heap := s.heap ++ [Client.initAt address time]
    m_address_map := (address, client) :: s.m_address_map }
  { s1 with m_clients := listEmplace s1.m_clients (s1.FindOptimalPlacementForLastPing time) client }

/-- Branch of `CheckIPRate` for an address that is not in the registry (lines 35-46). -/
def checkNew (s : ClientManager) (address time : Nat) : Option ClientManager :=
  match (if s.m_address_map.length ≥ MaxClients then s.SafePrune time else some s) with
  | none => none
  | some s1 =>
    match (if s1.m_address_map.length ≥ MaxClients then s1.LastDitchPrune else some s1) with
    | none => none
    | some s2 => some (s2.addClient address time)

/-- Member `ClientManager::CheckIPRate`: the verdict and the state afterwards. -/
def CheckIPRate (s : ClientManager) (address time : Nat) :
    Option (RateLimitType × ClientManager) :=
  if !s.m_enabled then some (RateLimitType.None, s)
  else
    match mapFind s.m_address_map address with
    | some client =>
      let r := s.checkKnown client time
      if !r.1 then some (RateLimitType.Individual, r.2)
      else some (r.2.globalWindow time)
    | none =>
      match s.checkNew address time with
      | none => none
      | some s1 => some (s1.globalWindow time)

end ClientManager

/-! ## Call sequences -/

/-- Calls of `CheckIPRate` in sequence: the verdicts in call order and the final state. -/
def runChecks : ClientManager → List (Nat × Nat) → Option (List RateLimitType × ClientManager)
  | s, [] => some ([], s)
  | s, q :: rest =>
    match s.CheckIPRate q.1 q.2 with
    | none => none
    | some r =>
      match runChecks r.2 rest with
      | none => none
      | some rs => some (r.1 :: rs.1, rs.2)

/-- Calls of the public interface of `ClientManager` that change its state. -/
inductive Op where
  | SetState (enabled : Bool)
  | SetMaxQueriesWindow (window : Nat)
  | SetMaxQueriesPerSecond (max : Nat)
  | SetGlobalMaxQueriesPerSecond (max : Nat)
  | CheckIPRate (address time : Nat)
deriving DecidableEq, Repr

/-- Effect of one call on the state. -/
def applyOp (s : ClientManager) : Op → Option ClientManager
  | Op.SetState enabled => some (s.SetState enabled)
  | Op.SetMaxQueriesWindow window => some (s.SetMaxQueriesWindow window)
  | Op.SetMaxQueriesPerSecond max => some (s.SetMaxQueriesPerSecond max)
  | Op.SetGlobalMaxQueriesPerSecond max => some (s.SetGlobalMaxQueriesPerSecond max)
  | Op.CheckIPRate address time => (s.CheckIPRate address time).map Prod.snd

/-- Effect of a sequence of calls. -/
def runOps : ClientManager → List Op → Option ClientManager
  | s, [] => some s
  | s, op :: rest =>
    match applyOp s op with
    | none => none
    | some s1 => runOps s1 rest

/-- States reached from a freshly constructed `ClientManager` by calls of its interface. -/
def Reachable (s : ClientManager) : Prop := ∃ ops, runOps ClientManager.init ops = some s

/-- Configuration of the test program: enabled, then the three limits set. -/
def configured (L W G : Nat) : ClientManager :=
  (((ClientManager.init.SetState true).SetMaxQueriesPerSecond L).SetMaxQueriesWindow W).SetGlobalMaxQueriesPerSecond G

/-! ## Structural invariants -/

/-- Last pings of the records of the recency list `m_clients`, in list order. -/
def ClientManager.lastPings (s : ClientManager) : List Nat :=
  s.m_clients.map (fun p => (deref s.heap p).GetLastPing)

/-- Structural invariants of a `ClientManager`: the registry refers to live objects that carry
their own key and are not marked for removal, its keys and its objects are pairwise
distinct, the recency list holds exactly the objects of the registry, and it is ordered by
ascending last ping. -/
structure Inv (s : ClientManager) : Prop where
  valid : ∀ e ∈ s.m_address_map, e.2 < s.heap.length
  addr : ∀ e ∈ s.m_address_map, (deref s.heap e.2).GetAddress = e.1
  unmarked : ∀ e ∈ s.m_address_map, (deref s.heap e.2).MarkedForRemoval = false
  keys : (s.m_address_map.map Prod.fst).Nodup
  ptrs : (s.m_address_map.map Prod.snd).Nodup
  perm : s.m_clients.Perm (s.m_address_map.map Prod.snd)
  sorted : s.m_clients.Pairwise
    (fun p q => (deref s.heap p).GetLastPing ≤ (deref s.heap q).GetLastPing)

/-- Verdict of the global window block for the call that follows `n` counted calls in one
global window: `Global` once the incremented 32-bit count reaches the global quota. -/
def globalVerdict (G W n : Nat) : RateLimitType :=
  if mul32 G W ≤ (n + 1) % U32 then RateLimitType.Global else RateLimitType.None

/-- Record of address `X` in the registry after `c` calls at the single time `T`, none of them
rejected: absent when `c = 0`, otherwise a live object with count `c`. -/
def recOK (s : ClientManager) (X T c : Nat) : Prop :=
  (c = 0 ∧ mapFind s.m_address_map X = none) ∨
  (0 < c ∧ ∃ p, p < s.heap.length ∧ mapFind s.m_address_map X = some p ∧
    deref s.heap p = ⟨X, T, T, c, false⟩)

/-- Bookkeeping of a run of calls for two addresses `X`, `Y` at the single time `T` on
`configured L W G`, after `cX` calls for `X` and `cY` calls for `Y`. -/
structure TwoInv (L W G X Y T cX cY : Nat) (s : ClientManager) : Prop where
  en : s.m_enabled = true
  w : s.m_max_window = W
  l : s.m_max_sec = L
  g : s.m_global_max_sec = G
  gcount : s.m_global_count = (cX + cY) % U32
  greset : cX + cY = 0 → s.m_global_last_reset = 0
  gwin : 0 < cX + cY → sub32 T s.m_global_last_reset < W
  size : s.m_address_map.length = min cX 1 + min cY 1
  recX : recOK s X T cX
  recY : recOK s Y T cY

/-! ## States of small runs, used to instantiate the theorems -/

/-- State after `CheckIPRate( 1, 0 )` and `CheckIPRate( 2, 0 )` on `configured 1 2 50`. -/
def twoClients : ClientManager :=
  { heap := [⟨1, 0, 0, 1, false⟩, ⟨2, 0, 0, 1, false⟩], m_clients := [0, 1],
    m_address_map := [(2, 1), (1, 0)], m_enabled := true, m_global_count := 2,
    m_global_last_reset := 0, m_max_window := 2, m_max_sec := 1, m_global_max_sec := 50 }

/-- State after one more call `CheckIPRate( 1, 0 )` on `twoClients`. -/
def twoClientsRejected : ClientManager :=
  { twoClients with heap := [⟨1, 0, 0, 2, false⟩, ⟨2, 0, 0, 1, false⟩] }

/-- State after the calls `(1, 5)`, `(2, 3)`, `(3, 9)`, `(1, 4)`, `(4, 3)` of `CheckIPRate` on
an enabled limiter with the default configuration. -/
def outOfOrder : ClientManager :=
  { heap := [⟨1, 4, 4, 1, false⟩, ⟨2, 3, 3, 1, false⟩, ⟨3, 9, 9, 1, false⟩, ⟨4, 3, 3, 1, false⟩],
    m_clients := [1, 3, 0, 2], m_address_map := [(4, 3), (3, 2), (2, 1), (1, 0)],
    m_enabled := true, m_global_count := 5, m_global_last_reset := 0, m_max_window := 60,
    m_max_sec := 1, m_global_max_sec := 50 }

/-- State after `CheckIPRate( 1, 0 )`, `CheckIPRate( 1, 0 )` on `configured 1 2 50`: the second
call was rejected individually. -/
def oneRejected : ClientManager :=
  { heap := [⟨1, 0, 0, 2, false⟩], m_clients := [0], m_address_map := [(1, 0)],
    m_enabled := true, m_global_count := 1, m_global_last_reset := 0, m_max_window := 2,
    m_max_sec := 1, m_global_max_sec := 50 }

/-- State of `configured L W G` after `k ≥ 1` calls `CheckIPRate( A, T )` none of which
was rejected individually: one record, with count `k`, and global count `k`. -/
def quotaState (L W G A T k : Nat) : ClientManager :=
  { heap := [⟨A, T, T, k, false⟩], m_clients := [0], m_address_map := [(A, 0)],
    m_enabled := true, m_global_count := k,
    m_global_last_reset := if sub32 T 0 ≥ W then T else 0,
    m_max_window := W, m_max_sec := L, m_global_max_sec := G }

/-- State of `configured L W G` after `L * W` calls `CheckIPRate( A, T )`: the last call was
rejected individually and did not touch the global count. -/
def quotaFinal (L W G A T : Nat) : ClientManager :=
  { quotaState L W G A T (L * W - 1) with heap := [⟨A, T, T, L * W, false⟩] }

/-- A record made by `Client( manager, A )` after `k ≥ 1` calls `CheckIPRate( T )`. -/
def quotaClient (W A T k : Nat) : Client :=
  ⟨A, T, if sub32 T 0 ≥ W then T else 0, k, false⟩


/-- State after `SafePrune( 200 )` on `outOfOrder`: the first entry of the registry is stale
and its removal already brings the size to the target. -/
def outOfOrderPruned : ClientManager :=
  { outOfOrder with
    heap := [⟨1, 4, 4, 1, false⟩, ⟨2, 3, 3, 1, false⟩, ⟨3, 9, 9, 1, false⟩, ⟨4, 3, 3, 1, true⟩]
    m_clients := [1, 0, 2]
    m_address_map := [(3, 2), (2, 1), (1, 0)] }


/-! ## Runs that fill the registry -/

/-- Registry after the records of the calls `qs`, all for new addresses, were added in call
order, the first of them being object number `i`. -/
def fillMap : List (Nat × Nat) → Nat → List (Nat × Nat) → List (Nat × Nat)
  | m, _, [] => m
  | m, i, q :: rest => fillMap ((q.1, i) :: m) (i + 1) rest

/-- Global window (count, start) after the global window block has run at the times `ts`. -/
def globalFold (W : Nat) : Nat × Nat → List Nat → Nat × Nat
  | g, [] => g
  | g, t :: ts => globalFold W (if sub32 t g.2 ≥ W then (1, t) else (inc32 g.1, g.2)) ts

/-- State after the calls `qs` of `CheckIPRate` on `s`, when the addresses of `qs` are new and
pairwise distinct, the times of `qs` are non-decreasing and not before any last ping of `s`,
the recency list of `s` is `0, 1, ..` and the registry has room for all of them. -/
def filled (s : ClientManager) (qs : List (Nat × Nat)) : ClientManager :=
  { s with
    heap := s.heap ++ qs.map (fun q => Client.initAt q.1 q.2)
    m_clients := List.range (s.heap.length + qs.length)
    m_address_map := fillMap s.m_address_map s.heap.length qs
    m_global_count :=
      (globalFold s.m_max_window (s.m_global_count, s.m_global_last_reset)
        (qs.map Prod.snd)).1
    m_global_last_reset :=
      (globalFold s.m_max_window (s.m_global_count, s.m_global_last_reset)
        (qs.map Prod.snd)).2 }


/-- Calls for the addresses `0 .. n - 1`, all at time `t`. -/
def uniformCalls (n t : Nat) : List (Nat × Nat) := (List.range n).map (fun a => (a, t))

/-- One call for address 0 at time 0, then calls for the addresses `1 .. n` at time 200. -/
def staleFirstCalls (n : Nat) : List (Nat × Nat) :=
  (0, 0) :: (List.range n).map (fun a => (a + 1, 200))


/-- The call `CheckIPRate( address, time )` on `s` reaches `LastDitchPrune`: the limiter is
enabled, the address is not in the registry, and the registry is still at capacity after the
`SafePrune` step (which runs when the registry is at capacity). -/
def ClientManager.runsLastDitchPrune (s : ClientManager) (address time : Nat) : Prop :=
  s.m_enabled = true ∧ mapFind s.m_address_map address = none ∧
  ∃ s1, (if s.m_address_map.length ≥ ClientManager.MaxClients then s.SafePrune time
      else some s) = some s1 ∧
    s1.m_address_map.length ≥ ClientManager.MaxClients


/-- Fixture: the enabled default limiter after `CheckIPRate( a, 0 )` for the `MaxClients`
addresses `a = 0 .. 8191`. -/
def fullRegistry : ClientManager :=
  filled (ClientManager.init.SetState true) (uniformCalls ClientManager.MaxClients 0)


/-- Calls that fill a registry with two early records and `n` later ones: addresses `0` and
`1` at time `0`, then addresses `2 .. n + 1` at time `200`. -/
def twoStaleCalls (n : Nat) : List (Nat × Nat) :=
  (0, 0) :: (1, 0) :: (List.range n).map (fun a => (a + 2, 200))


/-- Calls `CheckIPRate( i, i )` for `i = 0 .. n - 1`: address `i` at time `i`. -/
def rampCalls (n : Nat) : List (Nat × Nat) := (List.range n).map (fun i => (i, i))

/-! ## Arithmetic lemmas -/

theorem sub32_self (a : Nat) : sub32 a a = 0 := by
  unfold sub32 U32
  have h : a % 4294967296 < 4294967296 := Nat.mod_lt _ (by norm_num)
  omega

theorem sub32_zero (a : Nat) : sub32 a 0 = a % U32 := by
  unfold sub32 U32
  omega

theorem sub32_lt (a b : Nat) : sub32 a b < U32 := by
  unfold sub32 U32
  omega

/-- On 32-bit values `sub32` is the difference when there is no borrow and the difference
plus `2^32` when there is. -/
theorem sub32_eq (a b : Nat) (ha : a < U32) (hb : b < U32) :
    sub32 a b = if b ≤ a then a - b else a + U32 - b := by
  unfold sub32 U32 at *
  split_ifs <;> omega

theorem sub32_add (t r w : Nat) (h : sub32 t r + w < U32) :
    sub32 ((t + w) % U32) r = sub32 t r + w := by
  unfold sub32 U32 at *
  omega

/-! ## Single evaluation of a record -/

/-- C2: after `Client::CheckIPRate( time )` the last ping is `time`, the address and the
removal mark are unchanged; when the 32-bit difference `time - m_last_reset` is at least the
window, the window restarts at `time` with count 1 and the call accepts; otherwise the window
start is kept, the count is incremented modulo `2^32`, and the call rejects exactly when
the new count is at least the 32-bit product of the per-address limit and the window. -/
theorem Client.CheckIPRate_postcondition (manager : ClientManager) (c : Client) (time : Nat) :
    (c.CheckIPRate manager time).2.m_last_ping = time ∧
    (c.CheckIPRate manager time).2.m_address = c.m_address ∧
    (c.CheckIPRate manager time).2.m_marked_for_removal = c.m_marked_for_removal ∧
    (if (time % 2 ^ 32 + (2 ^ 32 - c.m_last_reset % 2 ^ 32)) % 2 ^ 32 ≥ manager.m_max_window then
      (c.CheckIPRate manager time).2.m_last_reset = time ∧
      (c.CheckIPRate manager time).2.m_count = 1 ∧
      (c.CheckIPRate manager time).1 = true
    else
      (c.CheckIPRate manager time).2.m_last_reset = c.m_last_reset ∧
      (c.CheckIPRate manager time).2.m_count = (c.m_count + 1) % 2 ^ 32 ∧
      ((c.CheckIPRate manager time).1 = false ↔
        (c.CheckIPRate manager time).2.m_count ≥
          (manager.m_max_sec * manager.m_max_window) % 2 ^ 32)) := by
  have hsub : (time % 2 ^ 32 + (2 ^ 32 - c.m_last_reset % 2 ^ 32)) % 2 ^ 32
      = sub32 time c.m_last_reset := by
    simp [sub32, U32]
  rw [hsub]
  unfold Client.CheckIPRate ClientManager.GetMaxQueriesWindow ClientManager.GetMaxQueriesPerSecond
  by_cases h : sub32 time c.m_last_reset ≥ manager.m_max_window
  · simp [h]
  · by_cases h2 : inc32 c.m_count ≥ mul32 manager.m_max_sec manager.m_max_window
    · simp only [h, h2, if_true, if_false]
      simp [inc32, mul32, U32] at h2 ⊢
      exact h2
    · simp only [h, h2, if_true, if_false]
      simp [inc32, mul32, U32] at h2 ⊢
      exact h2

/-! ## Frame lemmas for the branches of `CheckIPRate` -/

theorem Client.CheckIPRate_congr (m1 m2 : ClientManager) (c : Client) (time : Nat)
    (hw : m1.m_max_window = m2.m_max_window) (hs : m1.m_max_sec = m2.m_max_sec) :
    c.CheckIPRate m1 time = c.CheckIPRate m2 time := by
  unfold Client.CheckIPRate ClientManager.GetMaxQueriesWindow ClientManager.GetMaxQueriesPerSecond
  rw [hw, hs]

theorem ClientManager.checkKnown_eq (s : ClientManager) (client time : Nat) :
    s.checkKnown client time =
      (((deref s.heap client).CheckIPRate s time).1,
        { s with
          heap := store s.heap client ((deref s.heap client).CheckIPRate s time).2
          m_clients :=
            if (deref s.heap client).GetLastPing ≠ time then
              listEmplace (s.RemoveClientFromList client).m_clients
                ((s.RemoveClientFromList client).FindOptimalPlacementForLastPing time) client
            else s.m_clients }) := by
  unfold ClientManager.checkKnown
  by_cases h : (deref s.heap client).GetLastPing ≠ time
  · simp only [if_pos h]
    rw [Client.CheckIPRate_congr _ s _ _ rfl rfl]
    rfl
  · simp only [if_neg h]

theorem ClientManager.globalWindow_eq (s : ClientManager) (time : Nat) :
    s.globalWindow time =
      if sub32 time s.m_global_last_reset ≥ s.m_max_window then
        (RateLimitType.None, { s with m_global_last_reset := time, m_global_count := 1 })
      else if inc32 s.m_global_count ≥ mul32 s.m_global_max_sec s.m_max_window then
        (RateLimitType.Global, { s with m_global_count := inc32 s.m_global_count })
      else
        (RateLimitType.None, { s with m_global_count := inc32 s.m_global_count }) := rfl

theorem ClientManager.globalWindow_frame (s : ClientManager) (time : Nat) :
    (s.globalWindow time).2.heap = s.heap ∧
    (s.globalWindow time).2.m_clients = s.m_clients ∧
    (s.globalWindow time).2.m_address_map = s.m_address_map ∧
    (s.globalWindow time).2.m_enabled = s.m_enabled ∧
    (s.globalWindow time).2.m_max_window = s.m_max_window ∧
    (s.globalWindow time).2.m_max_sec = s.m_max_sec ∧
    (s.globalWindow time).2.m_global_max_sec = s.m_global_max_sec := by
  rw [ClientManager.globalWindow_eq]
  split_ifs <;> simp

/-! ## Disabled limiter -/

/-- C8: on a disabled limiter every call of `CheckIPRate` returns `None` and leaves the
whole state as it was, and so does every sequence of calls. -/
theorem ClientManager.CheckIPRate_disabled (s : ClientManager) (h : s.m_enabled = false) :
    (∀ address time, s.CheckIPRate address time = some (RateLimitType.None, s)) ∧
    (∀ qs, runChecks s qs = some (List.replicate qs.length RateLimitType.None, s)) := by
  have h1 : ∀ address time, s.CheckIPRate address time = some (RateLimitType.None, s) := by
    intro address time
    unfold ClientManager.CheckIPRate
    simp [h]
  refine ⟨h1, ?_⟩
  intro qs
  induction qs with
  | nil => rfl
  | cons q rest ih =>
    unfold runChecks
    rw [h1 q.1 q.2]
    simp only [ih]
    rfl

theorem ClientManager.CheckIPRate_disabled_witness :
    ClientManager.init.m_enabled = false ∧
    ((∀ address time,
        ClientManager.init.CheckIPRate address time = some (RateLimitType.None, ClientManager.init)) ∧
      (∀ qs, runChecks ClientManager.init qs =
        some (List.replicate qs.length RateLimitType.None, ClientManager.init))) :=
  ⟨rfl, ClientManager.CheckIPRate_disabled ClientManager.init rfl⟩

/-! ## Priority of the individual verdict and the global window -/

/-- C7: on an enabled limiter, when the address is in the registry and the evaluation of its
record rejects, `CheckIPRate` returns `Individual`, whatever the global counter is; and a
call returns `Global` only when the address was new or its record accepted. -/
theorem ClientManager.CheckIPRate_individual_priority (s : ClientManager) (address time : Nat)
    (hen : s.m_enabled = true) :
    (∀ client, mapFind s.m_address_map address = some client →
      ((deref s.heap client).CheckIPRate s time).1 = false →
      ∃ s1, s.CheckIPRate address time = some (RateLimitType.Individual, s1)) ∧
    (∀ s1, s.CheckIPRate address time = some (RateLimitType.Global, s1) →
      mapFind s.m_address_map address = none ∨
      ∃ client, mapFind s.m_address_map address = some client ∧
        ((deref s.heap client).CheckIPRate s time).1 = true) := by
  constructor
  · intro client hfind hrej
    unfold ClientManager.CheckIPRate
    simp only [hen, hfind, ClientManager.checkKnown_eq, hrej]
    exact ⟨_, rfl⟩
  · intro s1 hres
    cases hfind : mapFind s.m_address_map address with
    | none => exact Or.inl rfl
    | some client =>
      right
      refine ⟨client, rfl, ?_⟩
      unfold ClientManager.CheckIPRate at hres
      simp only [hen, hfind, ClientManager.checkKnown_eq] at hres
      cases hv : ((deref s.heap client).CheckIPRate s time).1 with
      | true => rfl
      | false => simp [hv] at hres

theorem ClientManager.CheckIPRate_individual_priority_witness :
    runChecks (configured 1 2 1) [(1, 0), (2, 0)] =
      some ([RateLimitType.None, RateLimitType.Global],
        twoClients.SetGlobalMaxQueriesPerSecond 1) ∧
    mul32 1 2 ≤ (twoClients.SetGlobalMaxQueriesPerSecond 1).m_global_count ∧
    ∃ s1, (twoClients.SetGlobalMaxQueriesPerSecond 1).CheckIPRate 1 0 =
      some (RateLimitType.Individual, s1) :=
  ⟨by decide, by decide,
    (ClientManager.CheckIPRate_individual_priority (twoClients.SetGlobalMaxQueriesPerSecond 1)
      1 0 rfl).1 0 (by decide) (by decide)⟩

theorem ClientManager.SafePrune_frame (s s1 : ClientManager) (time : Nat)
    (h : s.SafePrune time = some s1) :
    s1.m_enabled = s.m_enabled ∧ s1.m_global_count = s.m_global_count ∧
    s1.m_global_last_reset = s.m_global_last_reset ∧ s1.m_max_window = s.m_max_window ∧
    s1.m_max_sec = s.m_max_sec ∧ s1.m_global_max_sec = s.m_global_max_sec := by
  unfold ClientManager.SafePrune at h
  cases hscan : safePruneScan time false s.heap s.m_address_map.length s.m_address_map with
  | none => simp [hscan] at h
  | some r =>
    simp only [hscan, Option.some.injEq] at h
    subst h
    simp

theorem ClientManager.LastDitchPrune_frame (s s1 : ClientManager)
    (h : s.LastDitchPrune = some s1) :
    s1.heap = s.heap ∧
    s1.m_enabled = s.m_enabled ∧ s1.m_global_count = s.m_global_count ∧
    s1.m_global_last_reset = s.m_global_last_reset ∧ s1.m_max_window = s.m_max_window ∧
    s1.m_max_sec = s.m_max_sec ∧ s1.m_global_max_sec = s.m_global_max_sec := by
  unfold ClientManager.LastDitchPrune at h
  split_ifs at h
  simp only [Option.some.injEq] at h
  subst h
  simp

theorem ClientManager.addClient_frame (s : ClientManager) (address time : Nat) :
    (s.addClient address time).heap = s.heap ++ [Client.initAt address time] ∧
    (s.addClient address time).m_address_map = (address, s.heap.length) :: s.m_address_map ∧
    (s.addClient address time).m_enabled = s.m_enabled ∧
    (s.addClient address time).m_global_count = s.m_global_count ∧
    (s.addClient address time).m_global_last_reset = s.m_global_last_reset ∧
    (s.addClient address time).m_max_window = s.m_max_window ∧
    (s.addClient address time).m_max_sec = s.m_max_sec ∧
    (s.addClient address time).m_global_max_sec = s.m_global_max_sec := by
  simp [ClientManager.addClient]

/-- The two pruning steps of the branch for a new address, with their results. -/
theorem ClientManager.checkNew_some (s s3 : ClientManager) (address time : Nat)
    (h : s.checkNew address time = some s3) :
    ∃ s1 s2,
      (if s.m_address_map.length ≥ ClientManager.MaxClients then s.SafePrune time else some s)
        = some s1 ∧
      (if s1.m_address_map.length ≥ ClientManager.MaxClients then s1.LastDitchPrune else some s1)
        = some s2 ∧
      s3 = s2.addClient address time := by
  unfold ClientManager.checkNew at h
  cases h1 : (if s.m_address_map.length ≥ ClientManager.MaxClients then s.SafePrune time
      else some s) with
  | none => simp [h1] at h
  | some s1 =>
    simp only [h1] at h
    cases h2 : (if s1.m_address_map.length ≥ ClientManager.MaxClients then s1.LastDitchPrune
        else some s1) with
    | none => simp [h2] at h
    | some s2 =>
      simp only [h2, Option.some.injEq] at h
      exact ⟨s1, s2, rfl, h2, h.symm⟩

theorem ClientManager.checkNew_frame (s s3 : ClientManager) (address time : Nat)
    (h : s.checkNew address time = some s3) :
    s3.m_enabled = s.m_enabled ∧ s3.m_global_count = s.m_global_count ∧
    s3.m_global_last_reset = s.m_global_last_reset ∧ s3.m_max_window = s.m_max_window ∧
    s3.m_max_sec = s.m_max_sec ∧ s3.m_global_max_sec = s.m_global_max_sec := by
  obtain ⟨s1, s2, h1, h2, h3⟩ := ClientManager.checkNew_some s s3 address time h
  have f1 : s1.m_enabled = s.m_enabled ∧ s1.m_global_count = s.m_global_count ∧
      s1.m_global_last_reset = s.m_global_last_reset ∧ s1.m_max_window = s.m_max_window ∧
      s1.m_max_sec = s.m_max_sec ∧ s1.m_global_max_sec = s.m_global_max_sec := by
    split_ifs at h1
    · exact ClientManager.SafePrune_frame s s1 time h1
    · simp only [Option.some.injEq] at h1
      subst h1
      simp
  have f2 : s2.m_enabled = s1.m_enabled ∧ s2.m_global_count = s1.m_global_count ∧
      s2.m_global_last_reset = s1.m_global_last_reset ∧ s2.m_max_window = s1.m_max_window ∧
      s2.m_max_sec = s1.m_max_sec ∧ s2.m_global_max_sec = s1.m_global_max_sec := by
    split_ifs at h2
    · exact (ClientManager.LastDitchPrune_frame s1 s2 h2).2
    · simp only [Option.some.injEq] at h2
      subst h2
      simp
  have f3 := ClientManager.addClient_frame s2 address time
  subst h3
  obtain ⟨a1, a2, a3, a4, a5, a6⟩ := f1
  obtain ⟨b1, b2, b3, b4, b5, b6⟩ := f2
  obtain ⟨_, _, c1, c2, c3, c4, c5, c6⟩ := f3
  refine ⟨?_, ?_, ?_, ?_, ?_, ?_⟩ <;> simp [*]

/-- C6 (as stated, refuted): after two accepted calls for the addresses 1 and 2 the global
count is 2; the third call, for address 1 again, returns `Individual` and leaves the global
count at 2: the global window is neither reset nor advanced. -/
theorem ClientManager.CheckIPRate_individual_skips_global :
    runChecks (configured 1 2 50) [(1, 0), (2, 0)] =
      some ([RateLimitType.None, RateLimitType.None], twoClients) ∧
    twoClients.m_enabled = true ∧
    twoClients.CheckIPRate 1 0 = some (RateLimitType.Individual, twoClientsRejected) ∧
    twoClients.m_global_count = 2 ∧
    twoClientsRejected.m_global_count = 2 ∧
    ¬ ((twoClientsRejected.m_global_last_reset = 0 ∧ twoClientsRejected.m_global_count = 1) ∨
      twoClientsRejected.m_global_count = (twoClients.m_global_count + 1) % 2 ^ 32) := by
  decide

/-- C6 (amended): an enabled call of `CheckIPRate` that returns `Individual` leaves the
global window start and the global count unchanged; every other enabled call either resets
the global window (start = time, count = 1) or keeps its start and increments the global
count modulo `2^32`. -/
theorem ClientManager.CheckIPRate_global_accounting (s s1 : ClientManager)
    (address time : Nat) (v : RateLimitType) (hen : s.m_enabled = true)
    (h : s.CheckIPRate address time = some (v, s1)) :
    if v = RateLimitType.Individual then
      s1.m_global_last_reset = s.m_global_last_reset ∧ s1.m_global_count = s.m_global_count
    else
      (s1.m_global_last_reset = time ∧ s1.m_global_count = 1) ∨
      (s1.m_global_last_reset = s.m_global_last_reset ∧
        s1.m_global_count = (s.m_global_count + 1) % 2 ^ 32) := by
  have hg : ∀ (s0 : ClientManager), s0.globalWindow time = (v, s1) →
      s0.m_global_last_reset = s.m_global_last_reset →
      s0.m_global_count = s.m_global_count →
      v ≠ RateLimitType.Individual ∧
      ((s1.m_global_last_reset = time ∧ s1.m_global_count = 1) ∨
      (s1.m_global_last_reset = s.m_global_last_reset ∧
        s1.m_global_count = (s.m_global_count + 1) % 2 ^ 32)) := by
    intro s0 hw e1 e2
    rw [ClientManager.globalWindow_eq] at hw
    split_ifs at hw <;> simp only [Prod.mk.injEq] at hw <;> obtain ⟨hv, hs⟩ := hw <;>
      subst hv <;> subst hs <;> simp [e1, e2, inc32, U32]
  unfold ClientManager.CheckIPRate at h
  simp only [hen, Bool.not_true, Bool.false_eq_true, if_false] at h
  cases hfind : mapFind s.m_address_map address with
  | some client =>
    simp only [hfind, ClientManager.checkKnown_eq] at h
    cases hv : ((deref s.heap client).CheckIPRate s time).1 with
    | false =>
      simp only [hv, Bool.not_false, if_true, Option.some.injEq, Prod.mk.injEq] at h
      obtain ⟨h1, h2⟩ := h
      subst h1
      subst h2
      simp
    | true =>
      simp only [hv, Bool.not_true, Bool.false_eq_true, if_false, Option.some.injEq] at h
      obtain ⟨h1, h2⟩ := hg _ h rfl rfl
      simp only [h1, if_false]
      exact h2
  | none =>
    simp only [hfind] at h
    cases hnew : s.checkNew address time with
    | none => simp [hnew] at h
    | some s3 =>
      simp only [hnew, Option.some.injEq] at h
      obtain ⟨_, f2, f3, _⟩ := ClientManager.checkNew_frame s s3 address time hnew
      obtain ⟨h1, h2⟩ := hg s3 h f3 f2
      simp only [h1, if_false]
      exact h2

theorem ClientManager.CheckIPRate_global_accounting_witness :
    twoClients.m_enabled = true ∧
    twoClients.CheckIPRate 1 0 = some (RateLimitType.Individual, twoClientsRejected) ∧
    twoClientsRejected.m_global_last_reset = twoClients.m_global_last_reset ∧
    twoClientsRejected.m_global_count = twoClients.m_global_count :=
  ⟨rfl, by decide, by
    simpa using ClientManager.CheckIPRate_global_accounting twoClients twoClientsRejected
      1 0 RateLimitType.Individual rfl (by decide)⟩

/-! ## Individual quota -/

theorem sub32_window (T W : Nat) : sub32 T (if sub32 T 0 ≥ W then T else 0) < W ∨ W = 0 := by
  by_cases h : sub32 T 0 ≥ W
  · rw [if_pos h, sub32_self]
    omega
  · rw [if_neg h]
    omega

theorem quotaState_first (L W G A T : Nat) :
    ∃ v, (configured L W G).CheckIPRate A T = some (v, quotaState L W G A T 1) ∧
      (2 ≤ mul32 G W → v = RateLimitType.None) := by
  by_cases h : sub32 T 0 ≥ W
  · refine ⟨RateLimitType.None, ?_, fun _ => rfl⟩
    simp [ClientManager.CheckIPRate, configured, ClientManager.init, ClientManager.SetState,
      ClientManager.SetMaxQueriesPerSecond, ClientManager.SetMaxQueriesWindow,
      ClientManager.SetGlobalMaxQueriesPerSecond, mapFind, ClientManager.checkNew,
      ClientManager.MaxClients, ClientManager.addClient, listEmplace,
      ClientManager.FindOptimalPlacementForLastPing, optimalPlacement,
      ClientManager.globalWindow_eq, h, quotaState, Client.initAt]
  · by_cases h2 : inc32 0 ≥ mul32 G W
    · refine ⟨RateLimitType.Global, ?_, ?_⟩
      · simp [ClientManager.CheckIPRate, configured, ClientManager.init, ClientManager.SetState,
          ClientManager.SetMaxQueriesPerSecond, ClientManager.SetMaxQueriesWindow,
          ClientManager.SetGlobalMaxQueriesPerSecond, mapFind, ClientManager.checkNew,
          ClientManager.MaxClients, ClientManager.addClient, listEmplace,
          ClientManager.FindOptimalPlacementForLastPing, optimalPlacement,
          ClientManager.globalWindow_eq, h, h2, quotaState, Client.initAt]
        simp [inc32, U32]
      · intro h3
        simp [inc32, U32] at h2
        omega
    · refine ⟨RateLimitType.None, ?_, fun _ => rfl⟩
      simp [ClientManager.CheckIPRate, configured, ClientManager.init, ClientManager.SetState,
        ClientManager.SetMaxQueriesPerSecond, ClientManager.SetMaxQueriesWindow,
        ClientManager.SetGlobalMaxQueriesPerSecond, mapFind, ClientManager.checkNew,
        ClientManager.MaxClients, ClientManager.addClient, listEmplace,
        ClientManager.FindOptimalPlacementForLastPing, optimalPlacement,
        ClientManager.globalWindow_eq, h, h2, quotaState, Client.initAt]
      simp [inc32, U32]

theorem quotaState_step (L W G A T k : Nat) (hW : 2 ≤ W) (hLW : L * W < U32)
    (hk : k + 1 < L * W) :
    ∃ v, (quotaState L W G A T k).CheckIPRate A T = some (v, quotaState L W G A T (k + 1)) ∧
      (k + 1 < mul32 G W → v = RateLimitType.None) := by
  have hwin : ¬ sub32 T (if sub32 T 0 ≥ W then T else 0) ≥ W := by
    rcases sub32_window T W with h | h <;> omega
  have hinc : inc32 k = k + 1 := by
    unfold inc32
    exact Nat.mod_eq_of_lt (by omega)
  have hmul : mul32 L W = L * W := Nat.mod_eq_of_lt hLW
  have hq : ¬ k + 1 ≥ L * W := by omega
  by_cases h2 : k + 1 ≥ mul32 G W
  · refine ⟨RateLimitType.Global, ?_, fun h3 => by omega⟩
    simp [ClientManager.CheckIPRate, quotaState, mapFind, ClientManager.checkKnown_eq, deref,
      store, Client.GetLastPing, Client.CheckIPRate, ClientManager.GetMaxQueriesWindow,
      ClientManager.GetMaxQueriesPerSecond, sub32_self, hinc, hmul, hq,
      ClientManager.globalWindow_eq, hwin, h2, Nat.not_le.mpr (show 0 < W by omega)]
  · refine ⟨RateLimitType.None, ?_, fun _ => rfl⟩
    simp [ClientManager.CheckIPRate, quotaState, mapFind, ClientManager.checkKnown_eq, deref,
      store, Client.GetLastPing, Client.CheckIPRate, ClientManager.GetMaxQueriesWindow,
      ClientManager.GetMaxQueriesPerSecond, sub32_self, hinc, hmul, hq,
      ClientManager.globalWindow_eq, hwin, h2, Nat.not_le.mpr (show 0 < W by omega)]

theorem quotaState_last (L W G A T : Nat) (hW : 2 ≤ W) (hLW : L * W < U32) (hL : 1 ≤ L) :
    (quotaState L W G A T (L * W - 1)).CheckIPRate A T =
      some (RateLimitType.Individual, quotaFinal L W G A T) := by
  have h2 : 2 ≤ L * W := by nlinarith
  have hinc : inc32 (L * W - 1) = L * W := by
    unfold inc32
    rw [Nat.sub_add_cancel (by omega)]
    exact Nat.mod_eq_of_lt hLW
  have hmul : mul32 L W = L * W := Nat.mod_eq_of_lt hLW
  simp [ClientManager.CheckIPRate, quotaState, quotaFinal, mapFind,
    ClientManager.checkKnown_eq, deref, store, Client.GetLastPing, Client.CheckIPRate,
    ClientManager.GetMaxQueriesWindow, ClientManager.GetMaxQueriesPerSecond, sub32_self, hinc,
    hmul, Nat.not_le.mpr (show 0 < W by omega)]

theorem quotaState_run (L W G A T : Nat) (hL : 1 ≤ L) (hW : 2 ≤ W) (hLW : L * W < U32) :
    ∀ n k, k + n + 1 = L * W →
      ∃ vs, runChecks (quotaState L W G A T k) (List.replicate (n + 1) (A, T)) =
          some (vs ++ [RateLimitType.Individual], quotaFinal L W G A T) ∧
        vs.length = n ∧
        (L * W ≤ mul32 G W → vs = List.replicate n RateLimitType.None) := by
  intro n
  induction n with
  | zero =>
    intro k hk
    have hk1 : k = L * W - 1 := by omega
    subst hk1
    refine ⟨[], ?_, rfl, fun _ => rfl⟩
    simp [runChecks, quotaState_last L W G A T hW hLW hL]
  | succ n ih =>
    intro k hk
    obtain ⟨v, hv, hnone⟩ := quotaState_step L W G A T k hW hLW (by omega)
    obtain ⟨vs, hvs, hlen, hall⟩ := ih (k + 1) (by omega)
    refine ⟨v :: vs, ?_, by simp [hlen], ?_⟩
    · rw [List.replicate_succ, runChecks]
      simp only [hv, hvs]
      rfl
    · intro hG
      rw [hnone (by omega), hall hG]
      rfl

theorem quotaState_full (L W G A T : Nat) (hL : 1 ≤ L) (hW : 2 ≤ W) (hLW : L * W < U32) :
    ∃ vs, runChecks (configured L W G) (List.replicate (L * W) (A, T)) =
        some (vs ++ [RateLimitType.Individual], quotaFinal L W G A T) ∧
      vs.length = L * W - 1 ∧
      (L * W ≤ mul32 G W → vs = List.replicate (L * W - 1) RateLimitType.None) := by
  have h2 : 2 ≤ L * W := by nlinarith
  obtain ⟨v, hv, hnone⟩ := quotaState_first L W G A T
  obtain ⟨vs, hvs, hlen, hall⟩ := quotaState_run L W G A T hL hW hLW (L * W - 2) 1 (by omega)
  have e1 : L * W = (L * W - 2 + 1) + 1 := by omega
  have e2 : L * W - 1 = (L * W - 2) + 1 := by omega
  refine ⟨v :: vs, ?_, by simp [hlen]; omega, ?_⟩
  · rw [e1, List.replicate_succ, runChecks]
    simp only [hv, hvs]
    rfl
  · intro hG
    rw [hnone (by omega), hall hG, e2]
    rfl

theorem quotaClient_first (m : ClientManager) (A T : Nat)
    (h2 : 2 ≤ mul32 m.m_max_sec m.m_max_window) :
    (Client.init A).CheckIPRate m T = (true, quotaClient m.m_max_window A T 1) := by
  by_cases h : sub32 T 0 ≥ m.m_max_window
  · simp [Client.CheckIPRate, Client.init, quotaClient, ClientManager.GetMaxQueriesWindow, h]
  · have h3 : ¬ inc32 0 ≥ mul32 m.m_max_sec m.m_max_window := by
      simp [inc32, U32]
      omega
    simp only [Client.CheckIPRate, Client.init, quotaClient, ClientManager.GetMaxQueriesWindow,
      ClientManager.GetMaxQueriesPerSecond, h, h3, if_false]
    simp [inc32, U32]

theorem quotaClient_step (m : ClientManager) (A T k : Nat) (hW : 2 ≤ m.m_max_window)
    (hLW : m.m_max_sec * m.m_max_window < U32) (hk : k + 1 < m.m_max_sec * m.m_max_window) :
    (quotaClient m.m_max_window A T k).CheckIPRate m T
      = (true, quotaClient m.m_max_window A T (k + 1)) := by
  have hwin : ¬ sub32 T (if sub32 T 0 ≥ m.m_max_window then T else 0) ≥ m.m_max_window := by
    rcases sub32_window T m.m_max_window with h | h <;> omega
  have hinc : inc32 k = k + 1 := by
    unfold inc32
    exact Nat.mod_eq_of_lt (by omega)
  have hmul : mul32 m.m_max_sec m.m_max_window = m.m_max_sec * m.m_max_window :=
    Nat.mod_eq_of_lt hLW
  have hq : ¬ k + 1 ≥ m.m_max_sec * m.m_max_window := by omega
  simp only [Client.CheckIPRate, quotaClient, ClientManager.GetMaxQueriesWindow,
    ClientManager.GetMaxQueriesPerSecond, hwin, hinc, hmul, hq, if_false]

theorem quotaClient_last (m : ClientManager) (A T k : Nat) (hW : 2 ≤ m.m_max_window)
    (hLW : m.m_max_sec * m.m_max_window < U32) (hk : k + 1 = m.m_max_sec * m.m_max_window) :
    (quotaClient m.m_max_window A T k).CheckIPRate m T
      = (false, quotaClient m.m_max_window A T (k + 1)) := by
  have hwin : ¬ sub32 T (if sub32 T 0 ≥ m.m_max_window then T else 0) ≥ m.m_max_window := by
    rcases sub32_window T m.m_max_window with h | h <;> omega
  have hinc : inc32 k = k + 1 := by
    unfold inc32
    exact Nat.mod_eq_of_lt (by omega)
  have hmul : mul32 m.m_max_sec m.m_max_window = m.m_max_sec * m.m_max_window :=
    Nat.mod_eq_of_lt hLW
  have hq : k + 1 ≥ m.m_max_sec * m.m_max_window := by omega
  simp only [Client.CheckIPRate, quotaClient, ClientManager.GetMaxQueriesWindow,
    ClientManager.GetMaxQueriesPerSecond, hwin, hinc, hmul, hq, if_false, if_true]

theorem quotaClient_run (m : ClientManager) (A T : Nat) (hW : 2 ≤ m.m_max_window)
    (hLW : m.m_max_sec * m.m_max_window < U32) :
    ∀ n k, k + n + 1 = m.m_max_sec * m.m_max_window →
      ((quotaClient m.m_max_window A T k).runCheckIPRate m (List.replicate (n + 1) T)).1
        = List.replicate n true ++ [false] := by
  intro n
  induction n with
  | zero =>
    intro k hk
    simp [Client.runCheckIPRate, quotaClient_last m A T k hW hLW (by omega)]
  | succ n ih =>
    intro k hk
    rw [List.replicate_succ, Client.runCheckIPRate]
    simp only [quotaClient_step m A T k hW hLW (by omega), ih (k + 1) (by omega)]
    rfl

/-- C1: with `L ≥ 1`, `W ≥ 2`, `L * W < 2^32` and a global quota `G * W` (32-bit product)
that `L * W - 1` calls do not reach, the first `L * W - 1` calls `CheckIPRate( A, T )` on a
fresh enabled limiter return `None` and call number `L * W` returns `Individual`; and
`Client::CheckIPRate( T )` on a record built by `Client( manager, A )` returns true `L * W - 1`
times and false on call number `L * W`. -/
theorem individual_quota (L W G A T : Nat) (hL : 1 ≤ L) (hW : 2 ≤ W) (hLW : L * W < 2 ^ 32)
    (hG : L * W ≤ (G * W) % 2 ^ 32) :
    (runChecks (configured L W G) (List.replicate (L * W) (A, T))).map Prod.fst =
      some (List.replicate (L * W - 1) RateLimitType.None ++ [RateLimitType.Individual]) ∧
    ((Client.init A).runCheckIPRate (configured L W G) (List.replicate (L * W) T)).1 =
      List.replicate (L * W - 1) true ++ [false] := by
  have hLW1 : L * W < U32 := hLW
  have h2 : 2 ≤ L * W := by nlinarith
  constructor
  · obtain ⟨vs, hvs, _, hall⟩ := quotaState_full L W G A T hL hW hLW1
    rw [hvs, hall hG]
    rfl
  · have hw : (configured L W G).m_max_window = W := rfl
    have hs : (configured L W G).m_max_sec = L := rfl
    have e1 : L * W = (L * W - 2 + 1) + 1 := by omega
    have e2 : L * W - 1 = (L * W - 2) + 1 := by omega
    have hmul : mul32 L W = L * W := Nat.mod_eq_of_lt hLW1
    have hfirst := quotaClient_first (configured L W G) A T (by rw [hw, hs, hmul]; exact h2)
    have hrun := quotaClient_run (configured L W G) A T (by rw [hw]; exact hW)
      (by rw [hw, hs]; exact hLW1) (L * W - 2) 1 (by rw [hw, hs]; omega)
    rw [e1, List.replicate_succ, Client.runCheckIPRate]
    simp only [hfirst, hrun]
    rw [← e1, e2]
    rfl

theorem individual_quota_witness :
    1 ≤ 1 ∧ 2 ≤ 60 ∧ 1 * 60 < 2 ^ 32 ∧ 1 * 60 ≤ (50 * 60) % 2 ^ 32 ∧
    (runChecks (configured 1 60 50) (List.replicate (1 * 60) (1, 0))).map Prod.fst =
      some (List.replicate (1 * 60 - 1) RateLimitType.None ++ [RateLimitType.Individual]) ∧
    ((Client.init 1).runCheckIPRate (configured 1 60 50) (List.replicate (1 * 60) 0)).1 =
      List.replicate (1 * 60 - 1) true ++ [false] :=
  ⟨by decide, by decide, by decide, by decide,
    individual_quota 1 60 50 1 0 (by decide) (by decide) (by decide) (by decide)⟩

/-! ## Heap and list lemmas -/

theorem deref_store_self (heap : List Client) (p : Nat) (c : Client) (h : p < heap.length) :
    deref (store heap p c) p = c := by
  simp [deref, store, List.getD_eq_getElem?_getD, h]

theorem deref_store_ne (heap : List Client) (p q : Nat) (c : Client) (h : q ≠ p) :
    deref (store heap p c) q = deref heap q := by
  simp [deref, store, List.getD_eq_getElem?_getD, List.getElem?_set_ne (Ne.symm h)]

theorem length_store (heap : List Client) (p : Nat) (c : Client) :
    (store heap p c).length = heap.length := by
  simp [store]

theorem deref_append_lt (heap : List Client) (q : Nat) (c : Client) (h : q < heap.length) :
    deref (heap ++ [c]) q = deref heap q := by
  simp [deref, List.getD_eq_getElem?_getD, List.getElem?_append_left h]

theorem deref_append_length (heap : List Client) (c : Client) :
    deref (heap ++ [c]) heap.length = c := by
  simp [deref, List.getD_eq_getElem?_getD]

theorem mapFind_some_mem (m : List (Nat × Nat)) (address client : Nat)
    (h : mapFind m address = some client) : (address, client) ∈ m := by
  induction m with
  | nil => simp [mapFind] at h
  | cons e rest ih =>
    unfold mapFind at h
    by_cases he : e.1 = address
    · rw [if_pos he] at h
      simp only [Option.some.injEq] at h
      have : e = (address, client) := Prod.ext he h
      simp [this]
    · rw [if_neg he] at h
      exact List.mem_cons_of_mem _ (ih h)

theorem mapFind_none_iff (m : List (Nat × Nat)) (address : Nat) :
    mapFind m address = none ↔ address ∉ m.map Prod.fst := by
  induction m with
  | nil => simp [mapFind]
  | cons e rest ih =>
    unfold mapFind
    by_cases he : e.1 = address
    · simp [he]
    · rw [if_neg he, ih]
      simp [Ne.symm he]

theorem listEmplace_perm (l : List Nat) (pos client : Nat) :
    (listEmplace l pos client).Perm (client :: l) := by
  unfold listEmplace
  have h := @List.perm_middle _ client (l.take pos) (l.drop pos)
  rwa [List.take_append_drop] at h

/-- A sublist of a duplicate-free list is what a filter keeps, when the filter accepts the
members of the sublist and rejects the other members of the list. -/
theorem filter_eq_of_sublist (f : Nat → Bool) (l1 l : List Nat) (hsub : l1.Sublist l)
    (hnd : l.Nodup) (hin : ∀ x ∈ l1, f x = true)
    (hout : ∀ x ∈ l, x ∉ l1 → f x = false) : l.filter f = l1 := by
  induction hsub with
  | slnil => rfl
  | @cons l1 l a hsub ih =>
    have hnd2 := List.nodup_cons.mp hnd
    have ha : a ∉ l1 := fun hm => hnd2.1 (hsub.subset hm)
    have hfa : f a = false := hout a (List.mem_cons_self _ _) ha
    rw [List.filter_cons_of_neg (by simp [hfa])]
    exact ih hnd2.2 hin (fun x hx hx1 => hout x (List.mem_cons_of_mem _ hx) hx1)
  | @cons₂ l1 l a hsub ih =>
    have hnd2 := List.nodup_cons.mp hnd
    have hfa : f a = true := hin a (List.mem_cons_self _ _)
    rw [List.filter_cons_of_pos hfa]
    congr 1
    refine ih hnd2.2 (fun x hx => hin x (List.mem_cons_of_mem _ hx)) ?_
    intro x hx hx1
    refine hout x (List.mem_cons_of_mem _ hx) ?_
    intro hm
    rcases List.mem_cons.mp hm with h | h
    · exact hnd2.1 (h ▸ hx)
    · exact hx1 h

theorem filter_not_mem_append (t d : List Nat) (hdis : t.Disjoint d) :
    (t ++ d).filter (fun x => decide (x ∉ t)) = d := by
  rw [List.filter_append]
  have h1 : t.filter (fun x => decide (x ∉ t)) = [] := by
    rw [List.filter_eq_nil_iff]
    intro a ha
    simp [ha]
  have h2 : d.filter (fun x => decide (x ∉ t)) = d := by
    rw [List.filter_eq_self]
    intro a ha
    have : a ∉ t := fun h => hdis h ha
    simp [this]
  rw [h1, h2]
  rfl

theorem filter_not_mem_take (l : List Nat) (k : Nat) (hnd : l.Nodup) :
    l.filter (fun x => decide (x ∉ l.take k)) = l.drop k := by
  have hsplit : l.take k ++ l.drop k = l := List.take_append_drop k l
  have hnd2 : (l.take k ++ l.drop k).Nodup := by rw [hsplit]; exact hnd
  obtain ⟨_, _, hdis⟩ := List.nodup_append.mp hnd2
  have h := filter_not_mem_append (l.take k) (l.drop k) hdis
  rwa [hsplit] at h

/-! ## Placement in and removal from the recency list -/

/-- The reverse scan returns a position that splits an ascending list into the entries with
last ping at most `t` and the entries with a later last ping. -/
theorem optimalPlacement_spec (heap : List Client) (t : Nat) :
    ∀ rl : List Nat,
      rl.reverse.Pairwise
        (fun p q => (deref heap p).GetLastPing ≤ (deref heap q).GetLastPing) →
      optimalPlacement heap t rl ≤ rl.length ∧
      (∀ q ∈ rl.reverse.take (optimalPlacement heap t rl), (deref heap q).GetLastPing ≤ t) ∧
      (∀ q ∈ rl.reverse.drop (optimalPlacement heap t rl), t < (deref heap q).GetLastPing) := by
  intro rl
  induction rl with
  | nil => intro _; simp [optimalPlacement]
  | cons p rest ih =>
    intro hs
    rw [List.reverse_cons] at hs
    obtain ⟨hs1, _, hs3⟩ := List.pairwise_append.mp hs
    unfold optimalPlacement
    by_cases hp : (deref heap p).GetLastPing ≤ t
    · rw [if_pos hp]
      refine ⟨by simp, ?_, ?_⟩
      · intro q hq
        have hq2 := List.mem_of_mem_take hq
        rw [List.reverse_cons, List.mem_append] at hq2
        rcases hq2 with h | h
        · exact le_trans (hs3 q h p (by simp)) hp
        · simp only [List.mem_singleton] at h
          rw [h]
          exact hp
      · intro q hq
        rw [List.drop_of_length_le (by simp)] at hq
        simp at hq
    · rw [if_neg hp]
      obtain ⟨i1, i2, i3⟩ := ih hs1
      have hle : optimalPlacement heap t rest ≤ rest.reverse.length := by simpa using i1
      refine ⟨by simp; omega, ?_, ?_⟩
      · intro q hq
        rw [List.reverse_cons, List.take_append_of_le_length hle] at hq
        exact i2 q hq
      · intro q hq
        rw [List.reverse_cons, List.drop_append_of_le_length hle, List.mem_append] at hq
        rcases hq with h | h
        · exact i3 q h
        · simp only [List.mem_singleton] at h
          rw [h]
          omega

theorem listEmplace_pairwise (g : Nat → Nat) (l : List Nat) (pos x : Nat)
    (hs : l.Pairwise (fun p q => g p ≤ g q)) (h1 : ∀ q ∈ l.take pos, g q ≤ g x)
    (h2 : ∀ q ∈ l.drop pos, g x ≤ g q) :
    (listEmplace l pos x).Pairwise (fun p q => g p ≤ g q) := by
  unfold listEmplace
  have hsplit : l.take pos ++ l.drop pos = l := List.take_append_drop pos l
  rw [← hsplit] at hs
  obtain ⟨hs1, hs2, hs3⟩ := List.pairwise_append.mp hs
  rw [List.pairwise_append]
  refine ⟨hs1, List.pairwise_cons.mpr ⟨h2, hs2⟩, ?_⟩
  intro a ha b hb
  rcases List.mem_cons.mp hb with h | h
  · rw [h]
    exact h1 a ha
  · exact hs3 a ha b h

theorem removeLoop_eq_erase (heap : List Client) (client : Nat) :
    ∀ l : List Nat,
      l.Pairwise (fun p q => (deref heap p).GetLastPing ≤ (deref heap q).GetLastPing) →
      client ∈ l →
      (∀ q ∈ l, (deref heap client).GetLastPing ≤ (deref heap q).GetLastPing) →
      removeLoop heap (deref heap client).GetLastPing client l = l.erase client := by
  intro l
  induction l with
  | nil => intro _ hm; simp at hm
  | cons q rest ih =>
    intro hs hm hlow
    obtain ⟨hq, hrest⟩ := List.pairwise_cons.mp hs
    unfold removeLoop
    by_cases hqc : q = client
    · subst hqc
      simp
    · have hm2 : client ∈ rest := by
        rcases List.mem_cons.mp hm with h | h
        · exact absurd h.symm hqc
        · exact h
      have hkey : (deref heap q).GetLastPing = (deref heap client).GetLastPing :=
        le_antisymm (hq client hm2) (hlow q (List.mem_cons_self _ _))
      rw [if_neg (by simp [hkey]), if_neg hqc,
        ih hrest hm2 (fun x hx => hlow x (List.mem_cons_of_mem _ hx)),
        List.erase_cons_tail (by simpa using hqc)]

theorem remove_eq_erase (heap : List Client) (client : Nat) :
    ∀ l : List Nat,
      l.Pairwise (fun p q => (deref heap p).GetLastPing ≤ (deref heap q).GetLastPing) →
      client ∈ l →
      l.take (firstPlacement heap (deref heap client).GetLastPing l) ++
        removeLoop heap (deref heap client).GetLastPing client
          (l.drop (firstPlacement heap (deref heap client).GetLastPing l)) = l.erase client := by
  intro l
  induction l with
  | nil => intro _ hm; simp at hm
  | cons q rest ih =>
    intro hs hm
    obtain ⟨hq, hrest⟩ := List.pairwise_cons.mp hs
    unfold firstPlacement
    by_cases hge : (deref heap q).GetLastPing ≥ (deref heap client).GetLastPing
    · rw [if_pos hge]
      simp only [List.take_zero, List.drop_zero, List.nil_append]
      refine removeLoop_eq_erase heap client (q :: rest) hs hm ?_
      intro x hx
      rcases List.mem_cons.mp hx with h | h
      · rw [h]; exact hge
      · exact le_trans hge (hq x h)
    · rw [if_neg hge]
      have hqc : q ≠ client := by
        intro h
        rw [h] at hge
        exact hge (le_refl _)
      have hm2 : client ∈ rest := by
        rcases List.mem_cons.mp hm with h | h
        · exact absurd h.symm hqc
        · exact h
      simp only [List.take_succ_cons, List.drop_succ_cons, List.cons_append]
      rw [ih hrest hm2, List.erase_cons_tail (by simpa using hqc)]

/-! ## Preservation of the structural invariants -/

theorem Client.CheckIPRate_eq (manager : ClientManager) (c : Client) (time : Nat) :
    c.CheckIPRate manager time =
      if sub32 time c.m_last_reset ≥ manager.m_max_window then
        (true, { c with m_last_ping := time, m_last_reset := time, m_count := 1 })
      else if inc32 c.m_count ≥ mul32 manager.m_max_sec manager.m_max_window then
        (false, { c with m_last_ping := time, m_count := inc32 c.m_count })
      else
        (true, { c with m_last_ping := time, m_count := inc32 c.m_count }) := rfl

theorem Client.CheckIPRate_fields (manager : ClientManager) (c : Client) (time : Nat) :
    (c.CheckIPRate manager time).2.GetLastPing = time ∧
    (c.CheckIPRate manager time).2.GetAddress = c.GetAddress ∧
    (c.CheckIPRate manager time).2.MarkedForRemoval = c.MarkedForRemoval := by
  rw [Client.CheckIPRate_eq]
  unfold Client.GetLastPing Client.GetAddress Client.MarkedForRemoval
  split_ifs <;> simp

theorem Inv.mem_clients (s : ClientManager) (hinv : Inv s) (address client : Nat)
    (hfind : mapFind s.m_address_map address = some client) :
    client ∈ s.m_clients ∧ client < s.heap.length ∧ (address, client) ∈ s.m_address_map := by
  have hmem := mapFind_some_mem _ _ _ hfind
  refine ⟨?_, hinv.valid _ hmem, hmem⟩
  rw [hinv.perm.mem_iff]
  exact List.mem_map.mpr ⟨_, hmem, rfl⟩

theorem Inv.nodup_clients (s : ClientManager) (hinv : Inv s) : s.m_clients.Nodup :=
  hinv.perm.nodup_iff.mpr hinv.ptrs

theorem Inv.RemoveClientFromList_eq_erase (s : ClientManager) (hinv : Inv s) (client : Nat)
    (hmem : client ∈ s.m_clients) :
    (s.RemoveClientFromList client).m_clients = s.m_clients.erase client := by
  unfold ClientManager.RemoveClientFromList ClientManager.FindFirstPlacementForLastPing
  exact remove_eq_erase s.heap client s.m_clients hinv.sorted hmem

theorem Inv.checkKnown_preserved (s : ClientManager) (hinv : Inv s) (address client time : Nat)
    (hfind : mapFind s.m_address_map address = some client) :
    Inv (s.checkKnown client time).2 := by
  obtain ⟨hmc, hvalid, hmem⟩ := Inv.mem_clients s hinv address client hfind
  obtain ⟨f1, f2, f3⟩ := Client.CheckIPRate_fields s (deref s.heap client) time
  rw [ClientManager.checkKnown_eq]
  have hself := deref_store_self s.heap client
    ((deref s.heap client).CheckIPRate s time).2 hvalid
  have hne := fun q (h : q ≠ client) => deref_store_ne s.heap client q
    ((deref s.heap client).CheckIPRate s time).2 h
  have hnd := Inv.nodup_clients s hinv
  refine ⟨?_, ?_, ?_, hinv.keys, hinv.ptrs, ?_, ?_⟩
  · intro e he
    simp only [length_store]
    exact hinv.valid e he
  · intro e he
    by_cases hc : e.2 = client
    · simp only [hc, hself, f2]
      rw [← hc]
      exact hinv.addr e he
    · simp only [hne _ hc]
      exact hinv.addr e he
  · intro e he
    by_cases hc : e.2 = client
    · simp only [hc, hself, f3]
      rw [← hc]
      exact hinv.unmarked e he
    · simp only [hne _ hc]
      exact hinv.unmarked e he
  · show List.Perm (ite _ _ _) _
    split_ifs with hping
    · rw [Inv.RemoveClientFromList_eq_erase s hinv client hmc]
      exact ((listEmplace_perm _ _ _).trans (List.perm_cons_erase hmc).symm).trans hinv.perm
    · exact hinv.perm
  · show List.Pairwise _ (ite _ _ _)
    split_ifs with hping
    · rw [Inv.RemoveClientFromList_eq_erase s hinv client hmc]
      have hnot : client ∉ s.m_clients.erase client := fun h => (hnd.mem_erase_iff.mp h).1 rfl
      have hsub : (s.m_clients.erase client).Sublist s.m_clients := List.erase_sublist _ _
      have hs0 := hinv.sorted.sublist hsub
      have hspec := optimalPlacement_spec s.heap time (s.m_clients.erase client).reverse
        (by rw [List.reverse_reverse]; exact hs0)
      rw [List.reverse_reverse] at hspec
      obtain ⟨_, h1, h2⟩ := hspec
      have hpos : (s.RemoveClientFromList client).FindOptimalPlacementForLastPing time
          = optimalPlacement s.heap time (s.m_clients.erase client).reverse := by
        unfold ClientManager.FindOptimalPlacementForLastPing
        rw [Inv.RemoveClientFromList_eq_erase s hinv client hmc]
        rfl
      rw [hpos]
      have hq : ∀ q ∈ s.m_clients.erase client, q ≠ client := fun q hq h => hnot (h ▸ hq)
      apply listEmplace_pairwise
        (fun q => (deref (store s.heap client ((deref s.heap client).CheckIPRate s time).2)
          q).GetLastPing)
      · refine hs0.imp_of_mem ?_
        intro a b ha hb hab
        simp only [hne a (hq a ha), hne b (hq b hb)]
        exact hab
      · intro q hq1
        simp only [hne q (hq q (List.mem_of_mem_take hq1)), hself, f1]
        exact h1 q hq1
      · intro q hq1
        simp only [hne q (hq q (List.mem_of_mem_drop hq1)), hself, f1]
        exact le_of_lt (h2 q hq1)
    · have hping2 : (deref s.heap client).GetLastPing = time := by
        by_contra h
        exact hping h
      have hkey : ∀ q, (deref (store s.heap client ((deref s.heap client).CheckIPRate s time).2)
          q).GetLastPing = (deref s.heap q).GetLastPing := by
        intro q
        by_cases hc : q = client
        · rw [hc, hself, f1, hping2]
        · rw [hne q hc]
      simp only [hkey]
      exact hinv.sorted

theorem Inv.clients_valid (s : ClientManager) (hinv : Inv s) :
    ∀ q ∈ s.m_clients, q < s.heap.length := by
  intro q hq
  rw [hinv.perm.mem_iff] at hq
  obtain ⟨e, he, heq⟩ := List.mem_map.mp hq
  rw [← heq]
  exact hinv.valid e he

theorem Inv.addClient_preserved (s : ClientManager) (hinv : Inv s) (address time : Nat)
    (hnew : mapFind s.m_address_map address = none) : Inv (s.addClient address time) := by
  have hlt : ∀ e ∈ s.m_address_map,
      deref (s.heap ++ [Client.initAt address time]) e.2 = deref s.heap e.2 :=
    fun e he => deref_append_lt s.heap e.2 (Client.initAt address time) (hinv.valid e he)
  have hlast := deref_append_length s.heap (Client.initAt address time)
  have hcl := Inv.clients_valid s hinv
  have hltc := fun q hq => deref_append_lt s.heap q (Client.initAt address time) (hcl q hq)
  refine ⟨?_, ?_, ?_, ?_, ?_, ?_, ?_⟩
  · intro e he
    simp only [ClientManager.addClient, List.mem_cons, List.length_append, List.length_singleton]
      at he ⊢
    rcases he with h | h
    · rw [h]; simp
    · have := hinv.valid e h
      omega
  · intro e he
    simp only [ClientManager.addClient, List.mem_cons] at he ⊢
    rcases he with h | h
    · rw [h]
      simp only [hlast]
      rfl
    · rw [hlt e h]
      exact hinv.addr e h
  · intro e he
    simp only [ClientManager.addClient, List.mem_cons] at he ⊢
    rcases he with h | h
    · rw [h]
      simp only [hlast]
      rfl
    · rw [hlt e h]
      exact hinv.unmarked e h
  · simp only [ClientManager.addClient, List.map_cons]
    exact List.nodup_cons.mpr ⟨(mapFind_none_iff _ _).mp hnew, hinv.keys⟩
  · simp only [ClientManager.addClient, List.map_cons]
    refine List.nodup_cons.mpr ⟨?_, hinv.ptrs⟩
    intro hm
    obtain ⟨e, he, heq⟩ := List.mem_map.mp hm
    have := hinv.valid e he
    omega
  · simp only [ClientManager.addClient, List.map_cons]
    exact (listEmplace_perm _ _ _).trans (List.Perm.cons _ hinv.perm)
  · simp only [ClientManager.addClient, ClientManager.FindOptimalPlacementForLastPing]
    have hs1 : s.m_clients.Pairwise (fun p q =>
        (deref (s.heap ++ [Client.initAt address time]) p).GetLastPing ≤
        (deref (s.heap ++ [Client.initAt address time]) q).GetLastPing) := by
      refine hinv.sorted.imp_of_mem ?_
      intro a b ha hb hab
      rw [hltc a ha, hltc b hb]
      exact hab
    have hspec := optimalPlacement_spec (s.heap ++ [Client.initAt address time]) time
      s.m_clients.reverse (by rw [List.reverse_reverse]; exact hs1)
    rw [List.reverse_reverse] at hspec
    obtain ⟨_, h1, h2⟩ := hspec
    apply listEmplace_pairwise
      (fun q => (deref (s.heap ++ [Client.initAt address time]) q).GetLastPing)
    · exact hs1
    · intro q hq
      simp only [hlast]
      exact h1 q hq
    · intro q hq
      simp only [hlast]
      exact le_of_lt (h2 q hq)

/-- Result of the registry scan of `SafePrune`: the heap keeps its size and changes at most
by marks on objects of erased entries, the remaining entries are a sublist of the registry,
and the object of every erased entry is marked. -/
theorem safePruneScan_spec (time : Nat) :
    ∀ (m : List (Nat × Nat)) (skip : Bool) (heap : List Client) (size : Nat)
      (heap1 : List Client) (m1 : List (Nat × Nat)),
      (∀ e ∈ m, e.2 < heap.length) → (m.map Prod.snd).Nodup →
      safePruneScan time skip heap size m = some (heap1, m1) →
      heap1.length = heap.length ∧ m1.Sublist m ∧
      (∀ q, deref heap1 q = deref heap q ∨
        (deref heap1 q = (deref heap q).MarkForRemoval ∧
          q ∈ m.map Prod.snd ∧ q ∉ m1.map Prod.snd)) ∧
      (∀ q ∈ m.map Prod.snd, q ∉ m1.map Prod.snd →
        (deref heap1 q).MarkedForRemoval = true) := by
  intro m
  induction m with
  | nil =>
    intro skip heap size heap1 m1 _ _ h
    cases skip with
    | true => simp [safePruneScan] at h
    | false =>
      simp only [safePruneScan, Option.some.injEq, Prod.mk.injEq] at h
      obtain ⟨h1, h2⟩ := h
      subst h1
      subst h2
      exact ⟨rfl, List.Sublist.refl _, fun q => Or.inl rfl, fun q hq => by simp at hq⟩
  | cons e rest ih =>
    intro skip heap size heap1 m1 hv hnd h
    rw [List.map_cons] at hnd
    obtain ⟨hnot, hnd2⟩ := List.nodup_cons.mp hnd
    have hvrest : ∀ e1 ∈ rest, e1.2 < heap.length :=
      fun e1 he1 => hv e1 (List.mem_cons_of_mem _ he1)
    have keep : ∀ m2, safePruneScan time false heap size rest = some (heap1, m2) →
        heap1.length = heap.length ∧ (e :: m2).Sublist (e :: rest) ∧
        (∀ q, deref heap1 q = deref heap q ∨
          (deref heap1 q = (deref heap q).MarkForRemoval ∧
            q ∈ (e :: rest).map Prod.snd ∧ q ∉ (e :: m2).map Prod.snd)) ∧
        (∀ q ∈ (e :: rest).map Prod.snd, q ∉ (e :: m2).map Prod.snd →
          (deref heap1 q).MarkedForRemoval = true) := by
      intro m2 h2
      obtain ⟨i1, i2, i3, i4⟩ := ih false heap size heap1 m2 hvrest hnd2 h2
      refine ⟨i1, List.Sublist.cons₂ _ i2, ?_, ?_⟩
      · intro q
        rcases i3 q with h3 | ⟨h3, h4, h5⟩
        · exact Or.inl h3
        · refine Or.inr ⟨h3, ?_, ?_⟩
          · rw [List.map_cons]
            exact List.mem_cons_of_mem _ h4
          · rw [List.map_cons, List.mem_cons]
            rintro (h6 | h6)
            · exact hnot (h6 ▸ h4)
            · exact h5 h6
      · intro q hq hq2
        rw [List.map_cons, List.mem_cons] at hq hq2
        rcases hq with h6 | h6
        · exact absurd (Or.inl h6) hq2
        · exact i4 q h6 (fun h7 => hq2 (Or.inr h7))
    have keepMap : (safePruneScan time false heap size rest).map (fun r => (r.1, e :: r.2))
        = some (heap1, m1) → ∃ m2, m1 = e :: m2 ∧
          safePruneScan time false heap size rest = some (heap1, m2) := by
      intro h2
      cases hr : safePruneScan time false heap size rest with
      | none => simp [hr] at h2
      | some r =>
        simp only [hr, Option.map_some', Option.some.injEq, Prod.mk.injEq] at h2
        obtain ⟨h3, h4⟩ := h2
        refine ⟨r.2, h4.symm, ?_⟩
        rw [← h3]
    cases skip with
    | true =>
      simp only [safePruneScan] at h
      obtain ⟨m2, hm, h2⟩ := keepMap h
      subst hm
      exact keep m2 h2
    | false =>
      simp only [safePruneScan] at h
      by_cases hto : (deref heap e.2).TimedOut time = true
      · simp only [hto, if_true] at h
        have hself := deref_store_self heap e.2 (deref heap e.2).MarkForRemoval
          (hv e (List.mem_cons_self _ _))
        have hne := fun q (hq : q ≠ e.2) =>
          deref_store_ne heap e.2 q (deref heap e.2).MarkForRemoval hq
        by_cases hbreak : size - 1 ≤ ClientManager.SafePruneMaxClients
        · simp only [hbreak, if_true, Option.some.injEq, Prod.mk.injEq] at h
          obtain ⟨h1, h2⟩ := h
          subst h1
          subst h2
          refine ⟨length_store _ _ _, List.Sublist.cons _ (List.Sublist.refl _), ?_, ?_⟩
          · intro q
            by_cases hq : q = e.2
            · subst hq
              exact Or.inr ⟨hself, by simp, hnot⟩
            · exact Or.inl (hne q hq)
          · intro q hq hq2
            rw [List.map_cons, List.mem_cons] at hq
            rcases hq with h6 | h6
            · rw [h6, hself]
              rfl
            · exact absurd h6 hq2
        · simp only [hbreak, if_false] at h
          obtain ⟨i1, i2, i3, i4⟩ := ih true _ (size - 1) heap1 m1
            (fun e1 he1 => by rw [length_store]; exact hvrest e1 he1) hnd2 h
          have hsub : ∀ q, q ∈ m1.map Prod.snd → q ∈ rest.map Prod.snd :=
            fun q hq => (i2.map Prod.snd).subset hq
          refine ⟨by rw [i1, length_store], List.Sublist.cons _ i2, ?_, ?_⟩
          · intro q
            by_cases hq : q = e.2
            · subst hq
              rcases i3 e.2 with h3 | ⟨_, h4, _⟩
              · refine Or.inr ⟨by rw [h3, hself], by simp, fun h7 => hnot (hsub _ h7)⟩
              · exact absurd h4 hnot
            · rcases i3 q with h3 | ⟨h3, h4, h5⟩
              · exact Or.inl (by rw [h3, hne q hq])
              · refine Or.inr ⟨by rw [h3, hne q hq], ?_, h5⟩
                rw [List.map_cons]
                exact List.mem_cons_of_mem _ h4
          · intro q hq hq2
            rw [List.map_cons, List.mem_cons] at hq
            rcases hq with h6 | h6
            · rcases i3 e.2 with h3 | ⟨_, h4, _⟩
              · rw [h6, h3, hself]
                rfl
              · exact absurd h4 hnot
            · exact i4 q h6 hq2
      · simp only [hto, if_false] at h
        obtain ⟨m2, hm, h2⟩ := keepMap h
        subst hm
        exact keep m2 h2

theorem Inv.SafePrune_preserved (s s1 : ClientManager) (hinv : Inv s) (time : Nat)
    (h : s.SafePrune time = some s1) : Inv s1 := by
  unfold ClientManager.SafePrune at h
  cases hscan : safePruneScan time false s.heap s.m_address_map.length s.m_address_map with
  | none => simp [hscan] at h
  | some r =>
    simp only [hscan, Option.some.injEq] at h
    obtain ⟨i1, i2, i3, i4⟩ := safePruneScan_spec time s.m_address_map false s.heap
      s.m_address_map.length r.1 r.2 hinv.valid hinv.ptrs hscan
    have hkey : ∀ q, (deref r.1 q).GetLastPing = (deref s.heap q).GetLastPing := by
      intro q
      rcases i3 q with h3 | ⟨h3, _, _⟩ <;> rw [h3]
      rfl
    have hsame : ∀ e ∈ r.2, deref r.1 e.2 = deref s.heap e.2 := by
      intro e he
      rcases i3 e.2 with h3 | ⟨_, _, h5⟩
      · exact h3
      · exact absurd (List.mem_map.mpr ⟨e, he, rfl⟩) h5
    subst h
    refine ⟨?_, ?_, ?_, ?_, ?_, ?_, ?_⟩
    · intro e he
      show e.2 < r.1.length
      rw [i1]
      exact hinv.valid e (i2.subset he)
    · intro e he
      show (deref r.1 e.2).GetAddress = e.1
      rw [hsame e he]
      exact hinv.addr e (i2.subset he)
    · intro e he
      show (deref r.1 e.2).MarkedForRemoval = false
      rw [hsame e he]
      exact hinv.unmarked e (i2.subset he)
    · exact hinv.keys.sublist (i2.map Prod.fst)
    · exact hinv.ptrs.sublist (i2.map Prod.snd)
    · show List.Perm (s.m_clients.filter (fun p => !(deref r.1 p).MarkedForRemoval))
        (r.2.map Prod.snd)
      have hf := filter_eq_of_sublist (fun p => !(deref r.1 p).MarkedForRemoval)
        (r.2.map Prod.snd) (s.m_address_map.map Prod.snd) (i2.map Prod.snd) hinv.ptrs
        (by
          intro x hx
          obtain ⟨e, he, heq⟩ := List.mem_map.mp hx
          show (!(deref r.1 x).MarkedForRemoval) = true
          rw [← heq, hsame e he, hinv.unmarked e (i2.subset he)]
          rfl)
        (by
          intro x hx hx2
          show (!(deref r.1 x).MarkedForRemoval) = false
          rw [i4 x hx hx2]
          rfl)
      rw [← hf]
      exact hinv.perm.filter _
    · show List.Pairwise _ (s.m_clients.filter (fun p => !(deref r.1 p).MarkedForRemoval))
      simp only [hkey]
      exact hinv.sorted.sublist (List.filter_sublist _)

theorem foldl_mapErase (heap : List Client) :
    ∀ (ps : List Nat) (m : List (Nat × Nat)),
      ps.foldl (fun m p => mapErase m (deref heap p).GetAddress) m =
        m.filter (fun e => decide (e.1 ∉ ps.map (fun p => (deref heap p).GetAddress))) := by
  intro ps
  induction ps with
  | nil => intro m; simp
  | cons p rest ih =>
    intro m
    rw [List.foldl_cons, ih]
    unfold mapErase
    rw [List.filter_filter]
    apply List.filter_congr
    intro e _
    by_cases h1 : e.1 = (deref heap p).GetAddress <;> simp [h1]

/-- Removal of the first `k` entries of the recency list together with their keys. -/
theorem Inv.dropFront (s : ClientManager) (hinv : Inv s) (k : Nat) :
    Inv { s with
      m_address_map :=
        (s.m_clients.take k).foldl
          (fun m p => mapErase m (deref s.heap p).GetAddress) s.m_address_map
      m_clients := s.m_clients.drop k } := by
  rw [foldl_mapErase]
  have hnd := Inv.nodup_clients s hinv
  have hiff : ∀ e ∈ s.m_address_map,
      decide (e.1 ∉ (s.m_clients.take k).map (fun p => (deref s.heap p).GetAddress)) =
      ((fun x => decide (x ∉ s.m_clients.take k)) ∘ Prod.snd) e := by
    intro e he
    simp only [Function.comp, decide_eq_decide]
    constructor
    · intro h1 h2
      exact h1 (List.mem_map.mpr ⟨e.2, h2, hinv.addr e he⟩)
    · intro h1 h2
      obtain ⟨q, hq, hqa⟩ := List.mem_map.mp h2
      have hq2 : q ∈ s.m_address_map.map Prod.snd :=
        hinv.perm.mem_iff.mp (List.mem_of_mem_take hq)
      obtain ⟨e1, he1, he1q⟩ := List.mem_map.mp hq2
      have hk : e1.1 = e.1 := by
        rw [← hinv.addr e1 he1, he1q]
        exact hqa
      have hee : e1 = e := List.inj_on_of_nodup_map hinv.keys he1 he hk
      rw [← hee, he1q] at h1
      exact h1 hq
  rw [List.filter_congr hiff]
  have hsub : (s.m_address_map.filter
      ((fun x => decide (x ∉ s.m_clients.take k)) ∘ Prod.snd)).Sublist s.m_address_map :=
    List.filter_sublist _
  refine ⟨?_, ?_, ?_, ?_, ?_, ?_, ?_⟩
  · intro e he
    exact hinv.valid e (hsub.subset he)
  · intro e he
    exact hinv.addr e (hsub.subset he)
  · intro e he
    exact hinv.unmarked e (hsub.subset he)
  · exact hinv.keys.sublist (hsub.map Prod.fst)
  · exact hinv.ptrs.sublist (hsub.map Prod.snd)
  · show List.Perm (s.m_clients.drop k) (List.map Prod.snd (List.filter _ s.m_address_map))
    rw [← List.filter_map, ← filter_not_mem_take s.m_clients k hnd]
    exact hinv.perm.filter _
  · exact hinv.sorted.sublist (List.drop_sublist _ _)

theorem Inv.LastDitchPrune_preserved (s s1 : ClientManager) (hinv : Inv s)
    (h : s.LastDitchPrune = some s1) :
    Inv s1 ∧ s1.m_clients.length = ClientManager.LastDitchPruneMaxClients := by
  unfold ClientManager.LastDitchPrune at h
  generalize ClientManager.LastDitchPruneMaxClients = K at h ⊢
  split_ifs at h with hlen
  simp only [Option.some.injEq] at h
  subst h
  refine ⟨Inv.dropFront s hinv _, ?_⟩
  show (s.m_clients.drop _).length = _
  rw [List.length_drop]
  omega

theorem Inv.congr (s s1 : ClientManager) (hinv : Inv s) (h1 : s1.heap = s.heap)
    (h2 : s1.m_clients = s.m_clients) (h3 : s1.m_address_map = s.m_address_map) : Inv s1 := by
  obtain ⟨a1, a2, a3, a4, a5, a6, a7⟩ := hinv
  refine ⟨?_, ?_, ?_, ?_, ?_, ?_, ?_⟩
  · rw [h1, h3]; exact a1
  · rw [h1, h3]; exact a2
  · rw [h1, h3]; exact a3
  · rw [h3]; exact a4
  · rw [h3]; exact a5
  · rw [h2, h3]; exact a6
  · rw [h1, h2]; exact a7

/-- The structural invariants do not depend on the iteration order of the registry. -/
theorem Inv.reorder (s : ClientManager) (m : List (Nat × Nat)) (hinv : Inv s)
    (hperm : m.Perm s.m_address_map) : Inv { s with m_address_map := m } := by
  obtain ⟨a1, a2, a3, a4, a5, a6, a7⟩ := hinv
  refine ⟨?_, ?_, ?_, ?_, ?_, ?_, a7⟩
  · intro e he
    exact a1 e (hperm.mem_iff.mp he)
  · intro e he
    exact a2 e (hperm.mem_iff.mp he)
  · intro e he
    exact a3 e (hperm.mem_iff.mp he)
  · exact (hperm.map Prod.fst).nodup_iff.mpr a4
  · exact (hperm.map Prod.snd).nodup_iff.mpr a5
  · exact a6.trans (hperm.map Prod.snd).symm

theorem Inv.init_holds : Inv ClientManager.init := by
  refine ⟨?_, ?_, ?_, ?_, ?_, ?_, ?_⟩ <;> simp [ClientManager.init]

theorem ClientManager.SafePrune_sublist (s s1 : ClientManager) (hinv : Inv s) (time : Nat)
    (h : s.SafePrune time = some s1) : s1.m_address_map.Sublist s.m_address_map := by
  unfold ClientManager.SafePrune at h
  cases hscan : safePruneScan time false s.heap s.m_address_map.length s.m_address_map with
  | none => simp [hscan] at h
  | some r =>
    simp only [hscan, Option.some.injEq] at h
    obtain ⟨_, i2, _, _⟩ := safePruneScan_spec time s.m_address_map false s.heap
      s.m_address_map.length r.1 r.2 hinv.valid hinv.ptrs hscan
    subst h
    exact i2

theorem ClientManager.LastDitchPrune_sublist (s s1 : ClientManager)
    (h : s.LastDitchPrune = some s1) : s1.m_address_map.Sublist s.m_address_map := by
  unfold ClientManager.LastDitchPrune at h
  generalize ClientManager.LastDitchPruneMaxClients = K at h
  split_ifs at h with hlen
  simp only [Option.some.injEq] at h
  subst h
  show List.Sublist (List.foldl _ _ _) _
  rw [foldl_mapErase]
  exact List.filter_sublist _

theorem mapFind_none_of_sublist (m1 m : List (Nat × Nat)) (address : Nat)
    (hsub : m1.Sublist m) (h : mapFind m address = none) : mapFind m1 address = none := by
  rw [mapFind_none_iff] at h ⊢
  exact fun hm => h ((hsub.map Prod.fst).subset hm)

theorem prune_target_lt : ClientManager.LastDitchPruneMaxClients < ClientManager.MaxClients := by
  decide

theorem Inv.checkNew_preserved (s s3 : ClientManager) (hinv : Inv s) (address time : Nat)
    (hnew : mapFind s.m_address_map address = none)
    (h : s.checkNew address time = some s3) :
    Inv s3 ∧ s3.m_address_map.length ≤ ClientManager.MaxClients := by
  obtain ⟨s1, s2, h1, h2, h3⟩ := ClientManager.checkNew_some s s3 address time h
  have hs1 : Inv s1 ∧ mapFind s1.m_address_map address = none := by
    split_ifs at h1
    · exact ⟨Inv.SafePrune_preserved s s1 hinv time h1,
        mapFind_none_of_sublist _ _ _ (ClientManager.SafePrune_sublist s s1 hinv time h1) hnew⟩
    · simp only [Option.some.injEq] at h1
      subst h1
      exact ⟨hinv, hnew⟩
  have hs2 : Inv s2 ∧ mapFind s2.m_address_map address = none ∧
      s2.m_address_map.length < ClientManager.MaxClients := by
    split_ifs at h2 with hlen
    · obtain ⟨i1, i2⟩ := Inv.LastDitchPrune_preserved s1 s2 hs1.1 h2
      refine ⟨i1, mapFind_none_of_sublist _ _ _
        (ClientManager.LastDitchPrune_sublist s1 s2 h2) hs1.2, ?_⟩
      have hl := i1.perm.length_eq
      rw [List.length_map] at hl
      rw [← hl, i2]
      exact prune_target_lt
    · simp only [Option.some.injEq] at h2
      subst h2
      exact ⟨hs1.1, hs1.2, by omega⟩
  subst h3
  refine ⟨Inv.addClient_preserved s2 hs2.1 address time hs2.2.1, ?_⟩
  rw [(ClientManager.addClient_frame s2 address time).2.1, List.length_cons]
  exact hs2.2.2

theorem Inv.globalWindow_preserved (s : ClientManager) (hinv : Inv s) (time : Nat) :
    Inv (s.globalWindow time).2 := by
  obtain ⟨f1, f2, f3, _⟩ := ClientManager.globalWindow_frame s time
  exact Inv.congr s _ hinv f1 f2 f3

/-- One call of `CheckIPRate` keeps the structural invariants and the capacity bound. -/
theorem Inv.CheckIPRate_preserved (s s1 : ClientManager) (address time : Nat) (v : RateLimitType)
    (hinv : Inv s) (hsize : s.m_address_map.length ≤ ClientManager.MaxClients)
    (h : s.CheckIPRate address time = some (v, s1)) :
    Inv s1 ∧ s1.m_address_map.length ≤ ClientManager.MaxClients := by
  unfold ClientManager.CheckIPRate at h
  by_cases hen : s.m_enabled = true
  · simp only [hen, Bool.not_true, Bool.false_eq_true, if_false] at h
    cases hfind : mapFind s.m_address_map address with
    | some client =>
      simp only [hfind] at h
      have hk := Inv.checkKnown_preserved s hinv address client time hfind
      have hmap : (s.checkKnown client time).2.m_address_map = s.m_address_map := by
        rw [ClientManager.checkKnown_eq]
      split_ifs at h
      · simp only [Option.some.injEq, Prod.mk.injEq] at h
        rw [← h.2]
        exact ⟨hk, by rw [hmap]; exact hsize⟩
      · simp only [Option.some.injEq] at h
        have h2 : s1 = ((s.checkKnown client time).2.globalWindow time).2 := by rw [h]
        rw [h2]
        refine ⟨Inv.globalWindow_preserved _ hk time, ?_⟩
        rw [(ClientManager.globalWindow_frame _ time).2.2.1, hmap]
        exact hsize
    | none =>
      simp only [hfind] at h
      cases hnew : s.checkNew address time with
      | none => simp [hnew] at h
      | some s3 =>
        simp only [hnew, Option.some.injEq] at h
        obtain ⟨i1, i2⟩ := Inv.checkNew_preserved s s3 hinv address time hfind hnew
        have h2 : s1 = (s3.globalWindow time).2 := by rw [h]
        rw [h2]
        refine ⟨Inv.globalWindow_preserved _ i1 time, ?_⟩
        rw [(ClientManager.globalWindow_frame _ time).2.2.1]
        exact i2
  · have hen2 : s.m_enabled = false := by simpa using hen
    simp only [hen2, Bool.not_false, if_true, Option.some.injEq, Prod.mk.injEq] at h
    rw [← h.2]
    exact ⟨hinv, hsize⟩

theorem Inv.applyOp_preserved (s s1 : ClientManager) (op : Op) (hinv : Inv s)
    (hsize : s.m_address_map.length ≤ ClientManager.MaxClients)
    (h : applyOp s op = some s1) :
    Inv s1 ∧ s1.m_address_map.length ≤ ClientManager.MaxClients := by
  cases op with
  | SetState enabled =>
    simp only [applyOp, Option.some.injEq] at h
    subst h
    exact ⟨Inv.congr s _ hinv rfl rfl rfl, hsize⟩
  | SetMaxQueriesWindow window =>
    simp only [applyOp, Option.some.injEq] at h
    subst h
    exact ⟨Inv.congr s _ hinv rfl rfl rfl, hsize⟩
  | SetMaxQueriesPerSecond max =>
    simp only [applyOp, Option.some.injEq] at h
    subst h
    exact ⟨Inv.congr s _ hinv rfl rfl rfl, hsize⟩
  | SetGlobalMaxQueriesPerSecond max =>
    simp only [applyOp, Option.some.injEq] at h
    subst h
    exact ⟨Inv.congr s _ hinv rfl rfl rfl, hsize⟩
  | CheckIPRate address time =>
    simp only [applyOp] at h
    cases hc : s.CheckIPRate address time with
    | none => simp [hc] at h
    | some r =>
      simp only [hc, Option.map_some', Option.some.injEq] at h
      subst h
      exact Inv.CheckIPRate_preserved s r.2 address time r.1 hinv hsize hc

theorem Inv.runOps_preserved (ops : List Op) :
    ∀ (s s1 : ClientManager), Inv s → s.m_address_map.length ≤ ClientManager.MaxClients →
      runOps s ops = some s1 →
      Inv s1 ∧ s1.m_address_map.length ≤ ClientManager.MaxClients := by
  induction ops with
  | nil =>
    intro s s1 hinv hsize h
    simp only [runOps, Option.some.injEq] at h
    subst h
    exact ⟨hinv, hsize⟩
  | cons op rest ih =>
    intro s s1 hinv hsize h
    unfold runOps at h
    cases ha : applyOp s op with
    | none => simp [ha] at h
    | some s2 =>
      simp only [ha] at h
      obtain ⟨i1, i2⟩ := Inv.applyOp_preserved s s2 op hinv hsize ha
      exact ih s2 s1 i1 i2 h

theorem Inv.reachable (s : ClientManager) (h : Reachable s) :
    Inv s ∧ s.m_address_map.length ≤ ClientManager.MaxClients := by
  obtain ⟨ops, hops⟩ := h
  exact Inv.runOps_preserved ops _ s Inv.init_holds (by simp [ClientManager.init]) hops

/-! ## Reachable states -/

theorem runOps_append (a b : List Op) :
    ∀ s s1 s2, runOps s a = some s1 → runOps s1 b = some s2 → runOps s (a ++ b) = some s2 := by
  induction a with
  | nil =>
    intro s s1 s2 h1 h2
    simp only [runOps, Option.some.injEq] at h1
    subst h1
    exact h2
  | cons op rest ih =>
    intro s s1 s2 h1 h2
    rw [List.cons_append]
    unfold runOps at h1 ⊢
    cases ha : applyOp s op with
    | none => simp [ha] at h1
    | some s3 =>
      simp only [ha] at h1 ⊢
      exact ih s3 s1 s2 h1 h2

theorem runChecks_runOps (qs : List (Nat × Nat)) :
    ∀ s vs s1, runChecks s qs = some (vs, s1) →
      runOps s (qs.map (fun q => Op.CheckIPRate q.1 q.2)) = some s1 := by
  induction qs with
  | nil =>
    intro s vs s1 h
    simp only [runChecks, Option.some.injEq, Prod.mk.injEq] at h
    rw [← h.2]
    rfl
  | cons q rest ih =>
    intro s vs s1 h
    unfold runChecks at h
    cases hc : s.CheckIPRate q.1 q.2 with
    | none => simp [hc] at h
    | some r =>
      simp only [hc] at h
      cases hr : runChecks r.2 rest with
      | none => simp [hr] at h
      | some rs =>
        simp only [hr, Option.some.injEq, Prod.mk.injEq] at h
        rw [List.map_cons]
        unfold runOps
        simp only [applyOp, hc, Option.map_some']
        rw [← h.2]
        exact ih r.2 rs.1 rs.2 hr

theorem Reachable.runChecks_closed (s s1 : ClientManager) (qs : List (Nat × Nat))
    (vs : List RateLimitType) (hr : Reachable s) (h : runChecks s qs = some (vs, s1)) :
    Reachable s1 := by
  obtain ⟨ops, hops⟩ := hr
  exact ⟨_, runOps_append ops _ _ s s1 hops (runChecks_runOps qs s vs s1 h)⟩

theorem Reachable.configured_reachable (L W G : Nat) : Reachable (configured L W G) :=
  ⟨[Op.SetState true, Op.SetMaxQueriesPerSecond L, Op.SetMaxQueriesWindow W,
    Op.SetGlobalMaxQueriesPerSecond G], rfl⟩

/-! ## Capacity and ordering -/

/-- C9: after every sequence of interface calls (state toggle, the three configuration
setters, `CheckIPRate` with any addresses and timestamps) on a freshly constructed limiter,
the registry `m_address_map` holds at most `MaxClients = 8192` entries. -/
theorem capacity_bound (ops : List Op) (s : ClientManager)
    (h : runOps ClientManager.init ops = some s) :
    s.m_address_map.length ≤ ClientManager.MaxClients ∧ ClientManager.MaxClients = 8192 :=
  ⟨(Inv.reachable s ⟨ops, h⟩).2, rfl⟩

theorem capacity_bound_witness :
    runOps ClientManager.init
      [Op.SetState true, Op.SetMaxQueriesPerSecond 1, Op.SetMaxQueriesWindow 2,
        Op.SetGlobalMaxQueriesPerSecond 50, Op.CheckIPRate 1 0, Op.CheckIPRate 2 0]
      = some twoClients ∧
    twoClients.m_address_map.length ≤ ClientManager.MaxClients ∧
    ClientManager.MaxClients = 8192 :=
  ⟨by decide,
    capacity_bound
      [Op.SetState true, Op.SetMaxQueriesPerSecond 1, Op.SetMaxQueriesWindow 2,
        Op.SetGlobalMaxQueriesPerSecond 50, Op.CheckIPRate 1 0, Op.CheckIPRate 2 0]
      twoClients (by decide)⟩

/-- C10: after every sequence of `CheckIPRate` calls, with any addresses and timestamps,
started on a freshly constructed enabled limiter (or on any other reachable state), the
last pings read along the recency list `m_clients` are in non-decreasing order and the list
is as long as the registry `m_address_map`. -/
theorem recency_sorted (s0 s : ClientManager) (qs : List (Nat × Nat))
    (vs : List RateLimitType) (h0 : Reachable s0) (h : runChecks s0 qs = some (vs, s)) :
    s.lastPings.Sorted (fun a b => a ≤ b) ∧ s.m_clients.length = s.m_address_map.length := by
  obtain ⟨hinv, _⟩ := Inv.reachable s (Reachable.runChecks_closed s0 s qs vs h0 h)
  constructor
  · unfold ClientManager.lastPings List.Sorted
    rw [List.pairwise_map]
    exact hinv.sorted
  · have hl := hinv.perm.length_eq
    rwa [List.length_map] at hl

theorem recency_sorted_witness :
    runChecks (ClientManager.init.SetState true) [(1, 5), (2, 3), (3, 9), (1, 4), (4, 3)] =
      some ([RateLimitType.None, RateLimitType.None, RateLimitType.None, RateLimitType.None,
        RateLimitType.None], outOfOrder) ∧
    outOfOrder.lastPings = [3, 3, 4, 9] ∧
    outOfOrder.lastPings.Sorted (fun a b => a ≤ b) ∧
    outOfOrder.m_clients.length = outOfOrder.m_address_map.length :=
  ⟨by decide, by decide,
    recency_sorted (ClientManager.init.SetState true) outOfOrder
      [(1, 5), (2, 3), (3, 9), (1, 4), (4, 3)]
      [RateLimitType.None, RateLimitType.None, RateLimitType.None, RateLimitType.None,
        RateLimitType.None]
      ⟨[Op.SetState true], rfl⟩ (by decide)⟩

/-! ## Calls for a known address -/

theorem ClientManager.globalWindow_ne_individual (s : ClientManager) (time : Nat) :
    (s.globalWindow time).1 ≠ RateLimitType.Individual := by
  rw [ClientManager.globalWindow_eq]
  split_ifs <;> simp

theorem ClientManager.CheckIPRate_known (s : ClientManager) (address time client : Nat)
    (hen : s.m_enabled = true) (hfind : mapFind s.m_address_map address = some client) :
    s.CheckIPRate address time =
      some (if ((deref s.heap client).CheckIPRate s time).1 = true then
        (s.checkKnown client time).2.globalWindow time
      else (RateLimitType.Individual, (s.checkKnown client time).2)) := by
  unfold ClientManager.CheckIPRate
  simp only [hen, hfind, Bool.not_true, Bool.false_eq_true, if_false]
  have h1 : (s.checkKnown client time).1 = ((deref s.heap client).CheckIPRate s time).1 := by
    rw [ClientManager.checkKnown_eq]
  rw [h1]
  cases ((deref s.heap client).CheckIPRate s time).1 <;> simp

theorem ClientManager.CheckIPRate_individual_inv (s s1 : ClientManager) (address time : Nat)
    (h : s.CheckIPRate address time = some (RateLimitType.Individual, s1)) :
    s.m_enabled = true ∧ ∃ client, mapFind s.m_address_map address = some client ∧
      ((deref s.heap client).CheckIPRate s time).1 = false ∧
      s1 = (s.checkKnown client time).2 := by
  by_cases hen : s.m_enabled = true
  · refine ⟨hen, ?_⟩
    cases hfind : mapFind s.m_address_map address with
    | some client =>
      rw [ClientManager.CheckIPRate_known s address time client hen hfind] at h
      refine ⟨client, rfl, ?_⟩
      cases hv : ((deref s.heap client).CheckIPRate s time).1 with
      | false =>
        simp only [hv, Bool.false_eq_true, if_false, Option.some.injEq, Prod.mk.injEq,
          true_and] at h
        exact ⟨rfl, h.symm⟩
      | true =>
        simp only [hv, if_true, Option.some.injEq] at h
        have := ClientManager.globalWindow_ne_individual (s.checkKnown client time).2 time
        rw [h] at this
        exact absurd rfl this
    | none =>
      unfold ClientManager.CheckIPRate at h
      simp only [hen, hfind, Bool.not_true, Bool.false_eq_true, if_false] at h
      cases hnew : s.checkNew address time with
      | none => simp [hnew] at h
      | some s3 =>
        simp only [hnew, Option.some.injEq] at h
        have := ClientManager.globalWindow_ne_individual s3 time
        rw [h] at this
        exact absurd rfl this
  · have hen2 : s.m_enabled = false := by simpa using hen
    unfold ClientManager.CheckIPRate at h
    simp [hen2] at h

theorem Client.CheckIPRate_reject (m : ClientManager) (c : Client) (t : Nat)
    (h : (c.CheckIPRate m t).1 = false) :
    sub32 t c.m_last_reset < m.m_max_window ∧
    (c.CheckIPRate m t).2.m_last_reset = c.m_last_reset := by
  rw [Client.CheckIPRate_eq] at h ⊢
  split_ifs at h ⊢ with h1 h2
  exact ⟨by omega, rfl⟩

theorem Client.CheckIPRate_reset (m : ClientManager) (c : Client) (t : Nat)
    (h : m.m_max_window ≤ sub32 t c.m_last_reset) :
    c.CheckIPRate m t = (true, { c with m_last_ping := t, m_last_reset := t, m_count := 1 }) := by
  rw [Client.CheckIPRate_eq, if_pos h]

theorem ClientManager.checkKnown_frame (s : ClientManager) (client time : Nat) :
    (s.checkKnown client time).2.heap =
      store s.heap client ((deref s.heap client).CheckIPRate s time).2 ∧
    (s.checkKnown client time).2.m_address_map = s.m_address_map ∧
    (s.checkKnown client time).2.m_enabled = s.m_enabled ∧
    (s.checkKnown client time).2.m_global_count = s.m_global_count ∧
    (s.checkKnown client time).2.m_global_last_reset = s.m_global_last_reset ∧
    (s.checkKnown client time).2.m_max_window = s.m_max_window ∧
    (s.checkKnown client time).2.m_max_sec = s.m_max_sec ∧
    (s.checkKnown client time).2.m_global_max_sec = s.m_global_max_sec := by
  rw [ClientManager.checkKnown_eq]
  simp

/-- C3: when `CheckIPRate( A, T )` has just returned `Individual` on a reachable state whose
window `W` satisfies `2 * W < 2^32`, the next call `CheckIPRate( A, T + W )` does not return
`Individual`: the record of `A` restarts its window at `T + W` with count 1, and the verdict
is `Global` exactly when the global window is not reset and its incremented count reaches
the global quota, `None` otherwise. -/
theorem window_reset (s s1 : ClientManager) (A T : Nat) (hr : Reachable s)
    (h2W : 2 * s.m_max_window < 2 ^ 32)
    (hrej : s.CheckIPRate A T = some (RateLimitType.Individual, s1)) :
    ∃ v s2 client,
      s1.CheckIPRate A ((T + s1.m_max_window) % 2 ^ 32) = some (v, s2) ∧
      v ≠ RateLimitType.Individual ∧
      mapFind s2.m_address_map A = some client ∧
      (deref s2.heap client).m_last_reset = (T + s1.m_max_window) % 2 ^ 32 ∧
      (deref s2.heap client).m_count = 1 ∧
      v = (if sub32 ((T + s1.m_max_window) % 2 ^ 32) s1.m_global_last_reset < s1.m_max_window ∧
            mul32 s1.m_global_max_sec s1.m_max_window ≤ inc32 s1.m_global_count
          then RateLimitType.Global else RateLimitType.None) := by
  obtain ⟨hen, client, hfind, hv, hs1⟩ := ClientManager.CheckIPRate_individual_inv s s1 A T hrej
  obtain ⟨hinv, _⟩ := Inv.reachable s hr
  obtain ⟨_, hvalid, _⟩ := Inv.mem_clients s hinv A client hfind
  obtain ⟨hwin, hreset⟩ := Client.CheckIPRate_reject s (deref s.heap client) T hv
  obtain ⟨f1, f2, f3, f4, f5, f6, f7, f8⟩ := ClientManager.checkKnown_frame s client T
  rw [← hs1] at f1 f2 f3 f4 f5 f6 f7 f8
  have hen1 : s1.m_enabled = true := by rw [f3, hen]
  have hfind1 : mapFind s1.m_address_map A = some client := by rw [f2, hfind]
  have hderef : deref s1.heap client = ((deref s.heap client).CheckIPRate s T).2 := by
    rw [f1]
    exact deref_store_self _ _ _ hvalid
  have hvalid1 : client < s1.heap.length := by
    rw [f1, length_store]
    exact hvalid
  have hU : (2 : Nat) ^ 32 = U32 := rfl
  rw [hU] at h2W ⊢
  have hge : s1.m_max_window ≤ sub32 ((T + s1.m_max_window) % U32) (deref s1.heap client).m_last_reset := by
    rw [hderef, hreset, f6, sub32_add T _ _ (by omega)]
    omega
  have hacc := Client.CheckIPRate_reset s1 (deref s1.heap client) _ hge
  have hcall := ClientManager.CheckIPRate_known s1 A ((T + s1.m_max_window) % U32) client
    hen1 hfind1
  rw [hacc] at hcall
  simp only [if_true] at hcall
  obtain ⟨g1, g2, g3, g4, g5, g6, g7, g8⟩ :=
    ClientManager.checkKnown_frame s1 client ((T + s1.m_max_window) % U32)
  obtain ⟨w1, _, w3, _⟩ := ClientManager.globalWindow_frame
    (s1.checkKnown client ((T + s1.m_max_window) % U32)).2 ((T + s1.m_max_window) % U32)
  refine ⟨((s1.checkKnown client ((T + s1.m_max_window) % U32)).2.globalWindow
      ((T + s1.m_max_window) % U32)).1,
    ((s1.checkKnown client ((T + s1.m_max_window) % U32)).2.globalWindow
      ((T + s1.m_max_window) % U32)).2, client, by rw [hcall],
    ClientManager.globalWindow_ne_individual _ _, ?_, ?_, ?_, ?_⟩
  · rw [w3, g2, hfind1]
  · rw [w1, g1, deref_store_self _ _ _ hvalid1, hacc]
  · rw [w1, g1, deref_store_self _ _ _ hvalid1, hacc]
  · rw [ClientManager.globalWindow_eq, g4, g5, g6, g8]
    by_cases hreset2 : sub32 ((T + s1.m_max_window) % U32) s1.m_global_last_reset
        ≥ s1.m_max_window
    · rw [if_pos hreset2, if_neg (by omega)]
    · rw [if_neg hreset2]
      by_cases hq : inc32 s1.m_global_count ≥ mul32 s1.m_global_max_sec s1.m_max_window
      · rw [if_pos hq, if_pos ⟨by omega, hq⟩]
      · rw [if_neg hq, if_neg (fun h => hq h.2)]

theorem window_reset_witness :
    Reachable (configured 1 2 50) ∧
    runChecks (configured 1 2 50) [(1, 0)] = some ([RateLimitType.None], quotaState 1 2 50 1 0 1) ∧
    (quotaState 1 2 50 1 0 1).CheckIPRate 1 0 = some (RateLimitType.Individual, oneRejected) ∧
    ∃ v s2 client,
      oneRejected.CheckIPRate 1 ((0 + oneRejected.m_max_window) % 2 ^ 32) = some (v, s2) ∧
      v ≠ RateLimitType.Individual ∧
      mapFind s2.m_address_map 1 = some client ∧
      (deref s2.heap client).m_last_reset = (0 + oneRejected.m_max_window) % 2 ^ 32 ∧
      (deref s2.heap client).m_count = 1 ∧
      v = (if sub32 ((0 + oneRejected.m_max_window) % 2 ^ 32) oneRejected.m_global_last_reset
              < oneRejected.m_max_window ∧
            mul32 oneRejected.m_global_max_sec oneRejected.m_max_window
              ≤ inc32 oneRejected.m_global_count
          then RateLimitType.Global else RateLimitType.None) :=
  ⟨Reachable.configured_reachable 1 2 50, by decide, by decide,
    window_reset (quotaState 1 2 50 1 0 1) oneRejected 1 0
      (Reachable.runChecks_closed (configured 1 2 50) _ [(1, 0)] [RateLimitType.None]
        (Reachable.configured_reachable 1 2 50) (by decide))
      (by decide) (by decide)⟩

/-- A record that is over its quota stays rejected inside its window. -/
theorem ClientManager.CheckIPRate_exhausted (s : ClientManager) (A t client : Nat)
    (hen : s.m_enabled = true) (hfind : mapFind s.m_address_map A = some client)
    (hvalid : client < s.heap.length)
    (hq : mul32 s.m_max_sec s.m_max_window ≤ (deref s.heap client).m_count)
    (hwrap : (deref s.heap client).m_count + 1 < U32)
    (hwin : sub32 t (deref s.heap client).m_last_reset < s.m_max_window) :
    ∃ s1, s.CheckIPRate A t = some (RateLimitType.Individual, s1) ∧
      s1.m_enabled = true ∧ s1.m_max_sec = s.m_max_sec ∧ s1.m_max_window = s.m_max_window ∧
      mapFind s1.m_address_map A = some client ∧ client < s1.heap.length ∧
      (deref s1.heap client).m_last_reset = (deref s.heap client).m_last_reset ∧
      (deref s1.heap client).m_count = (deref s.heap client).m_count + 1 := by
  have hinc : inc32 (deref s.heap client).m_count = (deref s.heap client).m_count + 1 := by
    unfold inc32
    exact Nat.mod_eq_of_lt hwrap
  have hrej : (deref s.heap client).CheckIPRate s t =
      (false, { deref s.heap client with
        m_last_ping := t, m_count := (deref s.heap client).m_count + 1 }) := by
    rw [Client.CheckIPRate_eq, if_neg (by omega), hinc, if_pos (by omega)]
  obtain ⟨f1, f2, f3, _, _, f6, f7, _⟩ := ClientManager.checkKnown_frame s client t
  refine ⟨(s.checkKnown client t).2, ?_, ?_, f7, f6, ?_, ?_, ?_, ?_⟩
  · rw [ClientManager.CheckIPRate_known s A t client hen hfind, hrej]
    simp
  · rw [f3, hen]
  · rw [f2, hfind]
  · rw [f1, length_store]
    exact hvalid
  · rw [f1, deref_store_self _ _ _ hvalid, hrej]
  · rw [f1, deref_store_self _ _ _ hvalid, hrej]

/-- A record that is over its quota rejects every call of a run of in-window calls. -/
theorem ClientManager.exhausted_run (A : Nat) :
    ∀ (ts : List Nat) (s : ClientManager) (client : Nat),
      s.m_enabled = true → mapFind s.m_address_map A = some client → client < s.heap.length →
      mul32 s.m_max_sec s.m_max_window ≤ (deref s.heap client).m_count →
      (deref s.heap client).m_count + ts.length < U32 →
      (∀ t ∈ ts, sub32 t (deref s.heap client).m_last_reset < s.m_max_window) →
      ∃ s1, runChecks s (ts.map (fun t => (A, t))) =
        some (List.replicate ts.length RateLimitType.Individual, s1) := by
  intro ts
  induction ts with
  | nil =>
    intro s client _ _ _ _ _ _
    exact ⟨s, rfl⟩
  | cons t rest ih =>
    intro s client hen hfind hvalid hq hwrap hwin
    rw [List.length_cons] at hwrap
    obtain ⟨s1, h1, h2, h3, h4, h5, h6, h7, h8⟩ := ClientManager.CheckIPRate_exhausted s A t
      client hen hfind hvalid hq (by omega) (hwin t (List.mem_cons_self _ _))
    obtain ⟨s2, hrun⟩ := ih s1 client h2 h5 h6 (by rw [h3, h4, h8]; omega) (by rw [h8]; omega)
      (fun t1 ht1 => by rw [h7, h4]; exact hwin t1 (List.mem_cons_of_mem _ ht1))
    refine ⟨s2, ?_⟩
    rw [List.map_cons, runChecks]
    simp only [h1, hrun]
    rfl

/-- C4: after `L * W` calls `CheckIPRate( A, T )` on a fresh enabled limiter (the last of
them rejected individually), the call `CheckIPRate( A, T + W - 1 )` returns `Individual`, and
so does every call of any run of further calls for `A` at times whose 32-bit distance from
`T` is below `W`, as long as the count does not wrap; more generally, in every enabled state
with limits `L`, `W` in which the record of `A` is over its quota, a call at a time `t`
whose 32-bit distance from the window start is below `W` returns `Individual` and leaves the
record over its quota with the same window start. -/
theorem window_not_reset (L W G A T : Nat) (hL : 1 ≤ L) (hW : 2 ≤ W)
    (hLW : L * W + 1 < 2 ^ 32) :
    (∃ vs s,
      runChecks (configured L W G) (List.replicate (L * W) (A, T)) =
        some (vs ++ [RateLimitType.Individual], s) ∧
      (∃ s1, s.CheckIPRate A ((T + W - 1) % 2 ^ 32) = some (RateLimitType.Individual, s1)) ∧
      (∀ ts : List Nat, L * W + ts.length < 2 ^ 32 →
        (∀ t ∈ ts, (t % 2 ^ 32 + (2 ^ 32 - T % 2 ^ 32)) % 2 ^ 32 < W) →
        ∃ s1, runChecks s (ts.map (fun t => (A, t))) =
          some (List.replicate ts.length RateLimitType.Individual, s1))) ∧
    (∀ (s : ClientManager) (client t : Nat),
      s.m_enabled = true → s.m_max_sec = L → s.m_max_window = W →
      mapFind s.m_address_map A = some client → client < s.heap.length →
      L * W ≤ (deref s.heap client).m_count →
      (deref s.heap client).m_count + 1 < 2 ^ 32 →
      (t % 2 ^ 32 + (2 ^ 32 - (deref s.heap client).m_last_reset % 2 ^ 32)) % 2 ^ 32 < W →
      ∃ s1, s.CheckIPRate A t = some (RateLimitType.Individual, s1) ∧
        s1.m_enabled = true ∧ s1.m_max_sec = L ∧ s1.m_max_window = W ∧
        mapFind s1.m_address_map A = some client ∧ client < s1.heap.length ∧
        (deref s1.heap client).m_last_reset = (deref s.heap client).m_last_reset ∧
        (deref s1.heap client).m_count = (deref s.heap client).m_count + 1) := by
  have hU : (2 : Nat) ^ 32 = U32 := rfl
  rw [hU] at hLW
  have hLW1 : L * W < U32 := by omega
  have hmul : mul32 L W = L * W := Nat.mod_eq_of_lt hLW1
  have gen : ∀ (s : ClientManager) (client t : Nat),
      s.m_enabled = true → s.m_max_sec = L → s.m_max_window = W →
      mapFind s.m_address_map A = some client → client < s.heap.length →
      L * W ≤ (deref s.heap client).m_count →
      (deref s.heap client).m_count + 1 < U32 →
      sub32 t (deref s.heap client).m_last_reset < W →
      ∃ s1, s.CheckIPRate A t = some (RateLimitType.Individual, s1) ∧
        s1.m_enabled = true ∧ s1.m_max_sec = L ∧ s1.m_max_window = W ∧
        mapFind s1.m_address_map A = some client ∧ client < s1.heap.length ∧
        (deref s1.heap client).m_last_reset = (deref s.heap client).m_last_reset ∧
        (deref s1.heap client).m_count = (deref s.heap client).m_count + 1 := by
    intro s client t hen hl hw hfind hvalid hq hwrap hwin
    obtain ⟨s1, h1, h2, h3, h4, h5⟩ := ClientManager.CheckIPRate_exhausted s A t client hen hfind
      hvalid (by rw [hl, hw, hmul]; exact hq) hwrap (by rw [hw]; exact hwin)
    exact ⟨s1, h1, h2, by rw [h3, hl], by rw [h4, hw], h5⟩
  refine ⟨?_, gen⟩
  obtain ⟨vs, hvs, _, _⟩ := quotaState_full L W G A T hL hW hLW1
  have hwin : sub32 ((T + W - 1) % U32) T < W := by
    have h1 : T + W - 1 = T + (W - 1) := by omega
    have hWle : W ≤ L * W := by nlinarith
    rw [h1, sub32_add T T (W - 1) (by rw [sub32_self]; omega), sub32_self]
    omega
  have hfind : mapFind (quotaFinal L W G A T).m_address_map A = some 0 := by
    simp [quotaFinal, quotaState, mapFind]
  have hvalid : 0 < (quotaFinal L W G A T).heap.length := by simp [quotaFinal]
  have hcount : (deref (quotaFinal L W G A T).heap 0).m_count = L * W := by
    simp [quotaFinal, deref]
  have hstart : (deref (quotaFinal L W G A T).heap 0).m_last_reset = T := by
    simp [quotaFinal, deref]
  refine ⟨vs, quotaFinal L W G A T, hvs, ?_, ?_⟩
  · obtain ⟨s1, h1, _⟩ := gen (quotaFinal L W G A T) 0 ((T + W - 1) % U32) rfl rfl rfl
      hfind hvalid (by rw [hcount]) (by rw [hcount]; exact hLW) (by rw [hstart]; exact hwin)
    exact ⟨s1, h1⟩
  · intro ts hlen hts
    refine ClientManager.exhausted_run A ts (quotaFinal L W G A T) 0 rfl hfind hvalid ?_ ?_ ?_
    · rw [hcount]
      exact le_of_eq hmul
    · rw [hcount]
      exact hlen
    · intro t ht
      rw [hstart]
      exact hts t ht

theorem window_not_reset_witness :
    1 ≤ 1 ∧ 2 ≤ 2 ∧ 1 * 2 + 1 < 2 ^ 32 ∧
    (∃ vs s,
      runChecks (configured 1 2 50) (List.replicate (1 * 2) (1, 0)) =
        some (vs ++ [RateLimitType.Individual], s) ∧
      (∃ s1, s.CheckIPRate 1 ((0 + 2 - 1) % 2 ^ 32) = some (RateLimitType.Individual, s1)) ∧
      (∀ ts : List Nat, 1 * 2 + ts.length < 2 ^ 32 →
        (∀ t ∈ ts, (t % 2 ^ 32 + (2 ^ 32 - 0 % 2 ^ 32)) % 2 ^ 32 < 2) →
        ∃ s1, runChecks s (ts.map (fun t => (1, t))) =
          some (List.replicate ts.length RateLimitType.Individual, s1))) ∧
    oneRejected.m_enabled = true ∧ mapFind oneRejected.m_address_map 1 = some 0 ∧
    1 * 2 ≤ (deref oneRejected.heap 0).m_count ∧
    ∃ s1, oneRejected.CheckIPRate 1 1 = some (RateLimitType.Individual, s1) ∧
      s1.m_enabled = true ∧ s1.m_max_sec = 1 ∧ s1.m_max_window = 2 ∧
      mapFind s1.m_address_map 1 = some 0 ∧ 0 < s1.heap.length ∧
      (deref s1.heap 0).m_last_reset = (deref oneRejected.heap 0).m_last_reset ∧
      (deref s1.heap 0).m_count = (deref oneRejected.heap 0).m_count + 1 :=
  ⟨by decide, by decide, by decide,
    (window_not_reset 1 2 50 1 0 (by decide) (by decide) (by decide)).1,
    by decide, by decide, by decide,
    (window_not_reset 1 2 50 1 0 (by decide) (by decide) (by decide)).2 oneRejected 0 1
      (by decide) (by decide) (by decide) (by decide) (by decide) (by decide) (by decide)
      (by decide)⟩

/-! ## Global quota -/

theorem globalWindow_counted (s : ClientManager) (T n : Nat) (hW : 1 ≤ s.m_max_window)
    (hG : 2 ≤ mul32 s.m_global_max_sec s.m_max_window)
    (hc : s.m_global_count = n % U32) (h0 : n = 0 → s.m_global_last_reset = 0)
    (hwin : 0 < n → sub32 T s.m_global_last_reset < s.m_max_window) :
    (s.globalWindow T).1 = globalVerdict s.m_global_max_sec s.m_max_window n ∧
    (s.globalWindow T).2.m_global_count = (n + 1) % U32 ∧
    sub32 T (s.globalWindow T).2.m_global_last_reset < s.m_max_window := by
  have hU : U32 = 4294967296 := rfl
  have hinc : inc32 s.m_global_count = (n + 1) % U32 := by
    unfold inc32
    rw [hc, hU]
    omega
  rw [ClientManager.globalWindow_eq]
  unfold globalVerdict
  by_cases hn : n = 0
  · subst hn
    have h1 : (0 + 1) % U32 = 1 := by rw [hU]
    by_cases hr : sub32 T s.m_global_last_reset ≥ s.m_max_window
    · rw [if_pos hr, h1, if_neg (by omega)]
      refine ⟨rfl, rfl, ?_⟩
      show sub32 T T < _
      rw [sub32_self]
      omega
    · rw [if_neg hr, hinc, h1, if_neg (by omega), if_neg (by omega)]
      exact ⟨rfl, rfl, by
        show sub32 T s.m_global_last_reset < _
        omega⟩
  · have hw := hwin (by omega)
    rw [if_neg (by omega), hinc]
    by_cases hq : mul32 s.m_global_max_sec s.m_max_window ≤ (n + 1) % U32
    · rw [if_pos hq, if_pos hq]
      exact ⟨rfl, rfl, hw⟩
    · rw [if_neg hq, if_neg hq]
      exact ⟨rfl, rfl, hw⟩

theorem TwoInv.symm (L W G X Y T cX cY : Nat) (s : ClientManager)
    (h : TwoInv L W G X Y T cX cY s) : TwoInv L W G Y X T cY cX s := by
  obtain ⟨a1, a2, a3, a4, a5, a6, a7, a8, a9, a10⟩ := h
  refine ⟨a1, a2, a3, a4, ?_, ?_, ?_, ?_, a10, a9⟩
  · rw [Nat.add_comm]; exact a5
  · rw [Nat.add_comm]; exact a6
  · rw [Nat.add_comm]; exact a7
  · rw [Nat.add_comm]; exact a8

theorem recOK_congr (s s1 : ClientManager) (X T c : Nat) (h : recOK s X T c)
    (hmap : mapFind s1.m_address_map X = mapFind s.m_address_map X)
    (hlen : s.heap.length ≤ s1.heap.length)
    (hder : ∀ p, p < s.heap.length → mapFind s.m_address_map X = some p →
      deref s1.heap p = deref s.heap p) : recOK s1 X T c := by
  rcases h with ⟨h1, h2⟩ | ⟨h1, p, h2, h3, h4⟩
  · exact Or.inl ⟨h1, by rw [hmap, h2]⟩
  · exact Or.inr ⟨h1, p, by omega, by rw [hmap, h3], by rw [hder p h2 h3, h4]⟩

theorem ClientManager.checkNew_small (s : ClientManager) (address time : Nat)
    (h : s.m_address_map.length < ClientManager.MaxClients) :
    s.checkNew address time = some (s.addClient address time) := by
  unfold ClientManager.checkNew
  have h1 : ¬ s.m_address_map.length ≥ ClientManager.MaxClients := by omega
  simp only [if_neg h1]

theorem ClientManager.CheckIPRate_new (s : ClientManager) (address time : Nat)
    (hen : s.m_enabled = true) (hfind : mapFind s.m_address_map address = none)
    (h : s.m_address_map.length < ClientManager.MaxClients) :
    s.CheckIPRate address time = some ((s.addClient address time).globalWindow time) := by
  unfold ClientManager.CheckIPRate
  simp only [hen, hfind, Bool.not_true, Bool.false_eq_true, if_false,
    ClientManager.checkNew_small s address time h]

theorem mul32_lt (a b : Nat) : mul32 a b < U32 := Nat.mod_lt _ (by decide)

/-- One more accepted call for `X` in a run for two addresses at one time. -/
theorem TwoInv.step (L W G X Y T cX cY : Nat) (s : ClientManager)
    (h : TwoInv L W G X Y T cX cY s) (hXY : X ≠ Y) (hW : 1 ≤ W) (hG : 2 ≤ mul32 G W)
    (hq : cX + 1 < mul32 L W) :
    ∃ s1, s.CheckIPRate X T = some (globalVerdict G W (cX + cY), s1) ∧
      TwoInv L W G X Y T (cX + 1) cY s1 := by
  obtain ⟨a1, a2, a3, a4, a5, a6, a7, a8, a9, a10⟩ := h
  have hML := mul32_lt L W
  have hsum : cX + 1 + cY = cX + cY + 1 := by omega
  rcases a9 with ⟨c0, hnone⟩ | ⟨hpos, p, hp, hfind, hder⟩
  · -- first call for `X`: a new record
    have hsmall : s.m_address_map.length < ClientManager.MaxClients := by
      have : ClientManager.MaxClients = 8192 := rfl
      omega
    obtain ⟨f1, f2, f3, f4, f5, f6, f7, f8⟩ := ClientManager.addClient_frame s X T
    obtain ⟨g1, g2, g3⟩ := globalWindow_counted (s.addClient X T) T (cX + cY)
      (by rw [f6, a2]; exact hW) (by rw [f8, f6, a4, a2]; exact hG) (by rw [f4, a5])
      (fun h0 => by rw [f5]; exact a6 h0) (fun h0 => by rw [f5, f6, a2]; exact a7 h0)
    obtain ⟨w1, _, w3, w4, w5, w6, w7⟩ := ClientManager.globalWindow_frame (s.addClient X T) T
    rw [f8, f6, a4, a2] at g1
    rw [f6, a2] at g3
    refine ⟨((s.addClient X T).globalWindow T).2, ?_, ?_⟩
    · rw [ClientManager.CheckIPRate_new s X T a1 hnone hsmall, ← g1]
    · refine ⟨by rw [w4, f3, a1], by rw [w5, f6, a2], by rw [w6, f7, a3], by rw [w7, f8, a4],
        by rw [g2, hsum], fun h0 => by omega, fun _ => g3, ?_, ?_, ?_⟩
      · rw [w3, f2, List.length_cons, a8]
        omega
      · refine Or.inr ⟨by omega, s.heap.length, ?_, ?_, ?_⟩
        · rw [w1, f1]
          simp
        · rw [w3, f2]
          simp [mapFind]
        · rw [w1, f1, deref_append_length, c0]
          rfl
      · refine recOK_congr s _ Y T cY a10 ?_ ?_ ?_
        · rw [w3, f2]
          simp [mapFind, hXY]
        · rw [w1, f1]
          simp
        · intro p1 hp1 _
          rw [w1, f1, deref_append_lt _ _ _ hp1]
  · -- a further call for `X`: its record accepts
    have hinc : inc32 cX = cX + 1 := by
      unfold inc32
      exact Nat.mod_eq_of_lt (by omega)
    have hacc : (deref s.heap p).CheckIPRate s T = (true, ⟨X, T, T, cX + 1, false⟩) := by
      rw [Client.CheckIPRate_eq, hder]
      simp only [sub32_self, a2, a3, hinc]
      rw [if_neg (by omega), if_neg (by omega)]
    obtain ⟨f1, f2, f3, f4, f5, f6, f7, f8⟩ := ClientManager.checkKnown_frame s p T
    obtain ⟨g1, g2, g3⟩ := globalWindow_counted (s.checkKnown p T).2 T (cX + cY)
      (by rw [f6, a2]; exact hW) (by rw [f8, f6, a4, a2]; exact hG) (by rw [f4, a5])
      (fun h0 => by rw [f5]; exact a6 h0) (fun h0 => by rw [f5, f6, a2]; exact a7 h0)
    obtain ⟨w1, _, w3, w4, w5, w6, w7⟩ := ClientManager.globalWindow_frame (s.checkKnown p T).2 T
    rw [f8, f6, a4, a2] at g1
    rw [f6, a2] at g3
    refine ⟨((s.checkKnown p T).2.globalWindow T).2, ?_, ?_⟩
    · rw [ClientManager.CheckIPRate_known s X T p a1 hfind, hacc, ← g1]
      simp
    · refine ⟨by rw [w4, f3, a1], by rw [w5, f6, a2], by rw [w6, f7, a3], by rw [w7, f8, a4],
        by rw [g2, hsum], fun h0 => by omega, fun _ => g3, ?_, ?_, ?_⟩
      · rw [w3, f2, a8]
        omega
      · refine Or.inr ⟨by omega, p, ?_, ?_, ?_⟩
        · rw [w1, f1, length_store]
          exact hp
        · rw [w3, f2, hfind]
        · rw [w1, f1, deref_store_self _ _ _ hp, hacc]
      · refine recOK_congr s _ Y T cY a10 ?_ ?_ ?_
        · rw [w3, f2]
        · rw [w1, f1, length_store]
        · intro p1 _ hfind1
          have hne : p1 ≠ p := by
            intro hpp
            subst hpp
            rcases a10 with ⟨_, h2⟩ | ⟨_, p2, _, h3, h4⟩
            · rw [h2] at hfind1
              simp at hfind1
            · rw [h3] at hfind1
              simp only [Option.some.injEq] at hfind1
              subst hfind1
              rw [hder] at h4
              simp only [Client.mk.injEq] at h4
              exact hXY h4.1
          rw [w1, f1, deref_store_ne _ _ _ _ hne]

theorem TwoInv.run (L W G X Y T : Nat) (hXY : X ≠ Y) (hW : 1 ≤ W) (hG : 2 ≤ mul32 G W) :
    ∀ (qs : List (Nat × Nat)) (cX cY : Nat) (s : ClientManager),
      TwoInv L W G X Y T cX cY s →
      (∀ q ∈ qs, q = (X, T) ∨ q = (Y, T)) →
      cX + qs.count (X, T) < mul32 L W → cY + qs.count (Y, T) < mul32 L W →
      ∃ vs s1, runChecks s qs = some (vs, s1) ∧
        ∀ k, k < qs.length → vs[k]? = some (globalVerdict G W (cX + cY + k)) := by
  intro qs
  induction qs with
  | nil =>
    intro cX cY s _ _ _ _
    exact ⟨[], s, rfl, fun k hk => by simp at hk⟩
  | cons q rest ih =>
    intro cX cY s hinv hqs hcX hcY
    have hrest : ∀ q1 ∈ rest, q1 = (X, T) ∨ q1 = (Y, T) :=
      fun q1 hq1 => hqs q1 (List.mem_cons_of_mem _ hq1)
    have hne : (X, T) ≠ (Y, T) := fun h => hXY (Prod.mk.inj h).1
    have finish : ∀ (v : RateLimitType) (s1 : ClientManager),
        s.CheckIPRate q.1 q.2 = some (v, s1) → v = globalVerdict G W (cX + cY) →
        (∃ vs s2, runChecks s1 rest = some (vs, s2) ∧
          ∀ k, k < rest.length → vs[k]? = some (globalVerdict G W (cX + cY + 1 + k))) →
        ∃ vs s2, runChecks s (q :: rest) = some (vs, s2) ∧
          ∀ k, k < (q :: rest).length → vs[k]? = some (globalVerdict G W (cX + cY + k)) := by
      intro v s1 hcall hv ⟨vs, s2, hrun, hall⟩
      refine ⟨v :: vs, s2, ?_, ?_⟩
      · unfold runChecks
        simp only [hcall, hrun]
      · intro k hk
        cases k with
        | zero => simp [hv]
        | succ k =>
          simp only [List.length_cons, Nat.add_lt_add_iff_right] at hk
          rw [List.getElem?_cons_succ, hall k hk]
          congr 2
          omega
    rcases hqs q (List.mem_cons_self _ _) with hq | hq
    · subst hq
      rw [List.count_cons_self] at hcX
      rw [List.count_cons_of_ne hne.symm] at hcY
      obtain ⟨s1, hcall, hinv1⟩ := TwoInv.step L W G X Y T cX cY s hinv hXY hW hG (by omega)
      obtain ⟨vs, s2, hrun, hall⟩ := ih (cX + 1) cY s1 hinv1 hrest (by omega) hcY
      refine finish _ s1 hcall rfl ⟨vs, s2, hrun, ?_⟩
      intro k hk
      have e : cX + 1 + cY + k = cX + cY + 1 + k := by omega
      rw [hall k hk, e]
    · subst hq
      rw [List.count_cons_of_ne hne] at hcX
      rw [List.count_cons_self] at hcY
      obtain ⟨s1, hcall, hinv1⟩ := TwoInv.step L W G Y X T cY cX s
        (TwoInv.symm L W G X Y T cX cY s hinv) (Ne.symm hXY) hW hG (by omega)
      obtain ⟨vs, s2, hrun, hall⟩ := ih cX (cY + 1) s1
        (TwoInv.symm L W G Y X T (cY + 1) cX s1 hinv1) hrest hcX (by omega)
      rw [Nat.add_comm cY cX] at hcall
      refine finish _ s1 hcall rfl ⟨vs, s2, hrun, ?_⟩
      intro k hk
      have e : cX + (cY + 1) + k = cX + cY + 1 + k := by omega
      rw [hall k hk, e]

theorem TwoInv.configured_holds (L W G X Y T : Nat) : TwoInv L W G X Y T 0 0 (configured L W G) := by
  refine ⟨rfl, rfl, rfl, rfl, rfl, fun _ => rfl, fun h => by omega, rfl, ?_, ?_⟩
  · exact Or.inl ⟨rfl, rfl⟩
  · exact Or.inl ⟨rfl, rfl⟩

/-- C5 (as stated, refuted): with `L = 2^31`, `W = 2`, `G = 2` the product `G * W = 4` fits in
32 bits and each of the addresses 1 and 2 is queried fewer than `L * W = 2^32` times, yet the
third call of the sequence returns `Individual`: the code compares the count with the 32-bit
product `L * W mod 2^32 = 0`. -/
theorem global_quota_overflow :
    2 ≤ 2 ∧ 1 ≤ 2 ∧ 2 * 2 < 2 ^ 32 ∧
    List.count (1, 0) [((1 : Nat), (0 : Nat)), (2, 0), (1, 0)] < 2147483648 * 2 ∧
    List.count (2, 0) [((1 : Nat), (0 : Nat)), (2, 0), (1, 0)] < 2147483648 * 2 ∧
    2 + 1 < 2 * 2 ∧
    (runChecks (configured 2147483648 2 2) [(1, 0), (2, 0), (1, 0)]).map Prod.fst =
      some [RateLimitType.None, RateLimitType.None, RateLimitType.Individual] ∧
    mul32 2147483648 2 = 0 := by
  decide

/-- C5 (amended): with `W ≥ 2`, `G ≥ 1`, `G * W < 2^32`, two distinct addresses `A`, `B` and a
sequence of calls `CheckIPRate( A, T )` / `CheckIPRate( B, T )` on a fresh enabled limiter in
which each address occurs fewer times than the individual quota the code computes, the
32-bit product `L * W mod 2^32` (which is `L * W` when that fits in 32 bits): the run is
defined, calls number `1 .. G * W - 1` return `None` and call number `G * W` returns
`Global`. -/
theorem global_quota (L W G A B T : Nat) (hW : 2 ≤ W) (hG : 1 ≤ G) (hGW : G * W < 2 ^ 32)
    (hAB : A ≠ B) (qs : List (Nat × Nat)) (hqs : ∀ q ∈ qs, q = (A, T) ∨ q = (B, T))
    (hA : qs.count (A, T) < (L * W) % 2 ^ 32) (hB : qs.count (B, T) < (L * W) % 2 ^ 32) :
    ∃ vs s, runChecks (configured L W G) qs = some (vs, s) ∧
      ∀ k, k < qs.length →
        (k + 1 < G * W → vs[k]? = some RateLimitType.None) ∧
        (k + 1 = G * W → vs[k]? = some RateLimitType.Global) := by
  have hU : (2 : Nat) ^ 32 = U32 := rfl
  rw [hU] at hGW hA hB
  have hmul : mul32 G W = G * W := Nat.mod_eq_of_lt hGW
  have hGW2 : 2 ≤ G * W := by nlinarith
  obtain ⟨vs, s, hrun, hall⟩ := TwoInv.run L W G A B T hAB (by omega) (by rw [hmul]; exact hGW2)
    qs 0 0 (configured L W G) (TwoInv.configured_holds L W G A B T) hqs
    (by rw [Nat.zero_add]; exact hA) (by rw [Nat.zero_add]; exact hB)
  refine ⟨vs, s, hrun, ?_⟩
  intro k hk
  have hv := hall k hk
  simp only [Nat.zero_add] at hv
  constructor
  · intro hlt
    rw [hv]
    unfold globalVerdict
    rw [hmul, Nat.mod_eq_of_lt (by omega), if_neg (by omega)]
  · intro heq
    rw [hv]
    unfold globalVerdict
    rw [hmul, Nat.mod_eq_of_lt (by omega), if_pos (by omega)]

theorem global_quota_witness :
    2 ≤ 2 ∧ 1 ≤ 1 ∧ 1 * 2 < 2 ^ 32 ∧ (1 : Nat) ≠ 2 ∧
    List.count (1, 0) [((1 : Nat), (0 : Nat)), (2, 0)] < (2 * 2) % 2 ^ 32 ∧
    List.count (2, 0) [((1 : Nat), (0 : Nat)), (2, 0)] < (2 * 2) % 2 ^ 32 ∧
    runChecks (configured 2 2 1) [(1, 0), (2, 0)] =
      some ([RateLimitType.None, RateLimitType.Global], twoClients.SetGlobalMaxQueriesPerSecond 1
        |>.SetMaxQueriesPerSecond 2) ∧
    ∃ vs s, runChecks (configured 2 2 1) [(1, 0), (2, 0)] = some (vs, s) ∧
      ∀ k, k < [((1 : Nat), (0 : Nat)), (2, 0)].length →
        (k + 1 < 1 * 2 → vs[k]? = some RateLimitType.None) ∧
        (k + 1 = 1 * 2 → vs[k]? = some RateLimitType.Global) :=
  ⟨by decide, by decide, by decide, by decide, by decide, by decide, by decide,
    global_quota 2 2 1 1 2 0 (by decide) (by decide) (by decide) (by decide) [(1, 0), (2, 0)]
      (by decide) (by decide) (by decide)⟩


/-! ## Registry and recency list hold the same records -/

theorem mapFind_of_mem (m : List (Nat × Nat)) (address client : Nat)
    (hk : (m.map Prod.fst).Nodup) (h : (address, client) ∈ m) :
    mapFind m address = some client := by
  induction m with
  | nil => simp at h
  | cons e rest ih =>
    rw [List.map_cons] at hk
    obtain ⟨hnot, hk2⟩ := List.nodup_cons.mp hk
    unfold mapFind
    rcases List.mem_cons.mp h with h1 | h1
    · rw [← h1]
      simp
    · have hne : e.1 ≠ address := by
        intro he
        exact hnot (he ▸ List.mem_map.mpr ⟨(address, client), h1, rfl⟩)
      rw [if_neg hne]
      exact ih hk2 h1

/-- Under the structural invariants an object is dropped from the recency list by a pruning
step exactly when it is dropped from the registry. -/
theorem Inv.removed_together (s s1 : ClientManager) (hinv : Inv s) (hinv1 : Inv s1) (p : Nat) :
    (p ∈ s.m_clients ∧ p ∉ s1.m_clients) ↔
      (p ∈ s.m_address_map.map Prod.snd ∧ p ∉ s1.m_address_map.map Prod.snd) := by
  rw [hinv.perm.mem_iff, hinv1.perm.mem_iff]

/-- C11: in every reachable state each entry of the registry `m_address_map` refers to an
object that occurs exactly once in the recency list `m_clients` and carries the entry's key
as its address; each entry of `m_clients` is the object stored in the registry under its own
address; no such object is marked for removal; and `SafePrune` and `LastDitchPrune` drop an
object from the list exactly when they drop it from the registry. -/
theorem registry_recency_consistent (s : ClientManager) (hr : Reachable s) :
    (∀ e ∈ s.m_address_map,
      s.m_clients.count e.2 = 1 ∧ (deref s.heap e.2).GetAddress = e.1 ∧
      (deref s.heap e.2).MarkedForRemoval = false) ∧
    (∀ p ∈ s.m_clients,
      mapFind s.m_address_map (deref s.heap p).GetAddress = some p ∧
      (deref s.heap p).MarkedForRemoval = false) ∧
    (s.m_address_map.map Prod.fst).Nodup ∧
    (∀ time s1, s.SafePrune time = some s1 → ∀ p,
      (p ∈ s.m_clients ∧ p ∉ s1.m_clients) ↔
        (p ∈ s.m_address_map.map Prod.snd ∧ p ∉ s1.m_address_map.map Prod.snd)) ∧
    (∀ s1, s.LastDitchPrune = some s1 → ∀ p,
      (p ∈ s.m_clients ∧ p ∉ s1.m_clients) ↔
        (p ∈ s.m_address_map.map Prod.snd ∧ p ∉ s1.m_address_map.map Prod.snd)) := by
  obtain ⟨hinv, _⟩ := Inv.reachable s hr
  have hnd := Inv.nodup_clients s hinv
  refine ⟨?_, ?_, hinv.keys, ?_, ?_⟩
  · intro e he
    refine ⟨List.count_eq_one_of_mem hnd ?_, hinv.addr e he, hinv.unmarked e he⟩
    rw [hinv.perm.mem_iff]
    exact List.mem_map.mpr ⟨e, he, rfl⟩
  · intro p hp
    rw [hinv.perm.mem_iff] at hp
    obtain ⟨e, he, heq⟩ := List.mem_map.mp hp
    rw [← heq]
    refine ⟨?_, hinv.unmarked e he⟩
    rw [hinv.addr e he]
    exact mapFind_of_mem _ _ _ hinv.keys he
  · intro time s1 h p
    exact Inv.removed_together s s1 hinv (Inv.SafePrune_preserved s s1 hinv time h) p
  · intro s1 h p
    exact Inv.removed_together s s1 hinv (Inv.LastDitchPrune_preserved s s1 hinv h).1 p

theorem registry_recency_consistent_witness :
    Reachable outOfOrder ∧
    ((∀ e ∈ outOfOrder.m_address_map,
      outOfOrder.m_clients.count e.2 = 1 ∧ (deref outOfOrder.heap e.2).GetAddress = e.1 ∧
      (deref outOfOrder.heap e.2).MarkedForRemoval = false) ∧
    (∀ p ∈ outOfOrder.m_clients,
      mapFind outOfOrder.m_address_map (deref outOfOrder.heap p).GetAddress = some p ∧
      (deref outOfOrder.heap p).MarkedForRemoval = false) ∧
    (outOfOrder.m_address_map.map Prod.fst).Nodup ∧
    (∀ time s1, outOfOrder.SafePrune time = some s1 → ∀ p,
      (p ∈ outOfOrder.m_clients ∧ p ∉ s1.m_clients) ↔
        (p ∈ outOfOrder.m_address_map.map Prod.snd ∧ p ∉ s1.m_address_map.map Prod.snd)) ∧
    (∀ s1, outOfOrder.LastDitchPrune = some s1 → ∀ p,
      (p ∈ outOfOrder.m_clients ∧ p ∉ s1.m_clients) ↔
        (p ∈ outOfOrder.m_address_map.map Prod.snd ∧ p ∉ s1.m_address_map.map Prod.snd))) :=
  ⟨⟨[Op.SetState true, Op.CheckIPRate 1 5, Op.CheckIPRate 2 3, Op.CheckIPRate 3 9,
      Op.CheckIPRate 1 4, Op.CheckIPRate 4 3], by decide⟩,
    registry_recency_consistent outOfOrder
      ⟨[Op.SetState true, Op.CheckIPRate 1 5, Op.CheckIPRate 2 3, Op.CheckIPRate 3 9,
        Op.CheckIPRate 1 4, Op.CheckIPRate 4 3], by decide⟩⟩


/-! ## Staleness test -/

theorem Client.TimedOut_iff (c : Client) (time : Nat) :
    c.TimedOut time = true ↔ 120 ≤ sub32 time c.m_last_reset := by
  unfold Client.TimedOut
  have h : mul32 ClientManager.MaxQueriesWindow 2 = 120 := by decide
  rw [h, decide_eq_true_iff]

/-- C12 (the code at the failing input): `Client::TimedOut` does not read the window of the
owning limiter. With the window set to 2, a record whose window started at 0 is not timed
out at time 4 although `4 - 0 ≥ 2 * 2`; with the window set to 100 it is timed out at time
120 although `120 - 0 < 2 * 100`. For every record and time the result is true exactly when
the 32-bit difference is at least `2 * 60 = 120`, twice the default window. -/
theorem Client.TimedOut_uses_default_window :
    (ClientManager.init.SetMaxQueriesWindow 2).GetMaxQueriesWindow = 2 ∧
    (4 % 2 ^ 32 + (2 ^ 32 - (Client.initAt 1 0).m_last_reset % 2 ^ 32)) % 2 ^ 32 ≥ 2 * 2 ∧
    (Client.initAt 1 0).TimedOut 4 = false ∧
    (ClientManager.init.SetMaxQueriesWindow 100).GetMaxQueriesWindow = 100 ∧
    (120 % 2 ^ 32 + (2 ^ 32 - (Client.initAt 1 0).m_last_reset % 2 ^ 32)) % 2 ^ 32 < 2 * 100 ∧
    (Client.initAt 1 0).TimedOut 120 = true ∧
    (∀ (c : Client) (time : Nat), c.TimedOut time = true ↔
      (time % 2 ^ 32 + (2 ^ 32 - c.m_last_reset % 2 ^ 32)) % 2 ^ 32 ≥ 2 * 60) := by
  refine ⟨rfl, by decide, by decide, rfl, by decide, by decide, ?_⟩
  intro c time
  exact Client.TimedOut_iff c time

/-! ## Out-of-order timestamps -/

theorem sub32_earlier (t S W : Nat) (ht : t < S)
    (hd : S - t ≤ U32 - W ∨ (W < 2 ^ 31 ∧ S - t ≤ 2 ^ 31)) : W ≤ sub32 t S := by
  unfold sub32 U32 at *
  omega

/-- C20: when the window of a record started at `S` and a call carries a time `t < S` with
`S - t ≤ 2^32 - W` (in particular with `W < 2^31` and `S - t ≤ 2^31`), the 32-bit difference
`t - S` is at least `W`: `Client::CheckIPRate( t )` accepts and restarts the window at `t`
with count 1 whatever the count was, the global window block of `CheckIPRate` does the same
with the global window, and a call for a known address whose record is in that situation is
not rejected individually. -/
theorem out_of_order_resets (W S t : Nat) (ht : t < S)
    (hd : S - t ≤ 2 ^ 32 - W ∨ (W < 2 ^ 31 ∧ S - t ≤ 2 ^ 31)) :
    (∀ (m : ClientManager) (c : Client), m.m_max_window = W → c.m_last_reset = S →
      c.CheckIPRate m t =
        (true, { c with m_last_ping := t, m_last_reset := t, m_count := 1 })) ∧
    (∀ s : ClientManager, s.m_max_window = W → s.m_global_last_reset = S →
      s.globalWindow t =
        (RateLimitType.None, { s with m_global_last_reset := t, m_global_count := 1 })) ∧
    (∀ (s : ClientManager) (A client : Nat), s.m_enabled = true → s.m_max_window = W →
      mapFind s.m_address_map A = some client → client < s.heap.length →
      (deref s.heap client).m_last_reset = S →
      ∃ v s1, s.CheckIPRate A t = some (v, s1) ∧ v ≠ RateLimitType.Individual ∧
        (deref s1.heap client).m_last_reset = t ∧ (deref s1.heap client).m_count = 1) := by
  have hge := sub32_earlier t S W ht hd
  refine ⟨?_, ?_, ?_⟩
  · intro m c hw hc
    exact Client.CheckIPRate_reset m c t (by rw [hw, hc]; exact hge)
  · intro s hw hg
    rw [ClientManager.globalWindow_eq, if_pos (by rw [hw, hg]; exact hge)]
  · intro s A client hen hw hfind hvalid hc
    have hacc := Client.CheckIPRate_reset s (deref s.heap client) t (by rw [hw, hc]; exact hge)
    have hcall := ClientManager.CheckIPRate_known s A t client hen hfind
    rw [hacc] at hcall
    simp only [if_true] at hcall
    obtain ⟨f1, _⟩ := ClientManager.checkKnown_frame s client t
    obtain ⟨w1, _⟩ := ClientManager.globalWindow_frame (s.checkKnown client t).2 t
    refine ⟨((s.checkKnown client t).2.globalWindow t).1,
      ((s.checkKnown client t).2.globalWindow t).2, by rw [hcall],
      ClientManager.globalWindow_ne_individual _ _, ?_, ?_⟩
    · rw [w1, f1, deref_store_self _ _ _ hvalid, hacc]
    · rw [w1, f1, deref_store_self _ _ _ hvalid, hacc]

theorem out_of_order_resets_witness :
    (4 : Nat) < 5 ∧
    ((5 : Nat) - 4 ≤ 2 ^ 32 - 2 ∨ ((2 : Nat) < 2 ^ 31 ∧ (5 : Nat) - 4 ≤ 2 ^ 31)) ∧
    mul32 1 2 ≤ (Client.mk 1 5 5 7 false).m_count ∧
    (Client.mk 1 5 5 7 false).CheckIPRate (configured 1 2 50) 4 =
      (true, { (Client.mk 1 5 5 7 false) with m_last_ping := 4, m_last_reset := 4, m_count := 1 }) :=
  ⟨by decide, by decide, by decide,
    (out_of_order_resets 2 5 4 (by decide) (by decide)).1
      (configured 1 2 50) (Client.mk 1 5 5 7 false) rfl rfl⟩


/-! ## What `SafePrune` removes -/

theorem TimedOut_store_mark (heap : List Client) (p q time : Nat) :
    (deref (store heap p (deref heap p).MarkForRemoval) q).TimedOut time =
      (deref heap q).TimedOut time := by
  by_cases hq : q = p
  · subst hq
    by_cases hv : q < heap.length
    · rw [deref_store_self _ _ _ hv]
      rfl
    · have : store heap q (deref heap q).MarkForRemoval = heap := by
        unfold store
        exact List.set_eq_of_length_le (by omega)
      rw [this]
  · rw [deref_store_ne _ _ _ _ hq]

/-- Every entry that the registry scan of `SafePrune` erases refers to a timed-out record. -/
theorem safePruneScan_removed (time : Nat) :
    ∀ (m : List (Nat × Nat)) (skip : Bool) (heap : List Client) (size : Nat)
      (heap1 : List Client) (m1 : List (Nat × Nat)),
      safePruneScan time skip heap size m = some (heap1, m1) →
      ∀ q ∈ m.map Prod.snd, q ∉ m1.map Prod.snd → (deref heap q).TimedOut time = true := by
  intro m
  induction m with
  | nil =>
    intro skip heap size heap1 m1 _ q hq
    simp at hq
  | cons e rest ih =>
    intro skip heap size heap1 m1 h q hq hq2
    rw [List.map_cons, List.mem_cons] at hq
    have keep : (safePruneScan time false heap size rest).map (fun r => (r.1, e :: r.2))
        = some (heap1, m1) → (deref heap q).TimedOut time = true := by
      intro h2
      cases hr : safePruneScan time false heap size rest with
      | none => simp [hr] at h2
      | some r =>
        simp only [hr, Option.map_some', Option.some.injEq, Prod.mk.injEq] at h2
        obtain ⟨h3, h4⟩ := h2
        rw [← h4, List.map_cons, List.mem_cons, not_or] at hq2
        rcases hq with h5 | h5
        · exact absurd h5 hq2.1
        · exact ih false heap size r.1 r.2 hr q h5 hq2.2
    cases skip with
    | true =>
      simp only [safePruneScan] at h
      exact keep h
    | false =>
      simp only [safePruneScan] at h
      by_cases hto : (deref heap e.2).TimedOut time = true
      · simp only [hto, if_true] at h
        by_cases hbreak : size - 1 ≤ ClientManager.SafePruneMaxClients
        · simp only [hbreak, if_true, Option.some.injEq, Prod.mk.injEq] at h
          rcases hq with h5 | h5
          · rw [h5]
            exact hto
          · rw [← h.2] at hq2
            exact absurd h5 hq2
        · simp only [hbreak, if_false] at h
          rcases hq with h5 | h5
          · rw [h5]
            exact hto
          · have := ih true _ (size - 1) heap1 m1 h q h5 hq2
            rwa [TimedOut_store_mark] at this
      · simp only [hto, if_false] at h
        exact keep h

theorem ClientManager.SafePrune_some (s s1 : ClientManager) (time : Nat)
    (h : s.SafePrune time = some s1) :
    ∃ r, safePruneScan time false s.heap s.m_address_map.length s.m_address_map = some r ∧
      s1.heap = r.1 ∧ s1.m_address_map = r.2 ∧
      s1.m_clients = s.m_clients.filter (fun p => !(deref r.1 p).MarkedForRemoval) := by
  unfold ClientManager.SafePrune at h
  cases hscan : safePruneScan time false s.heap s.m_address_map.length s.m_address_map with
  | none => simp [hscan] at h
  | some r =>
    simp only [hscan, Option.some.injEq] at h
    subst h
    exact ⟨r, rfl, rfl, rfl, rfl⟩

theorem mem_of_snd_mem (m1 m : List (Nat × Nat)) (e : Nat × Nat) (hsub : m1.Sublist m)
    (hnd : (m.map Prod.snd).Nodup) (he : e ∈ m) (h : e.2 ∈ m1.map Prod.snd) : e ∈ m1 := by
  obtain ⟨e1, he1, heq⟩ := List.mem_map.mp h
  have : e1 = e := List.inj_on_of_nodup_map hnd (hsub.subset he1) he heq
  rw [← this]
  exact he1

/-- C17: when `SafePrune( time )` runs on a state that satisfies the structural invariants,
every entry it removes from the registry and every object it removes from the recency list
is timed out at `time`; every registry entry whose record is not timed out is still in the
registry, its object is still in the recency list with the same fields, and the recency list
afterwards is the old list with entries left out, in the old order. -/
theorem SafePrune_only_timed_out (s s1 : ClientManager) (time : Nat) (hinv : Inv s)
    (h : s.SafePrune time = some s1) :
    (∀ e ∈ s.m_address_map, e ∉ s1.m_address_map → (deref s.heap e.2).TimedOut time = true) ∧
    (∀ p ∈ s.m_clients, p ∉ s1.m_clients → (deref s.heap p).TimedOut time = true) ∧
    (∀ e ∈ s.m_address_map, (deref s.heap e.2).TimedOut time = false →
      e ∈ s1.m_address_map ∧ e.2 ∈ s1.m_clients ∧ deref s1.heap e.2 = deref s.heap e.2) ∧
    s1.m_clients.Sublist s.m_clients ∧ s1.m_address_map.Sublist s.m_address_map := by
  have hinv1 := Inv.SafePrune_preserved s s1 hinv time h
  have hsub := ClientManager.SafePrune_sublist s s1 hinv time h
  obtain ⟨r, hscan, e1, e2, e3⟩ := ClientManager.SafePrune_some s s1 time h
  obtain ⟨_, _, i3, _⟩ := safePruneScan_spec time s.m_address_map false s.heap
    s.m_address_map.length r.1 r.2 hinv.valid hinv.ptrs hscan
  have hrem := safePruneScan_removed time s.m_address_map false s.heap
    s.m_address_map.length r.1 r.2 hscan
  rw [← e1, ← e2] at i3
  rw [← e2] at hrem
  have hmap : ∀ e ∈ s.m_address_map, e ∉ s1.m_address_map →
      (deref s.heap e.2).TimedOut time = true := by
    intro e he hne
    refine hrem e.2 (List.mem_map.mpr ⟨e, he, rfl⟩) ?_
    intro h2
    exact hne (mem_of_snd_mem _ _ e hsub hinv.ptrs he h2)
  refine ⟨hmap, ?_, ?_, ?_, hsub⟩
  · intro p hp hp1
    rw [hinv.perm.mem_iff] at hp
    rw [hinv1.perm.mem_iff] at hp1
    exact hrem p hp hp1
  · intro e he hfresh
    have hin : e ∈ s1.m_address_map := by
      by_contra hne
      rw [hmap e he hne] at hfresh
      simp at hfresh
    refine ⟨hin, ?_, ?_⟩
    · rw [hinv1.perm.mem_iff]
      exact List.mem_map.mpr ⟨e, hin, rfl⟩
    · rcases i3 e.2 with h3 | ⟨_, _, h5⟩
      · exact h3
      · exact absurd (List.mem_map.mpr ⟨e, hin, rfl⟩) h5
  · rw [e3]
    exact List.filter_sublist _

theorem SafePrune_only_timed_out_witness :
    Reachable outOfOrder ∧ outOfOrder.SafePrune 200 = some outOfOrderPruned ∧
    ((∀ e ∈ outOfOrder.m_address_map, e ∉ outOfOrderPruned.m_address_map →
      (deref outOfOrder.heap e.2).TimedOut 200 = true) ∧
    (∀ p ∈ outOfOrder.m_clients, p ∉ outOfOrderPruned.m_clients →
      (deref outOfOrder.heap p).TimedOut 200 = true) ∧
    (∀ e ∈ outOfOrder.m_address_map, (deref outOfOrder.heap e.2).TimedOut 200 = false →
      e ∈ outOfOrderPruned.m_address_map ∧ e.2 ∈ outOfOrderPruned.m_clients ∧
      deref outOfOrderPruned.heap e.2 = deref outOfOrder.heap e.2) ∧
    outOfOrderPruned.m_clients.Sublist outOfOrder.m_clients ∧
    outOfOrderPruned.m_address_map.Sublist outOfOrder.m_address_map) :=
  ⟨⟨[Op.SetState true, Op.CheckIPRate 1 5, Op.CheckIPRate 2 3, Op.CheckIPRate 3 9,
      Op.CheckIPRate 1 4, Op.CheckIPRate 4 3], by decide⟩, by decide,
    SafePrune_only_timed_out outOfOrder outOfOrderPruned 200
      (Inv.reachable outOfOrder
        ⟨[Op.SetState true, Op.CheckIPRate 1 5, Op.CheckIPRate 2 3, Op.CheckIPRate 3 9,
          Op.CheckIPRate 1 4, Op.CheckIPRate 4 3], by decide⟩).1
      (by decide)⟩


/-! ## What `LastDitchPrune` removes -/

theorem Inv.dropFront_map (s : ClientManager) (hinv : Inv s) (k : Nat) :
    (s.m_clients.take k).foldl (fun m p => mapErase m (deref s.heap p).GetAddress)
      s.m_address_map =
    s.m_address_map.filter (fun e => decide (e.2 ∉ s.m_clients.take k)) := by
  rw [foldl_mapErase]
  apply List.filter_congr
  intro e he
  simp only [decide_eq_decide]
  constructor
  · intro h1 h2
    exact h1 (List.mem_map.mpr ⟨e.2, h2, hinv.addr e he⟩)
  · intro h1 h2
    obtain ⟨q, hq, hqa⟩ := List.mem_map.mp h2
    have hq2 : q ∈ s.m_address_map.map Prod.snd :=
      hinv.perm.mem_iff.mp (List.mem_of_mem_take hq)
    obtain ⟨e1, he1, he1q⟩ := List.mem_map.mp hq2
    have hk : e1.1 = e.1 := by
      rw [← hinv.addr e1 he1, he1q]
      exact hqa
    have hee : e1 = e := List.inj_on_of_nodup_map hinv.keys he1 he hk
    rw [← hee, he1q] at h1
    exact h1 hq

theorem ClientManager.LastDitchPrune_eq (s : ClientManager)
    (hn : LastDitchPruneMaxClients ≤ s.m_clients.length) :
    s.LastDitchPrune = some { s with
      m_address_map :=
        (s.m_clients.take (s.m_clients.length - LastDitchPruneMaxClients)).foldl
          (fun m p => mapErase m (deref s.heap p).GetAddress) s.m_address_map
      m_clients := s.m_clients.drop (s.m_clients.length - LastDitchPruneMaxClients) } := by
  unfold ClientManager.LastDitchPrune
  rw [if_neg (by omega)]

/-- C18: on a state that satisfies the structural invariants and whose recency list has
`n ≥ LastDitchPruneMaxClients = 7168` entries, `LastDitchPrune` is defined; it leaves the last
7168 entries of the list in their order, removes from the registry exactly the entries of the
first `n - 7168` objects (the entries whose key is the address of one of them), whatever
their timeout status, leaves both structures with 7168 entries and the objects untouched,
and every evicted object has a last ping at most that of every surviving one. -/
theorem LastDitchPrune_evicts_oldest (s : ClientManager) (hinv : Inv s)
    (hn : ClientManager.LastDitchPruneMaxClients ≤ s.m_clients.length) :
    ClientManager.LastDitchPruneMaxClients = 7168 ∧
    ∃ s1, s.LastDitchPrune = some s1 ∧
      s1.m_clients =
        s.m_clients.drop (s.m_clients.length - ClientManager.LastDitchPruneMaxClients) ∧
      s1.heap = s.heap ∧
      s1.m_address_map.Sublist s.m_address_map ∧
      (∀ e ∈ s.m_address_map,
        (e ∉ s1.m_address_map ↔
          e.2 ∈ s.m_clients.take
            (s.m_clients.length - ClientManager.LastDitchPruneMaxClients)) ∧
        (e ∉ s1.m_address_map ↔
          e.1 ∈ (s.m_clients.take
            (s.m_clients.length - ClientManager.LastDitchPruneMaxClients)).map
              (fun p => (deref s.heap p).GetAddress))) ∧
      s1.m_clients.length = ClientManager.LastDitchPruneMaxClients ∧
      s1.m_address_map.length = ClientManager.LastDitchPruneMaxClients ∧
      (∀ p ∈ s.m_clients.take (s.m_clients.length - ClientManager.LastDitchPruneMaxClients),
        ∀ q ∈ s1.m_clients,
          (deref s.heap p).GetLastPing ≤ (deref s.heap q).GetLastPing) := by
  refine ⟨by decide, ?_⟩
  have heq := ClientManager.LastDitchPrune_eq s hn
  obtain ⟨hinv1, hlen⟩ := Inv.LastDitchPrune_preserved s _ hinv heq
  generalize ClientManager.LastDitchPruneMaxClients = K at *
  refine ⟨_, heq, ?_, ?_, ?_, ?_, hlen, ?_, ?_⟩
  · rfl
  · rfl
  · show List.Sublist (List.foldl _ _ _) _
    rw [foldl_mapErase]
    exact List.filter_sublist _
  · intro e he
    constructor
    · show e ∉ List.foldl _ _ _ ↔ _
      rw [Inv.dropFront_map s hinv, List.mem_filter]
      simp [he]
    · show e ∉ List.foldl _ _ _ ↔ _
      rw [foldl_mapErase, List.mem_filter]
      simp [he]
  · have hl := hinv1.perm.length_eq
    rw [List.length_map] at hl
    rw [← hl]
    exact hlen
  · intro p hp q hq
    have hsplit : s.m_clients.take (s.m_clients.length - K) ++
        s.m_clients.drop (s.m_clients.length - K) = s.m_clients := List.take_append_drop _ _
    have hs := hinv.sorted
    rw [← hsplit] at hs
    exact (List.pairwise_append.mp hs).2.2 p hp q hq


/-! ## Runs that fill the registry -/

theorem optimalPlacement_range (heap : List Client) (t : Nat) :
    ∀ n, (∀ j, j < n → (deref heap j).GetLastPing ≤ t) →
      optimalPlacement heap t (List.range n).reverse = n := by
  intro n
  cases n with
  | zero => intro _; rfl
  | succ n =>
    intro h
    rw [List.range_succ, List.reverse_append, List.reverse_singleton, List.singleton_append]
    unfold optimalPlacement
    rw [if_pos (h n (by omega))]
    simp

theorem listEmplace_range (n : Nat) : listEmplace (List.range n) n n = List.range (n + 1) := by
  unfold listEmplace
  rw [List.take_of_length_le (by simp), List.drop_of_length_le (by simp), List.range_succ]

theorem ClientManager.addClient_range (s : ClientManager) (a t : Nat)
    (hl : s.m_clients = List.range s.heap.length)
    (hp : ∀ j, j < s.heap.length → (deref s.heap j).GetLastPing ≤ t) :
    (s.addClient a t).m_clients = List.range (s.heap.length + 1) := by
  have hp1 : ∀ j, j < s.heap.length →
      (deref (s.heap ++ [Client.initAt a t]) j).GetLastPing ≤ t := by
    intro j hj
    rw [deref_append_lt _ _ _ hj]
    exact hp j hj
  show listEmplace s.m_clients
    (optimalPlacement (s.heap ++ [Client.initAt a t]) t s.m_clients.reverse) s.heap.length = _
  rw [hl, optimalPlacement_range _ _ _ hp1, listEmplace_range]

theorem filled_one (s : ClientManager) (a t : Nat)
    (hl : s.m_clients = List.range s.heap.length)
    (hp : ∀ j, j < s.heap.length → (deref s.heap j).GetLastPing ≤ t) :
    ((s.addClient a t).globalWindow t).2 = filled s [(a, t)] := by
  have hc := ClientManager.addClient_range s a t hl hp
  obtain ⟨f1, f2, f3, f4, f5, f6, f7, f8⟩ := ClientManager.addClient_frame s a t
  rw [ClientManager.globalWindow_eq, f4, f5, f6, f8]
  have hs : s.addClient a t = { s with
      heap := s.heap ++ [Client.initAt a t]
      m_clients := List.range (s.heap.length + 1)
      m_address_map := (a, s.heap.length) :: s.m_address_map } := by
    rw [← hc]
    rfl
  rw [hs]
  unfold filled
  by_cases h1 : sub32 t s.m_global_last_reset ≥ s.m_max_window
  · simp [h1, fillMap, globalFold]
  · by_cases h2 : inc32 s.m_global_count ≥ mul32 s.m_global_max_sec s.m_max_window
    · simp [h1, h2, fillMap, globalFold]
    · simp [h1, h2, fillMap, globalFold]

theorem filled_nil (s : ClientManager) (hl : s.m_clients = List.range s.heap.length) :
    filled s [] = s := by
  unfold filled
  simp only [List.map_nil, List.append_nil, List.length_nil, Nat.add_zero, fillMap, globalFold,
    ← hl]

theorem filled_cons (s : ClientManager) (q : Nat × Nat) (rest : List (Nat × Nat)) :
    filled (filled s [q]) rest = filled s (q :: rest) := by
  unfold filled
  simp [fillMap, globalFold, Nat.add_assoc, Nat.add_comm 1]


/-- Calls for new, pairwise distinct addresses at non-decreasing times, while the registry
has room, lead to the state `filled`. -/
theorem runChecks_filled (qs : List (Nat × Nat)) :
    ∀ s : ClientManager, s.m_enabled = true → s.m_clients = List.range s.heap.length →
      (∀ j, j < s.heap.length → ∀ q ∈ qs, (deref s.heap j).GetLastPing ≤ q.2) →
      qs.Pairwise (fun a b => a.2 ≤ b.2) → (qs.map Prod.fst).Nodup →
      (∀ q ∈ qs, mapFind s.m_address_map q.1 = none) →
      s.m_address_map.length + qs.length ≤ ClientManager.MaxClients →
      ∃ vs, runChecks s qs = some (vs, filled s qs) := by
  induction qs with
  | nil =>
    intro s _ hl _ _ _ _ _
    exact ⟨[], by rw [filled_nil s hl]; rfl⟩
  | cons q rest ih =>
    intro s hen hl hp hsorted hnd hnew hlen
    rw [List.length_cons] at hlen
    obtain ⟨hq, hsorted2⟩ := List.pairwise_cons.mp hsorted
    rw [List.map_cons] at hnd
    obtain ⟨hnot, hnd2⟩ := List.nodup_cons.mp hnd
    have hcall := ClientManager.CheckIPRate_new s q.1 q.2 hen
      (hnew q (List.mem_cons_self _ _)) (by omega)
    have hs1 := filled_one s q.1 q.2 hl (fun j hj => hp j hj q (List.mem_cons_self _ _))
    have hheap : (filled s [q]).heap = s.heap ++ [Client.initAt q.1 q.2] := rfl
    have hmap : (filled s [q]).m_address_map = (q.1, s.heap.length) :: s.m_address_map := rfl
    obtain ⟨vs, hrun⟩ := ih (filled s [q]) hen
      (by rw [hheap]; simp [filled])
      (by
        intro j hj q1 hq1
        rw [hheap] at hj ⊢
        simp only [List.length_append, List.length_singleton] at hj
        by_cases hj2 : j < s.heap.length
        · rw [deref_append_lt _ _ _ hj2]
          exact hp j hj2 q1 (List.mem_cons_of_mem _ hq1)
        · have : j = s.heap.length := by omega
          rw [this, deref_append_length]
          exact hq q1 hq1)
      hsorted2 hnd2
      (by
        intro q1 hq1
        rw [hmap]
        unfold mapFind
        have hne : q.1 ≠ q1.1 := fun h => hnot (h ▸ List.mem_map.mpr ⟨q1, hq1, rfl⟩)
        rw [if_neg hne]
        exact hnew q1 (List.mem_cons_of_mem _ hq1))
      (by rw [hmap, List.length_cons]; omega)
    refine ⟨((s.addClient q.1 q.2).globalWindow q.2).1 :: vs, ?_⟩
    unfold runChecks
    simp only [hcall, hs1, hrun, filled_cons]

theorem fillMap_append_base (qs : List (Nat × Nat)) :
    ∀ (m : List (Nat × Nat)) (i : Nat), fillMap m i qs = fillMap [] i qs ++ m := by
  induction qs with
  | nil => intro m i; rfl
  | cons q rest ih =>
    intro m i
    unfold fillMap
    rw [ih ((q.1, i) :: m), ih [(q.1, i)]]
    simp

theorem fillMap_calls_append (a : List (Nat × Nat)) :
    ∀ (b m : List (Nat × Nat)) (i : Nat),
      fillMap m i (a ++ b) = fillMap (fillMap m i a) (i + a.length) b := by
  induction a with
  | nil => intro b m i; rfl
  | cons q rest ih =>
    intro b m i
    have h := ih b ((q.1, i) :: m) (i + 1)
    have e : i + 1 + rest.length = i + (rest.length + 1) := by omega
    rw [e] at h
    exact h

theorem fillMap_length (qs : List (Nat × Nat)) :
    ∀ (m : List (Nat × Nat)) (i : Nat), (fillMap m i qs).length = m.length + qs.length := by
  induction qs with
  | nil => intro m i; rfl
  | cons q rest ih =>
    intro m i
    unfold fillMap
    rw [ih, List.length_cons, List.length_cons]
    omega

theorem mem_fillMap (qs : List (Nat × Nat)) :
    ∀ (i : Nat) (e : Nat × Nat), e ∈ fillMap [] i qs →
      ∃ k q, qs[k]? = some q ∧ e = (q.1, i + k) := by
  induction qs with
  | nil => intro i e he; simp [fillMap] at he
  | cons q rest ih =>
    intro i e he
    unfold fillMap at he
    rw [fillMap_append_base, List.mem_append] at he
    rcases he with h | h
    · obtain ⟨k, q1, hk, heq⟩ := ih (i + 1) e h
      refine ⟨k + 1, q1, by simpa using hk, ?_⟩
      rw [heq]
      congr 1
      omega
    · simp only [List.mem_singleton] at h
      exact ⟨0, q, by simp, by rw [h]; rfl⟩

theorem deref_filled (H : List Client) (qs : List (Nat × Nat)) (k : Nat) (q : Nat × Nat)
    (hk : qs[k]? = some q) :
    deref (H ++ qs.map (fun q => Client.initAt q.1 q.2)) (H.length + k) =
      Client.initAt q.1 q.2 := by
  unfold deref
  rw [List.getD_eq_getElem?_getD, List.getElem?_append_right (by omega)]
  simp [hk]

/-- The registry scan of `SafePrune` passes over entries that are not timed out. -/
theorem safePruneScan_fresh_front (time : Nat) (heap : List Client) (size : Nat)
    (post : List (Nat × Nat)) :
    ∀ pre : List (Nat × Nat), (∀ x ∈ pre, (deref heap x.2).TimedOut time = false) →
      safePruneScan time false heap size (pre ++ post) =
        (safePruneScan time false heap size post).map (fun r => (r.1, pre ++ r.2)) := by
  intro pre
  induction pre with
  | nil =>
    intro _
    rw [List.nil_append]
    cases safePruneScan time false heap size post <;> simp
  | cons e rest ih =>
    intro h
    rw [List.cons_append, safePruneScan, if_neg (by simp [h e (List.mem_cons_self _ _)]),
      ih (fun x hx => h x (List.mem_cons_of_mem _ hx))]
    cases safePruneScan time false heap size post <;> simp

theorem safePruneScan_fresh (time : Nat) (heap : List Client) (size : Nat)
    (m : List (Nat × Nat)) (h : ∀ x ∈ m, (deref heap x.2).TimedOut time = false) :
    safePruneScan time false heap size m = some (heap, m) := by
  have := safePruneScan_fresh_front time heap size [] m h
  rw [List.append_nil] at this
  rw [this]
  simp [safePruneScan]

/-- The scan is undefined when the last entry of the registry is the only one that is timed
out and erasing it does not reach the target size. -/
theorem safePruneScan_stale_last (time : Nat) (heap : List Client) (size : Nat)
    (pre : List (Nat × Nat)) (e : Nat × Nat)
    (hpre : ∀ x ∈ pre, (deref heap x.2).TimedOut time = false)
    (he : (deref heap e.2).TimedOut time = true)
    (hsize : ¬ size - 1 ≤ ClientManager.SafePruneMaxClients) :
    safePruneScan time false heap size (pre ++ [e]) = none := by
  rw [safePruneScan_fresh_front time heap size [e] pre hpre]
  simp [safePruneScan, he, hsize]


theorem runChecks_snoc_none (q : Nat × Nat) (qs : List (Nat × Nat)) :
    ∀ (s s1 : ClientManager) (vs : List RateLimitType), runChecks s qs = some (vs, s1) →
      s1.CheckIPRate q.1 q.2 = none → runChecks s (qs ++ [q]) = none := by
  induction qs with
  | nil =>
    intro s s1 vs h hq
    simp only [runChecks, Option.some.injEq, Prod.mk.injEq] at h
    rw [List.nil_append, runChecks, h.2, hq]
  | cons q1 rest ih =>
    intro s s1 vs h hq
    rw [List.cons_append]
    unfold runChecks at h ⊢
    cases hc : s.CheckIPRate q1.1 q1.2 with
    | none => rfl
    | some r =>
      simp only [hc] at h ⊢
      cases hr : runChecks r.2 rest with
      | none => simp [hr] at h
      | some rs =>
        simp only [hr, Option.some.injEq, Prod.mk.injEq] at h
        rw [ih r.2 s1 rs.1 (by rw [hr, ← h.2]) hq]

theorem runChecks_snoc_some (q : Nat × Nat) (qs : List (Nat × Nat)) :
    ∀ (s s1 s2 : ClientManager) (vs : List RateLimitType) (v : RateLimitType),
      runChecks s qs = some (vs, s1) → s1.CheckIPRate q.1 q.2 = some (v, s2) →
      runChecks s (qs ++ [q]) = some (vs ++ [v], s2) := by
  induction qs with
  | nil =>
    intro s s1 s2 vs v h hq
    simp only [runChecks, Option.some.injEq, Prod.mk.injEq] at h
    rw [List.nil_append, runChecks, h.2, hq, ← h.1]
    rfl
  | cons q1 rest ih =>
    intro s s1 s2 vs v h hq
    rw [List.cons_append]
    unfold runChecks at h ⊢
    cases hc : s.CheckIPRate q1.1 q1.2 with
    | none => simp [hc] at h
    | some r =>
      simp only [hc] at h ⊢
      cases hr : runChecks r.2 rest with
      | none => simp [hr] at h
      | some rs =>
        simp only [hr, Option.some.injEq, Prod.mk.injEq] at h
        rw [ih r.2 s1 s2 rs.1 v (by rw [hr, ← h.2]) hq, ← h.1]
        rfl

theorem ClientManager.CheckIPRate_safePrune_none (s : ClientManager) (address time : Nat)
    (hen : s.m_enabled = true) (hfind : mapFind s.m_address_map address = none)
    (hfull : s.m_address_map.length ≥ ClientManager.MaxClients)
    (hprune : s.SafePrune time = none) : s.CheckIPRate address time = none := by
  unfold ClientManager.CheckIPRate ClientManager.checkNew
  simp only [hen, hfind, Bool.not_true, Bool.false_eq_true, if_false, if_pos hfull, hprune]

theorem Client.TimedOut_initAt (a r t : Nat) :
    (Client.initAt a r).TimedOut t = decide (120 ≤ sub32 t r) := by
  unfold Client.TimedOut Client.initAt
  have h : mul32 ClientManager.MaxQueriesWindow 2 = 120 := by decide
  rw [h]

theorem staleFirstCalls_sorted (n : Nat) :
    (staleFirstCalls n).Pairwise (fun a b => a.2 ≤ b.2) := by
  unfold staleFirstCalls
  rw [List.pairwise_cons, List.pairwise_map]
  exact ⟨fun b _ => Nat.zero_le _, List.pairwise_of_forall (fun _ _ => le_refl _)⟩

theorem staleFirstCalls_nodup (n : Nat) : ((staleFirstCalls n).map Prod.fst).Nodup := by
  unfold staleFirstCalls
  rw [List.map_cons, List.map_map, List.nodup_cons]
  constructor
  · intro h
    obtain ⟨a, _, ha⟩ := List.mem_map.mp h
    simp at ha
  · exact (List.nodup_range n).map (fun a b h => by simpa using h)

/-- On a full registry whose entries all come from `staleFirstCalls`, the call for one more
address at time 200 has no defined behaviour: `SafePrune` erases the last entry of the
registry, the only timed-out one, and then increments the end iterator. -/
theorem staleFirst_undefined (s0 : ClientManager) (n : Nat) (hen : s0.m_enabled = true)
    (hheap : s0.heap = []) (hcl : s0.m_clients = []) (hmap : s0.m_address_map = [])
    (hn : n + 1 = ClientManager.MaxClients) :
    ∃ vs, runChecks s0 (staleFirstCalls n) = some (vs, filled s0 (staleFirstCalls n)) ∧
      (filled s0 (staleFirstCalls n)).m_address_map.length = ClientManager.MaxClients ∧
      (filled s0 (staleFirstCalls n)).SafePrune 200 = none ∧
      (filled s0 (staleFirstCalls n)).CheckIPRate (n + 1) 200 = none ∧
      runChecks s0 (staleFirstCalls n ++ [(n + 1, 200)]) = none := by
  have hlenc : (staleFirstCalls n).length = n + 1 := by simp [staleFirstCalls]
  obtain ⟨vs, hrun⟩ := runChecks_filled (staleFirstCalls n) s0 hen (by rw [hcl, hheap]; rfl)
    (by intro j hj; rw [hheap] at hj; simp at hj)
    (staleFirstCalls_sorted n) (staleFirstCalls_nodup n)
    (by intro q _; rw [hmap]; rfl) (by rw [hmap, hlenc, ← hn]; simp)
  have hm : (filled s0 (staleFirstCalls n)).m_address_map =
      fillMap [] 1 ((List.range n).map (fun a => (a + 1, 200))) ++ [(0, 0)] := by
    show fillMap s0.m_address_map s0.heap.length (staleFirstCalls n) = _
    rw [hmap, hheap]
    unfold staleFirstCalls
    rw [fillMap, fillMap_append_base]
    rfl
  have hh : (filled s0 (staleFirstCalls n)).heap =
      [] ++ (staleFirstCalls n).map (fun q => Client.initAt q.1 q.2) := by
    show s0.heap ++ _ = _
    rw [hheap]
  have hlen : (filled s0 (staleFirstCalls n)).m_address_map.length
      = ClientManager.MaxClients := by
    rw [hm, List.length_append, fillMap_length]
    simp [hn]
  have hpre : ∀ x ∈ fillMap [] 1 ((List.range n).map (fun a => (a + 1, 200))),
      (deref (filled s0 (staleFirstCalls n)).heap x.2).TimedOut 200 = false ∧ x.1 ≠ n + 1 := by
    intro x hx
    obtain ⟨k, q, hk, hxe⟩ := mem_fillMap _ 1 x hx
    have hq : q.2 = 200 ∧ q.1 ≠ n + 1 := by
      rw [List.getElem?_map] at hk
      cases hr : (List.range n)[k]? with
      | none => simp [hr] at hk
      | some a =>
        have ha : a < n := List.mem_range.mp (List.getElem?_mem hr)
        simp only [hr, Option.map_some', Option.some.injEq] at hk
        rw [← hk]
        exact ⟨rfl, by simp; omega⟩
    have hk2 : (staleFirstCalls n)[k + 1]? = some q := by
      unfold staleFirstCalls
      simpa using hk
    have hd := deref_filled [] (staleFirstCalls n) (k + 1) q hk2
    rw [hxe, hh]
    have e1 : (1 : Nat) + k = ([] : List Client).length + (k + 1) := by simp; omega
    refine ⟨?_, hq.2⟩
    show (deref _ (1 + k)).TimedOut 200 = false
    rw [e1, hd, Client.TimedOut_initAt, hq.1, sub32_self]
    decide
  have hlast : (deref (filled s0 (staleFirstCalls n)).heap 0).TimedOut 200 = true := by
    have hd := deref_filled [] (staleFirstCalls n) 0 (0, 0) (by simp [staleFirstCalls])
    rw [hh]
    simp only [List.length_nil, Nat.add_zero] at hd
    rw [hd, Client.TimedOut_initAt]
    decide
  have hscan : (filled s0 (staleFirstCalls n)).SafePrune 200 = none := by
    unfold ClientManager.SafePrune
    rw [hlen]
    have := safePruneScan_stale_last 200 (filled s0 (staleFirstCalls n)).heap
      ClientManager.MaxClients _ (0, 0) (fun x hx => (hpre x hx).1) hlast (by decide)
    rw [← hm] at this
    rw [this]
  have hfind : mapFind (filled s0 (staleFirstCalls n)).m_address_map (n + 1) = none := by
    rw [mapFind_none_iff, hm, List.map_append, List.mem_append]
    rintro (h | h)
    · obtain ⟨x, hx, hx1⟩ := List.mem_map.mp h
      exact (hpre x hx).2 hx1
    · simp at h
  have hcall := ClientManager.CheckIPRate_safePrune_none (filled s0 (staleFirstCalls n))
    (n + 1) 200 hen hfind (by rw [hlen]) hscan
  exact ⟨vs, hrun, hlen, hscan, hcall, runChecks_snoc_none (n + 1, 200) _ s0 _ vs hrun hcall⟩


/-! ## Calls that reach `LastDitchPrune` -/

/-- C13 (the code at the failing input): on a fresh enabled limiter with the default
configuration, after `CheckIPRate( 0, 0 )` and `CheckIPRate( a, 200 )` for `a = 1 .. 8191` the
registry is full and its last entry in iteration order is the only timed-out one; the call
`CheckIPRate( 8192, 200 )` runs `SafePrune`, which erases that entry and then increments the
end iterator: no verdict is defined. -/
theorem CheckIPRate_undefined_in_SafePrune :
    2 ≤ (ClientManager.init.SetState true).GetMaxQueriesWindow ∧
    1 ≤ (ClientManager.init.SetState true).GetMaxQueriesPerSecond ∧
    ∃ vs, runChecks (ClientManager.init.SetState true) (staleFirstCalls 8191) =
        some (vs, filled (ClientManager.init.SetState true) (staleFirstCalls 8191)) ∧
      (filled (ClientManager.init.SetState true) (staleFirstCalls 8191)).m_address_map.length
        = ClientManager.MaxClients ∧
      (filled (ClientManager.init.SetState true) (staleFirstCalls 8191)).SafePrune 200 = none ∧
      (filled (ClientManager.init.SetState true) (staleFirstCalls 8191)).CheckIPRate
        (8191 + 1) 200 = none ∧
      runChecks (ClientManager.init.SetState true)
        (staleFirstCalls 8191 ++ [(8191 + 1, 200)]) = none :=
  ⟨by decide, by decide,
    staleFirst_undefined (ClientManager.init.SetState true) 8191 rfl rfl rfl rfl (by decide)⟩

theorem ClientManager.SafePrune_fresh (s : ClientManager) (time : Nat) (hinv : Inv s)
    (hfresh : ∀ e ∈ s.m_address_map, (deref s.heap e.2).TimedOut time = false) :
    s.SafePrune time = some s := by
  unfold ClientManager.SafePrune
  rw [safePruneScan_fresh time s.heap _ s.m_address_map hfresh]
  have hfilter : s.m_clients.filter (fun p => !(deref s.heap p).MarkedForRemoval)
      = s.m_clients := by
    rw [List.filter_eq_self]
    intro p hp
    rw [hinv.perm.mem_iff] at hp
    obtain ⟨e, he, heq⟩ := List.mem_map.mp hp
    rw [← heq, hinv.unmarked e he]
    rfl
  simp only [hfilter]

/-- A call that reaches `LastDitchPrune` from a state with the structural invariants is
defined and leaves `LastDitchPruneMaxClients + 1` entries in the registry. -/
theorem ClientManager.CheckIPRate_after_lastDitch (s : ClientManager) (address time : Nat)
    (hinv : Inv s) (hruns : s.runsLastDitchPrune address time) :
    ∃ v s3, s.CheckIPRate address time = some (v, s3) ∧
      s3.m_address_map.length = ClientManager.LastDitchPruneMaxClients + 1 := by
  obtain ⟨hen, hfind, s1, h1, hfull⟩ := hruns
  have hinv1 : Inv s1 := by
    split_ifs at h1
    · exact Inv.SafePrune_preserved s s1 hinv time h1
    · simp only [Option.some.injEq] at h1
      rw [← h1]
      exact hinv
  have hl := hinv1.perm.length_eq
  rw [List.length_map] at hl
  have hK := prune_target_lt
  obtain ⟨s2, heq⟩ : ∃ s2, s1.LastDitchPrune = some s2 :=
    ⟨_, ClientManager.LastDitchPrune_eq s1 (by omega)⟩
  obtain ⟨hinv2, hlen2⟩ := Inv.LastDitchPrune_preserved s1 s2 hinv1 heq
  have hl2 := hinv2.perm.length_eq
  rw [List.length_map] at hl2
  have hnew : s.checkNew address time = some (s2.addClient address time) := by
    unfold ClientManager.checkNew
    simp only [h1, if_pos hfull, heq]
  refine ⟨((s2.addClient address time).globalWindow time).1,
    ((s2.addClient address time).globalWindow time).2, ?_, ?_⟩
  · unfold ClientManager.CheckIPRate
    simp only [hen, hfind, Bool.not_true, Bool.false_eq_true, if_false, hnew]
  · rw [(ClientManager.globalWindow_frame _ time).2.2.1,
      (ClientManager.addClient_frame s2 address time).2.1, List.length_cons, ← hl2, hlen2]


/-! ## Registries filled from an empty limiter -/

theorem runChecks_from_empty (s0 : ClientManager) (qs : List (Nat × Nat))
    (hen : s0.m_enabled = true) (hheap : s0.heap = []) (hcl : s0.m_clients = [])
    (hmap : s0.m_address_map = []) (hsorted : qs.Pairwise (fun a b => a.2 ≤ b.2))
    (hnd : (qs.map Prod.fst).Nodup) (hlen : qs.length ≤ ClientManager.MaxClients) :
    ∃ vs, runChecks s0 qs = some (vs, filled s0 qs) :=
  runChecks_filled qs s0 hen (by rw [hcl, hheap]; rfl)
    (by intro j hj; rw [hheap] at hj; simp at hj) hsorted hnd
    (by intro q _; rw [hmap]; rfl) (by rw [hmap]; simpa using hlen)

theorem filled_from_empty (s0 : ClientManager) (qs : List (Nat × Nat))
    (hheap : s0.heap = []) (hmap : s0.m_address_map = []) :
    (filled s0 qs).m_address_map = fillMap [] 0 qs ∧
    (filled s0 qs).m_clients = List.range qs.length ∧
    (∀ k q, qs[k]? = some q → deref (filled s0 qs).heap k = Client.initAt q.1 q.2) ∧
    (∀ e ∈ (filled s0 qs).m_address_map, ∃ q, qs[e.2]? = some q ∧ e.1 = q.1) := by
  have hm : (filled s0 qs).m_address_map = fillMap [] 0 qs := by
    show fillMap s0.m_address_map s0.heap.length qs = _
    rw [hmap, hheap]
    rfl
  have hh : (filled s0 qs).heap = [] ++ qs.map (fun q => Client.initAt q.1 q.2) := by
    show s0.heap ++ _ = _
    rw [hheap]
  refine ⟨hm, ?_, ?_, ?_⟩
  · show List.range (s0.heap.length + qs.length) = _
    rw [hheap]
    simp
  · intro k q hk
    have hd := deref_filled [] qs k q hk
    simp only [List.length_nil, Nat.zero_add] at hd
    rw [hh, hd]
  · intro e he
    rw [hm] at he
    obtain ⟨k, q, hk, hxe⟩ := mem_fillMap qs 0 e he
    refine ⟨q, ?_, ?_⟩
    · rw [hxe]
      simpa using hk
    · rw [hxe]

theorem uniformCalls_getElem (n t k : Nat) (q : Nat × Nat)
    (hk : (uniformCalls n t)[k]? = some q) : q = (k, t) ∧ k < n := by
  unfold uniformCalls at hk
  rw [List.getElem?_map] at hk
  cases hr : (List.range n)[k]? with
  | none => simp [hr] at hk
  | some a =>
    have ha : a < n := List.mem_range.mp (List.getElem?_mem hr)
    have hak : a = k := by
      rw [List.getElem?_range (by
        by_contra hlt
        rw [List.getElem?_eq_none (by simpa using hlt)] at hr
        simp at hr)] at hr
      simpa using hr.symm
    simp only [hr, Option.map_some', Option.some.injEq] at hk
    rw [← hk, hak]
    exact ⟨rfl, hak ▸ ha⟩

/-- A limiter filled to capacity by calls for distinct addresses at one time `t`: the calls
are all defined, every record is fresh at `t`, so `SafePrune` changes nothing and a call for
one more address at `t` reaches `LastDitchPrune`. -/
theorem uniform_full (s0 : ClientManager) (n t : Nat) (hr : Reachable s0)
    (hen : s0.m_enabled = true) (hheap : s0.heap = []) (hcl : s0.m_clients = [])
    (hmap : s0.m_address_map = []) (hn : n = ClientManager.MaxClients) :
    (∃ vs, runChecks s0 (uniformCalls n t) = some (vs, filled s0 (uniformCalls n t))) ∧
    Reachable (filled s0 (uniformCalls n t)) ∧
    (filled s0 (uniformCalls n t)).m_address_map.length = ClientManager.MaxClients ∧
    (filled s0 (uniformCalls n t)).m_clients.length = ClientManager.MaxClients ∧
    (filled s0 (uniformCalls n t)).SafePrune t = some (filled s0 (uniformCalls n t)) ∧
    (filled s0 (uniformCalls n t)).runsLastDitchPrune n t := by
  have hlenc : (uniformCalls n t).length = n := by simp [uniformCalls]
  obtain ⟨vs, hrun⟩ := runChecks_from_empty s0 (uniformCalls n t) hen hheap hcl hmap
    (by
      unfold uniformCalls
      rw [List.pairwise_map]
      exact List.pairwise_of_forall (fun _ _ => le_refl _))
    (by
      unfold uniformCalls
      rw [List.map_map]
      exact (List.nodup_range n).map (fun a b h => by simpa using h))
    (by rw [hlenc, hn])
  obtain ⟨hm, hc, hd, hent⟩ := filled_from_empty s0 (uniformCalls n t) hheap hmap
  have hreach := Reachable.runChecks_closed s0 _ _ vs hr hrun
  have hinv := (Inv.reachable _ hreach).1
  have hlen : (filled s0 (uniformCalls n t)).m_address_map.length
      = ClientManager.MaxClients := by
    rw [hm, fillMap_length, hlenc, hn]
    rfl
  have hfresh : ∀ e ∈ (filled s0 (uniformCalls n t)).m_address_map,
      (deref (filled s0 (uniformCalls n t)).heap e.2).TimedOut t = false ∧ e.1 ≠ n := by
    intro e he
    obtain ⟨q, hq, he1⟩ := hent e he
    obtain ⟨hq1, hlt⟩ := uniformCalls_getElem n t e.2 q hq
    rw [hd e.2 q hq, Client.TimedOut_initAt, hq1, sub32_self, he1, hq1]
    exact ⟨by decide, by simp; omega⟩
  have hprune := ClientManager.SafePrune_fresh _ t hinv (fun e he => (hfresh e he).1)
  refine ⟨⟨vs, hrun⟩, hreach, hlen, ?_, hprune, hen, ?_,
    ⟨filled s0 (uniformCalls n t), ?_, ?_⟩⟩
  · rw [hc, List.length_range, hlenc, hn]
  · rw [mapFind_none_iff]
    intro h
    obtain ⟨x, hx, hx1⟩ := List.mem_map.mp h
    exact (hfresh x hx).2 hx1
  · rw [if_pos (by rw [hlen]), hprune]
  · rw [hlen]


theorem fullRegistry_facts :
    (∃ vs, runChecks (ClientManager.init.SetState true)
      (uniformCalls ClientManager.MaxClients 0) = some (vs, fullRegistry)) ∧
    Reachable fullRegistry ∧
    fullRegistry.m_address_map.length = ClientManager.MaxClients ∧
    fullRegistry.m_clients.length = ClientManager.MaxClients ∧
    fullRegistry.SafePrune 0 = some fullRegistry ∧
    fullRegistry.runsLastDitchPrune ClientManager.MaxClients 0 :=
  uniform_full (ClientManager.init.SetState true) ClientManager.MaxClients 0
    ⟨[Op.SetState true], rfl⟩ rfl rfl rfl rfl rfl

/-- C15 (counterexample): on the enabled default limiter filled by `CheckIPRate( a, 0 )` for
`a = 0 .. 8191`, the call `CheckIPRate( 8192, 0 )` runs `LastDitchPrune` and returns with
`7169` entries in the registry, more than `LastDitchPruneMaxClients = 7168`. -/
theorem LastDitchPrune_call_exceeds_target :
    ClientManager.MaxClients = 8192 ∧ ClientManager.LastDitchPruneMaxClients = 7168 ∧
    Reachable fullRegistry ∧
    fullRegistry.runsLastDitchPrune ClientManager.MaxClients 0 ∧
    ∃ v s1, fullRegistry.CheckIPRate ClientManager.MaxClients 0 = some (v, s1) ∧
      s1.m_address_map.length = 7169 ∧
      ¬ s1.m_address_map.length ≤ ClientManager.LastDitchPruneMaxClients := by
  obtain ⟨_, hreach, _, _, _, hruns⟩ := fullRegistry_facts
  obtain ⟨v, s1, hc, hl⟩ := ClientManager.CheckIPRate_after_lastDitch fullRegistry
    ClientManager.MaxClients 0 (Inv.reachable _ hreach).1 hruns
  refine ⟨by decide, by decide, hreach, hruns, v, s1, hc, ?_, ?_⟩
  · rw [hl]
    decide
  · rw [hl]
    decide

/-- C15 (amended): from every reachable state, a call `CheckIPRate( address, time )` that runs
`LastDitchPrune` returns a verdict and leaves exactly `LastDitchPruneMaxClients + 1 = 7169`
entries in the registry: the `7168` that `LastDitchPrune` keeps and the entry of the new
address. -/
theorem CheckIPRate_size_after_LastDitchPrune (s : ClientManager) (address time : Nat)
    (hr : Reachable s) (hruns : s.runsLastDitchPrune address time) :
    ∃ v s1, s.CheckIPRate address time = some (v, s1) ∧
      s1.m_address_map.length = ClientManager.LastDitchPruneMaxClients + 1 ∧
      ClientManager.LastDitchPruneMaxClients + 1 = 7169 ∧
      s1.m_address_map.length ≤ ClientManager.MaxClients := by
  obtain ⟨v, s1, hc, hl⟩ := ClientManager.CheckIPRate_after_lastDitch s address time
    (Inv.reachable s hr).1 hruns
  refine ⟨v, s1, hc, hl, by decide, ?_⟩
  rw [hl]
  decide

theorem CheckIPRate_size_after_LastDitchPrune_witness :
    Reachable fullRegistry ∧ fullRegistry.runsLastDitchPrune ClientManager.MaxClients 0 ∧
    ∃ v s1, fullRegistry.CheckIPRate ClientManager.MaxClients 0 = some (v, s1) ∧
      s1.m_address_map.length = ClientManager.LastDitchPruneMaxClients + 1 ∧
      ClientManager.LastDitchPruneMaxClients + 1 = 7169 ∧
      s1.m_address_map.length ≤ ClientManager.MaxClients :=
  ⟨fullRegistry_facts.2.1, fullRegistry_facts.2.2.2.2.2,
    CheckIPRate_size_after_LastDitchPrune fullRegistry ClientManager.MaxClients 0
      fullRegistry_facts.2.1 fullRegistry_facts.2.2.2.2.2⟩

theorem LastDitchPrune_evicts_oldest_witness :
    Inv fullRegistry ∧
    ClientManager.LastDitchPruneMaxClients ≤ fullRegistry.m_clients.length ∧
    (ClientManager.LastDitchPruneMaxClients = 7168 ∧
    ∃ s1, fullRegistry.LastDitchPrune = some s1 ∧
      s1.m_clients = fullRegistry.m_clients.drop
        (fullRegistry.m_clients.length - ClientManager.LastDitchPruneMaxClients) ∧
      s1.heap = fullRegistry.heap ∧
      s1.m_address_map.Sublist fullRegistry.m_address_map ∧
      (∀ e ∈ fullRegistry.m_address_map,
        (e ∉ s1.m_address_map ↔
          e.2 ∈ fullRegistry.m_clients.take
            (fullRegistry.m_clients.length - ClientManager.LastDitchPruneMaxClients)) ∧
        (e ∉ s1.m_address_map ↔
          e.1 ∈ (fullRegistry.m_clients.take
            (fullRegistry.m_clients.length - ClientManager.LastDitchPruneMaxClients)).map
              (fun p => (deref fullRegistry.heap p).GetAddress))) ∧
      s1.m_clients.length = ClientManager.LastDitchPruneMaxClients ∧
      s1.m_address_map.length = ClientManager.LastDitchPruneMaxClients ∧
      (∀ p ∈ fullRegistry.m_clients.take
          (fullRegistry.m_clients.length - ClientManager.LastDitchPruneMaxClients),
        ∀ q ∈ s1.m_clients,
          (deref fullRegistry.heap p).GetLastPing ≤ (deref fullRegistry.heap q).GetLastPing)) :=
  ⟨(Inv.reachable fullRegistry fullRegistry_facts.2.1).1,
    fullRegistry_facts.2.2.2.1.symm ▸ Nat.le_of_lt prune_target_lt,
    LastDitchPrune_evicts_oldest fullRegistry
      (Inv.reachable fullRegistry fullRegistry_facts.2.1).1
      (fullRegistry_facts.2.2.2.1.symm ▸ Nat.le_of_lt prune_target_lt)⟩

theorem staleFirstCalls_snoc (n : Nat) :
    ((staleFirstCalls n ++ [(n + 1, 200)]).map Prod.fst).Nodup ∧
    (staleFirstCalls n ++ [(n + 1, 200)]).length = n + 2 := by
  constructor
  · rw [List.map_append, List.nodup_append]
    refine ⟨staleFirstCalls_nodup n, by simp, ?_⟩
    intro a ha hb
    simp only [List.map_cons, List.map_nil, List.mem_singleton] at hb
    subst hb
    unfold staleFirstCalls at ha
    simp only [List.map_cons, List.map_map, List.mem_cons, List.mem_map, List.mem_range,
      Function.comp] at ha
    rcases ha with h | ⟨b, hb, hb2⟩
    · omega
    · omega
  · simp [staleFirstCalls]

/-- C19 (the code at the failing input): with `L = 1`, `W = 60`, `G = 200`, the calls
`CheckIPRate( 0, 0 )`, `CheckIPRate( a, 200 )` for `a = 1 .. 8191` and `CheckIPRate( 8192, 200 )`
query every address once (fewer than `L * W = 60` times) and are `8193` in all (fewer than
`G * W = 12000`), yet the last call has no defined verdict: `SafePrune` increments the end
iterator of the registry. -/
theorem CheckIPRate_undefined_below_quotas :
    mul32 1 60 = 60 ∧ mul32 200 60 = 12000 ∧
    (∀ a, ((staleFirstCalls 8191 ++ [(8191 + 1, 200)]).map Prod.fst).count a < 1 * 60) ∧
    (staleFirstCalls 8191 ++ [(8191 + 1, 200)]).length < 200 * 60 ∧
    (∃ vs, runChecks (configured 1 60 200) (staleFirstCalls 8191) =
      some (vs, filled (configured 1 60 200) (staleFirstCalls 8191))) ∧
    (filled (configured 1 60 200) (staleFirstCalls 8191)).CheckIPRate (8191 + 1) 200 = none ∧
    runChecks (configured 1 60 200) (staleFirstCalls 8191 ++ [(8191 + 1, 200)]) = none := by
  obtain ⟨vs, hrun, _, _, hcall, hnone⟩ :=
    staleFirst_undefined (configured 1 60 200) 8191 rfl rfl rfl rfl (by decide)
  refine ⟨by decide, by decide, ?_, ?_, ⟨vs, hrun⟩, hcall, hnone⟩
  · intro a
    have := List.nodup_iff_count_le_one.mp (staleFirstCalls_snoc 8191).1 a
    omega
  · rw [(staleFirstCalls_snoc 8191).2]
    decide


/-! ## Entries that `SafePrune` skips -/

/-- On a full registry filled by `twoStaleCalls`, `SafePrune( 200 )` erases the entry of
address `1` and steps over the entry of address `0`, which is timed out as well and stays. -/
theorem twoStale_skipped (s0 : ClientManager) (n : Nat) (hen : s0.m_enabled = true)
    (hheap : s0.heap = []) (hcl : s0.m_clients = []) (hmap : s0.m_address_map = [])
    (hn : n + 2 = ClientManager.MaxClients) :
    (∃ vs, runChecks s0 (twoStaleCalls n) = some (vs, filled s0 (twoStaleCalls n))) ∧
    (filled s0 (twoStaleCalls n)).m_address_map.length = ClientManager.MaxClients ∧
    ∃ s1, (filled s0 (twoStaleCalls n)).SafePrune 200 = some s1 ∧
      s1.m_address_map.length + 1 = ClientManager.MaxClients ∧
      (0, 0) ∈ s1.m_address_map ∧ (deref s1.heap 0).TimedOut 200 = true := by
  have hlenc : (twoStaleCalls n).length = n + 2 := by simp [twoStaleCalls]
  have hrun := runChecks_from_empty s0 (twoStaleCalls n) hen hheap hcl hmap
    (by
      unfold twoStaleCalls
      rw [List.pairwise_cons, List.pairwise_cons, List.pairwise_map]
      refine ⟨fun b _ => Nat.zero_le _, fun b _ => Nat.zero_le _, ?_⟩
      exact List.pairwise_of_forall (fun _ _ => le_refl _))
    (by
      unfold twoStaleCalls
      rw [List.map_cons, List.map_cons, List.map_map, List.nodup_cons, List.nodup_cons]
      refine ⟨?_, ?_, (List.nodup_range n).map (fun a b h => by simpa using h)⟩
      · simp
      · simp)
    (by rw [hlenc, hn])
  obtain ⟨hm0, _, hd, _⟩ := filled_from_empty s0 (twoStaleCalls n) hheap hmap
  have hm : (filled s0 (twoStaleCalls n)).m_address_map =
      fillMap [] 2 ((List.range n).map (fun a => (a + 2, 200))) ++ [(1, 1), (0, 0)] := by
    rw [hm0]
    unfold twoStaleCalls
    rw [fillMap, fillMap, fillMap_append_base]
  have hlen : (filled s0 (twoStaleCalls n)).m_address_map.length
      = ClientManager.MaxClients := by
    rw [hm0, fillMap_length, hlenc, hn]
    rfl
  have hpre : ∀ x ∈ fillMap [] 2 ((List.range n).map (fun a => (a + 2, 200))),
      (deref (filled s0 (twoStaleCalls n)).heap x.2).TimedOut 200 = false := by
    intro x hx
    obtain ⟨k, q, hk, hxe⟩ := mem_fillMap _ 2 x hx
    have hq : q.2 = 200 := by
      rw [List.getElem?_map] at hk
      cases hr : (List.range n)[k]? with
      | none => simp [hr] at hk
      | some a =>
        simp only [hr, Option.map_some', Option.some.injEq] at hk
        rw [← hk]
    have hk2 : (twoStaleCalls n)[2 + k]? = some q := by
      unfold twoStaleCalls
      rw [Nat.add_comm]
      simpa using hk
    rw [hxe]
    show (deref _ (2 + k)).TimedOut 200 = false
    rw [hd (2 + k) q hk2, Client.TimedOut_initAt, hq, sub32_self]
    decide
  have h0 : deref (filled s0 (twoStaleCalls n)).heap 0 = Client.initAt 0 0 :=
    hd 0 (0, 0) (by simp [twoStaleCalls])
  have h1 : deref (filled s0 (twoStaleCalls n)).heap 1 = Client.initAt 1 0 :=
    hd 1 (1, 0) (by simp [twoStaleCalls])
  have hstale1 : (deref (filled s0 (twoStaleCalls n)).heap 1).TimedOut 200 = true := by
    rw [h1, Client.TimedOut_initAt]
    decide
  have hsize : ¬ ClientManager.MaxClients - 1 ≤ ClientManager.SafePruneMaxClients := by
    decide
  have hscan : safePruneScan 200 false (filled s0 (twoStaleCalls n)).heap
      (filled s0 (twoStaleCalls n)).m_address_map.length
      (filled s0 (twoStaleCalls n)).m_address_map =
      some (store (filled s0 (twoStaleCalls n)).heap 1
          (deref (filled s0 (twoStaleCalls n)).heap 1).MarkForRemoval,
        fillMap [] 2 ((List.range n).map (fun a => (a + 2, 200))) ++ [(0, 0)]) := by
    rw [hlen, hm, safePruneScan_fresh_front 200 _ _ _ _ hpre]
    simp [safePruneScan, hstale1, hsize]
  have hex : ∃ s1, (filled s0 (twoStaleCalls n)).SafePrune 200 = some s1 ∧
      s1.heap = store (filled s0 (twoStaleCalls n)).heap 1
        (deref (filled s0 (twoStaleCalls n)).heap 1).MarkForRemoval ∧
      s1.m_address_map =
        fillMap [] 2 ((List.range n).map (fun a => (a + 2, 200))) ++ [(0, 0)] := by
    unfold ClientManager.SafePrune
    rw [hscan]
    exact ⟨_, rfl, rfl, rfl⟩
  obtain ⟨s1, hp, hh1, hm1⟩ := hex
  refine ⟨hrun, hlen, s1, hp, ?_, ?_, ?_⟩
  · rw [hm1, List.length_append, fillMap_length, ← hn]
    simp
  · rw [hm1]
    simp
  · rw [hh1, TimedOut_store_mark, h0, Client.TimedOut_initAt]
    decide

/-- C16 (the code at the failing input): the enabled default limiter after
`CheckIPRate( 0, 0 )`, `CheckIPRate( 1, 0 )` and `CheckIPRate( a, 200 )` for `a = 2 .. 8191`
satisfies the structural invariants and holds `8192 > SafePruneMaxClients` records; after
`SafePrune( 200 )` the registry holds `8191` entries, not `SafePruneMaxClients = 6144`, and
the record of address `0`, timed out at `200`, is still in it: the scan stepped over it after
erasing the entry of address `1`. -/
theorem SafePrune_skips_timed_out :
    ClientManager.SafePruneMaxClients = 6144 ∧
    (∃ vs, runChecks (ClientManager.init.SetState true) (twoStaleCalls 8190) =
      some (vs, filled (ClientManager.init.SetState true) (twoStaleCalls 8190))) ∧
    Inv (filled (ClientManager.init.SetState true) (twoStaleCalls 8190)) ∧
    ClientManager.SafePruneMaxClients <
      (filled (ClientManager.init.SetState true) (twoStaleCalls 8190)).m_address_map.length ∧
    ∃ s1, (filled (ClientManager.init.SetState true) (twoStaleCalls 8190)).SafePrune 200
        = some s1 ∧
      s1.m_address_map.length = 8191 ∧
      s1.m_address_map.length ≠ ClientManager.SafePruneMaxClients ∧
      ∃ e ∈ s1.m_address_map, (deref s1.heap e.2).TimedOut 200 = true := by
  obtain ⟨⟨vs, hrun⟩, hlen, s1, hprune, hlen1, hmem, hstale⟩ :=
    twoStale_skipped (ClientManager.init.SetState true) 8190 rfl rfl rfl rfl (by decide)
  have hreach := Reachable.runChecks_closed (ClientManager.init.SetState true) _ _ vs
    ⟨[Op.SetState true], rfl⟩ hrun
  have hM : ClientManager.MaxClients = 8192 := by decide
  have hT : ClientManager.SafePruneMaxClients = 6144 := by decide
  rw [hM] at hlen hlen1
  refine ⟨hT, ⟨vs, hrun⟩, (Inv.reachable _ hreach).1, ?_, s1, hprune, ?_, ?_, (0, 0), hmem,
    hstale⟩
  · rw [hlen, hT]
    decide
  · omega
  · rw [hT]
    omega


/-! ## A registry filled at increasing times -/

theorem rampCalls_getElem (n k : Nat) (q : Nat × Nat)
    (hk : (rampCalls n)[k]? = some q) : q = (k, k) ∧ k < n := by
  unfold rampCalls at hk
  rw [List.getElem?_map] at hk
  cases hr : (List.range n)[k]? with
  | none => simp [hr] at hk
  | some a =>
    have ha : a < n := List.mem_range.mp (List.getElem?_mem hr)
    have hak : a = k := by
      rw [List.getElem?_range (by
        by_contra hlt
        rw [List.getElem?_eq_none (by simpa using hlt)] at hr
        simp at hr)] at hr
      simpa using hr.symm
    simp only [hr, Option.map_some', Option.some.injEq] at hk
    rw [← hk, hak]
    exact ⟨rfl, hak ▸ ha⟩

theorem fillMap_rampCalls_succ (n : Nat) :
    fillMap [] 0 (rampCalls (n + 1)) = (n, n) :: fillMap [] 0 (rampCalls n) := by
  have h : rampCalls (n + 1) = rampCalls n ++ [(n, n)] := by
    unfold rampCalls
    rw [List.range_succ, List.map_append]
    rfl
  have hl : (rampCalls n).length = n := by simp [rampCalls]
  rw [h, fillMap_calls_append, hl, Nat.zero_add]
  rfl

/-- The registry after `rampCalls (A + B)`: the entries of the last `B` calls, then the
registry after `rampCalls A`. -/
theorem fillMap_rampCalls_add (A : Nat) :
    ∀ B : Nat, ∃ pre, fillMap [] 0 (rampCalls (A + B)) = pre ++ fillMap [] 0 (rampCalls A) ∧
      pre.length = B ∧ ∀ x ∈ pre, A ≤ x.2 := by
  intro B
  induction B with
  | zero => exact ⟨[], rfl, rfl, by simp⟩
  | succ B ih =>
    obtain ⟨pre, h1, h2, h3⟩ := ih
    refine ⟨(A + B, A + B) :: pre, ?_, by simp [h2], ?_⟩
    · rw [← Nat.add_assoc, fillMap_rampCalls_succ, h1]
      rfl
    · intro x hx
      rcases List.mem_cons.mp hx with h | h
      · rw [h]
        exact Nat.le_add_right _ _
      · exact h3 x h

/-- The scan of `SafePrune` over entries that are all timed out, with `j + 1` erasures to
go before the target size: it erases every second entry, the first `2 * j + 1` entries lose
`j + 1` of their number, and the entries after them are not visited. -/
theorem safePruneScan_all_stale (time : Nat) :
    ∀ (j : Nat) (m : List (Nat × Nat)) (heap : List Client) (size : Nat),
      (∀ e ∈ m, (deref heap e.2).TimedOut time = true) →
      size = ClientManager.SafePruneMaxClients + j + 1 → 2 * j + 1 ≤ m.length →
      ∃ heap1 kept, safePruneScan time false heap size m
          = some (heap1, kept ++ m.drop (2 * j + 1)) ∧ kept.length = j := by
  intro j
  induction j with
  | zero =>
    intro m heap size hst hsize hlen
    cases m with
    | nil => simp at hlen
    | cons e rest =>
      refine ⟨store heap e.2 (deref heap e.2).MarkForRemoval, [], ?_, rfl⟩
      rw [safePruneScan, if_pos (hst e (List.mem_cons_self _ _))]
      simp only
      rw [if_pos (by omega)]
      rfl
  | succ j ih =>
    intro m heap size hst hsize hlen
    cases m with
    | nil => simp at hlen
    | cons e rest =>
      cases rest with
      | nil => simp at hlen
      | cons e2 rest2 =>
        have hst2 : ∀ x ∈ rest2,
            (deref (store heap e.2 (deref heap e.2).MarkForRemoval) x.2).TimedOut time
              = true := by
          intro x hx
          rw [TimedOut_store_mark]
          exact hst x (List.mem_cons_of_mem _ (List.mem_cons_of_mem _ hx))
        obtain ⟨heap1, kept, hscan, hk⟩ := ih rest2
          (store heap e.2 (deref heap e.2).MarkForRemoval) (size - 1) hst2 (by omega)
          (by simp only [List.length_cons] at hlen; omega)
        refine ⟨heap1, e2 :: kept, ?_, by simp [hk]⟩
        rw [safePruneScan, if_pos (hst e (List.mem_cons_self _ _))]
        simp only
        rw [if_neg (by omega), safePruneScan, hscan]
        have e1 : 2 * (j + 1) + 1 = (2 * j + 1) + 1 + 1 := by omega
        rw [e1, List.drop_succ_cons, List.drop_succ_cons]
        rfl


/-- After `rampCalls n` on an empty enabled limiter with `n = MaxClients`, the call
`CheckIPRate( n, n )` runs `SafePrune` only: the records of the times up to `n - 120` are
timed out whatever the configured window, `SafePrune` erases every second one of them until
`SafePruneMaxClients` entries are left, `LastDitchPrune` does not run, and the entry of
address `0` is still in the registry when the call returns. -/
theorem ramp_call (s0 : ClientManager) (n A j : Nat) (hen : s0.m_enabled = true)
    (hheap : s0.heap = []) (hcl : s0.m_clients = []) (hmap : s0.m_address_map = [])
    (hn : n = ClientManager.MaxClients) (hA : A + 119 = n)
    (hj : ClientManager.SafePruneMaxClients + j + 1 = n) :
    (∃ vs, runChecks s0 (rampCalls n) = some (vs, filled s0 (rampCalls n))) ∧
    (filled s0 (rampCalls n)).m_address_map.length = ClientManager.MaxClients ∧
    mapFind (filled s0 (rampCalls n)).m_address_map n = none ∧
    ¬ (filled s0 (rampCalls n)).runsLastDitchPrune n n ∧
    ∃ v s2, (filled s0 (rampCalls n)).CheckIPRate n n = some (v, s2) ∧
      s2.m_address_map.length = ClientManager.SafePruneMaxClients + 1 ∧
      (0, 0) ∈ s2.m_address_map := by
  have hM : ClientManager.MaxClients = 8192 := by decide
  have hT : ClientManager.SafePruneMaxClients = 6144 := by decide
  have hlenc : (rampCalls n).length = n := by simp [rampCalls]
  have hrun := runChecks_from_empty s0 (rampCalls n) hen hheap hcl hmap
    (by
      unfold rampCalls
      rw [List.pairwise_map]
      exact (List.pairwise_lt_range n).imp (fun h => Nat.le_of_lt h))
    (by
      unfold rampCalls
      rw [List.map_map]
      exact (List.nodup_range n).map (fun a b h => by simpa using h))
    (by rw [hlenc, hn])
  obtain ⟨hm0, _, hd, hent⟩ := filled_from_empty s0 (rampCalls n) hheap hmap
  have hlen : (filled s0 (rampCalls n)).m_address_map.length = ClientManager.MaxClients := by
    rw [hm0, fillMap_length, hlenc, hn]
    rfl
  -- every entry is `(i, i)` with `i < n`, and its object was created at time `i`
  have hentry : ∀ e ∈ (filled s0 (rampCalls n)).m_address_map,
      e.1 = e.2 ∧ e.2 < n ∧
      (deref (filled s0 (rampCalls n)).heap e.2).TimedOut n = decide (120 ≤ n - e.2) := by
    intro e he
    obtain ⟨q, hq, he1⟩ := hent e he
    obtain ⟨hq1, hlt⟩ := rampCalls_getElem n e.2 q hq
    refine ⟨by rw [he1, hq1], hlt, ?_⟩
    rw [hd e.2 q hq, Client.TimedOut_initAt, hq1,
      sub32_eq n e.2 (by rw [hn, hM]; decide) (by rw [hn, hM] at hlt; unfold U32; omega),
      if_pos (Nat.le_of_lt hlt)]
  have hfind : mapFind (filled s0 (rampCalls n)).m_address_map n = none := by
    rw [mapFind_none_iff]
    intro h
    obtain ⟨x, hx, hx1⟩ := List.mem_map.mp h
    obtain ⟨h1, h2, _⟩ := hentry x hx
    omega
  -- the registry: `119` fresh entries, then the timed-out ones
  obtain ⟨pre, hsplit, hprelen, hpre⟩ := fillMap_rampCalls_add A 119
  rw [hA, ← hm0] at hsplit
  have hfresh : ∀ x ∈ pre,
      (deref (filled s0 (rampCalls n)).heap x.2).TimedOut n = false := by
    intro x hx
    have hin : x ∈ (filled s0 (rampCalls n)).m_address_map := by
      rw [hsplit]
      exact List.mem_append_left _ hx
    rw [(hentry x hin).2.2]
    have := hpre x hx
    exact decide_eq_false (by omega)
  have hstale : ∀ x ∈ fillMap [] 0 (rampCalls A),
      (deref (filled s0 (rampCalls n)).heap x.2).TimedOut n = true := by
    intro x hx
    have hin : x ∈ (filled s0 (rampCalls n)).m_address_map := by
      rw [hsplit]
      exact List.mem_append_right _ hx
    rw [(hentry x hin).2.2]
    obtain ⟨k, q, hk, hxe⟩ := mem_fillMap _ 0 x hx
    have hkA := (rampCalls_getElem A k q hk).2
    have hx2 : x.2 = 0 + k := by rw [hxe]
    exact decide_eq_true (by omega)
  have hAlen : (fillMap [] 0 (rampCalls A)).length = A := by
    rw [fillMap_length]
    simp [rampCalls]
  obtain ⟨heap1, kept, hscan0, hkept⟩ := safePruneScan_all_stale n j
    (fillMap [] 0 (rampCalls A)) (filled s0 (rampCalls n)).heap ClientManager.MaxClients
    hstale (by rw [hj, hn]) (by rw [hAlen]; omega)
  have hscan : safePruneScan n false (filled s0 (rampCalls n)).heap
      (filled s0 (rampCalls n)).m_address_map.length (filled s0 (rampCalls n)).m_address_map
      = some (heap1, pre ++ (kept ++ (fillMap [] 0 (rampCalls A)).drop (2 * j + 1))) := by
    rw [hlen, hsplit, safePruneScan_fresh_front n _ _ _ pre hfresh, hscan0]
    rfl
  have hex : ∃ s1, (filled s0 (rampCalls n)).SafePrune n = some s1 ∧
      s1.m_address_map = pre ++ (kept ++ (fillMap [] 0 (rampCalls A)).drop (2 * j + 1)) := by
    unfold ClientManager.SafePrune
    rw [hscan]
    exact ⟨_, rfl, rfl⟩
  obtain ⟨s1, hprune, hm1⟩ := hex
  have hlen1 : s1.m_address_map.length = ClientManager.SafePruneMaxClients := by
    rw [hm1, List.length_append, List.length_append, List.length_drop, hAlen, hprelen, hkept]
    omega
  have hlast : (0, 0) ∈ s1.m_address_map := by
    obtain ⟨x, hx, hxlen, _⟩ := fillMap_rampCalls_add 1 (A - 1)
    have e1 : 1 + (A - 1) = A := by omega
    rw [e1] at hx
    have e2 : fillMap [] 0 (rampCalls 1) = [(0, 0)] := rfl
    rw [hm1, hx, e2, List.drop_append_of_le_length (by omega)]
    simp
  have hsmall : ¬ s1.m_address_map.length ≥ ClientManager.MaxClients := by
    rw [hlen1, hT, hM]
    decide
  refine ⟨hrun, hlen, hfind, ?_, ((s1.addClient n n).globalWindow n).1,
    ((s1.addClient n n).globalWindow n).2, ?_, ?_, ?_⟩
  · rintro ⟨_, _, s3, h3, hfull⟩
    rw [if_pos (by rw [hlen]), hprune, Option.some.injEq] at h3
    rw [← h3] at hfull
    exact hsmall hfull
  · have hfull : (filled s0 (rampCalls n)).m_address_map.length ≥ ClientManager.MaxClients := by
      rw [hlen]
    have hen2 : (filled s0 (rampCalls n)).m_enabled = true := hen
    unfold ClientManager.CheckIPRate ClientManager.checkNew
    simp only [hen2, hfind, Bool.not_true, Bool.false_eq_true, if_false, if_pos hfull, hprune,
      if_neg hsmall]
  · rw [(ClientManager.globalWindow_frame _ n).2.2.1,
      (ClientManager.addClient_frame s1 n n).2.1, List.length_cons, hlen1]
  · rw [(ClientManager.globalWindow_frame _ n).2.2.1,
      (ClientManager.addClient_frame s1 n n).2.1]
    exact List.mem_cons_of_mem _ hlast


/-- C14 (the code at the failing input): with the window set to `10000 > 8192` and a global
quota of `50 * 10000` that `8193` calls do not reach, after `CheckIPRate( i, i )` for
`i = 0 .. 8191` the call `CheckIPRate( 8192, 8192 )` does not run `LastDitchPrune`:
`TimedOut` compares with the constant `120`, so `SafePrune` finds the records of the times
up to `8072` timed out and erases `2048` of them. The call returns with `6145` entries in the
registry, not `7169`, and the record of address `0` (last ping `0`) is still there. -/
theorem forced_prune_scenario_runs_SafePrune :
    (configured 1 10000 50).GetMaxQueriesWindow = 10000 ∧
    (rampCalls 8192 ++ [(8192, 8192)]).length < mul32 50 10000 ∧
    (∃ vs, runChecks (configured 1 10000 50) (rampCalls 8192) =
      some (vs, filled (configured 1 10000 50) (rampCalls 8192))) ∧
    (filled (configured 1 10000 50) (rampCalls 8192)).m_address_map.length = 8192 ∧
    mapFind (filled (configured 1 10000 50) (rampCalls 8192)).m_address_map 8192 = none ∧
    ¬ (filled (configured 1 10000 50) (rampCalls 8192)).runsLastDitchPrune 8192 8192 ∧
    ∃ v s2, (filled (configured 1 10000 50) (rampCalls 8192)).CheckIPRate 8192 8192
        = some (v, s2) ∧
      s2.m_address_map.length = 6145 ∧ s2.m_address_map.length ≠ 7169 ∧
      (0, 0) ∈ s2.m_address_map := by
  obtain ⟨hrun, hlen, hfind, hnot, v, s2, hcall, hlen2, hmem⟩ :=
    ramp_call (configured 1 10000 50) 8192 8073 2047 rfl rfl rfl rfl (by decide) (by decide)
      (by decide)
  have hM : ClientManager.MaxClients = 8192 := by decide
  have hT : ClientManager.SafePruneMaxClients = 6144 := by decide
  have hl : (rampCalls 8192).length = 8192 := by simp [rampCalls]
  rw [hM] at hlen
  rw [hT] at hlen2
  refine ⟨rfl, ?_, hrun, hlen, hfind, hnot, v, s2, hcall, hlen2, ?_, hmem⟩
  · rw [List.length_append, hl]
    decide
  · rw [hlen2]
    decide

end netfilter
